import Mathlib

/-!
Shared allocation records (`KokkosExp_SharedAlloc.cpp`).

A shallow embedding of `SharedAllocationRecord<void,void>`: the tracking list of allocation
records that hangs off a root record, with `is_sane`, the inserting constructor, `increment`
and `decrement`.

Modelling conventions.

* A pointer is a natural number, `0` is the null pointer.  The memory is a partial map from
  pointers to records; reading or writing through the null pointer or through a pointer that
  holds no record is undefined behaviour and ends the run with `Outcome.fault`.
* `m_count` is a C `int`, 32 bits wide in two's complement.  The field holds an integer and
  `atomic_fetch_add` stores the sum wrapped into the range of `int` (`wrap_int`), so a count
  of `INT_MAX` becomes `INT_MIN` by an `increment`, and a count of `INT_MIN` becomes `INT_MAX`
  by a `decrement`.  A theorem that gives the new count as `c + 1` or `c - 1` says for which
  counts `c` of type `int` this is so.
* `Kokkos::atomic_exchange` and `Kokkos::atomic_fetch_add` are single steps that return the
  previous value.  The operations below are the sequential executions of the source, one
  call at a time.
* The two spin loops and the walk of `is_sane` take a bound on their number of iterations
  (`fuel`); a loop that uses it up ends the run with `Outcome.timeout`.
* `throw_runtime_exception` ends the call with `Outcome.throws`, keeping the memory as it was
  at the throw.
* The deallocation callback stored in `m_dealloc` belongs to the allocator and is not part of
  this unit: calling it is recorded in `State.dealloc_calls`.  Likewise the `fprintf` of
  `is_sane` is recorded in `State.stderr`, after evaluating its arguments.
-/

namespace SharedAlloc

/-- Addresses of records; `0` is the null pointer. -/
abbrev Ptr := Nat

/-- Modelled from the spec: the typedef `function_type` of the deallocation callbacks is in
the class declaration, which is not in this file; a callback is named by a token. -/
abbrev function_type := Nat

/-- Modelled from the spec: the class declaration of `SharedAllocationRecord<void,void>` is
not in this file; the data members are the seven that the constructor initialises, with the
pointer and size of the tracked block as opaque numbers. -/
structure SharedAllocationRecord where
  m_alloc_ptr : Nat
  m_alloc_size : Nat
  m_dealloc : function_type
  m_root : Ptr
  m_prev : Ptr
  m_next : Ptr
  m_count : Int
  deriving DecidableEq, Repr

/-- The memory: which record, if any, lives at each address. -/
abbrev Heap := Ptr → Option SharedAllocationRecord

/-- The seven values printed by the failing branch of `is_sane`. -/
structure Diagnostic where
  node : Ptr
  m_count : Int
  m_root : Ptr
  m_next : Ptr
  m_prev : Ptr
  next_prev : Ptr
  prev_next : Ptr
  deriving DecidableEq, Repr

/-- The observable state: the memory, the calls made to deallocation callbacks (callback and
argument, oldest first) and the diagnostics written to `stderr`. -/
structure State where
  heap : Heap
  dealloc_calls : List (function_type × Ptr)
  stderr : List Diagnostic

/-- The five `throw_runtime_exception` sites of the file. -/
inductive Failure where
  | is_sane_unlocking
  | locking_unlocking
  | failed_increment
  | decrement_unlocking
  | decrement_count
  deriving DecidableEq, Repr

/-- How a call ends. -/
inductive Outcome (α : Type) where
  | returns (v : α) (s : State)
  | throws (e : Failure) (s : State)
  | fault
  | timeout

/-- A computation of the source: a function from the state before to the outcome. -/
def Exec (α : Type) : Type := State → Outcome α

/-- Sequencing: the second computation runs only when the first one returned. -/
def Exec.bind {α β : Type} (m : Exec α) (f : α → Exec β) : Exec β := fun s =>
  match m s with
  | .returns v s1 => f v s1
  | .throws e s1 => .throws e s1
  | .fault => .fault
  | .timeout => .timeout

instance : Monad Exec where
  pure v := fun s => .returns v s
  bind := Exec.bind

/-- Modelled from the spec: `Kokkos::Impl::throw_runtime_exception` is not in this file; it
reports a protocol violation, which ends the call at the point of detection. -/
def throw_runtime_exception {α : Type} (e : Failure) : Exec α := fun s => .throws e s

/-- A loop ran out of its iteration bound. -/
def out_of_fuel {α : Type} : Exec α := fun _ => .timeout

/-- The memory with the record at `p` replaced. -/
def Heap.set (h : Heap) (p : Ptr) (r : SharedAllocationRecord) : Heap :=
  fun q => if q = p then some r else h q

/-- Read the record that `p` points to. -/
def load (p : Ptr) : Exec SharedAllocationRecord := fun s =>
  if p = 0 then .fault else
  match s.heap p with
  | some r => .returns r s
  | none => .fault

/-- Overwrite the record that `p` points to. -/
def store (p : Ptr) (r : SharedAllocationRecord) : Exec Unit := fun s =>
  if p = 0 then .fault else
  match s.heap p with
  | some _ => .returns () { s with heap := s.heap.set p r }
  | none => .fault

/-- The member initialisers of a constructor: a record comes to life in the storage at
`this`, which the caller provides. -/
def emplace (this : Ptr) (r : SharedAllocationRecord) : Exec Unit := fun s =>
  .returns () { s with heap := s.heap.set this r }

/-- The assignment `p->m_prev = v`. -/
def write_prev (p v : Ptr) : Exec Unit := do
  let r ← load p
  store p { r with m_prev := v }

/-- The assignment `p->m_next = v`. -/
def write_next (p v : Ptr) : Exec Unit := do
  let r ← load p
  store p { r with m_next := v }

/-- Modelled from the spec: `Kokkos::atomic_exchange` is not in this file; it is the atomic
swap that stores the new value and returns the one it found.  This is the step
`Kokkos::atomic_exchange( & p->m_next , v )`. -/
def atomic_exchange_next (p v : Ptr) : Exec Ptr := do
  let r ← load p
  store p { r with m_next := v }
  pure r.m_next

/-- The least value of the C type `int`, 32 bits wide. -/
def INT_MIN : Int := -2147483648

/-- The greatest value of the C type `int`, 32 bits wide. -/
def INT_MAX : Int := 2147483647

/-- The value of type `int` that an addition with the exact result `x` leaves: `x` modulo
`2^32`, taken in the range from `INT_MIN` to `INT_MAX`. -/
def wrap_int (x : Int) : Int := (x + 2147483648) % 4294967296 - 2147483648

/-- Modelled from the spec: `Kokkos::atomic_fetch_add` is not in this file; it is the atomic
add that returns the value observed before the add.  This is the step
`Kokkos::atomic_fetch_add( & p->m_count , d )`, on a counter of type `int`: the sum that is
stored wraps around at `INT_MAX` and at `INT_MIN`. -/
def atomic_fetch_add_count (p : Ptr) (d : Int) : Exec Int := do
  let r ← load p
  store p { r with m_count := wrap_int (r.m_count + d) }
  pure r.m_count

/-- Modelled from the spec: the deallocation callback is supplied by the allocator and its
body is not part of this unit.  The call `(*d)( p )` is recorded, with the callback and its
argument, and leaves the memory as `decrement` made it. -/
def call_dealloc (d : function_type) (p : Ptr) : Exec Unit := fun s =>
  .returns () { s with dealloc_calls := s.dealloc_calls ++ [(d, p)] }

/-- The `fprintf` to `stderr` in `is_sane`. -/
def fprintf_stderr (d : Diagnostic) : Exec Unit := fun s =>
  .returns () { s with stderr := s.stderr ++ [d] }

/-- The loop `while ( ( root_next = atomic_exchange( & root->m_next , zero ) ) == 0 );` where
`cell` evaluates the expression that names the root. -/
def lock_spin (cell : Exec Ptr) : Nat → Exec Ptr
  | 0 => out_of_fuel
  | fuel + 1 => do
    let root ← cell
    let root_next ← atomic_exchange_next root 0
    if root_next = 0 then lock_spin cell fuel else pure root_next

/-- The body of the `for` loop of `is_sane` for the node `rec`, diagnostic included; the
result is the new value of `ok`. -/
def is_sane_body (root root_next rec : Ptr) : Exec Bool := do
  let ok_non_null ←
    if rec ≠ 0 then do
      let r ← load rec
      if r.m_prev ≠ 0 then
        if rec = root then pure true else pure (decide (r.m_next ≠ 0))
      else pure false
    else pure false
  let ok_root ←
    if ok_non_null then do
      let r ← load rec
      pure (decide (r.m_root = root))
    else pure false
  let ok_prev_next ←
    if ok_non_null then do
      let r ← load rec
      if r.m_prev ≠ root then do
        let p ← load r.m_prev
        pure (decide (p.m_next = rec))
      else pure (decide (root_next = rec))
    else pure false
  let ok_next_prev ←
    if ok_non_null then do
      let r ← load rec
      let n ← load r.m_next
      pure (decide (n.m_prev = rec))
    else pure false
  let ok_count ←
    if ok_non_null then do
      let r ← load rec
      pure (decide (0 ≤ r.m_count))
    else pure false
  let ok := ok_root && ok_prev_next && ok_next_prev && ok_count
  if ! ok then do
    let r ← load rec
    let n ← load r.m_next
    let prev_next ←
      if r.m_prev ≠ r.m_root then do
        let p ← load r.m_prev
        pure p.m_next
      else pure root_next
    fprintf_stderr
      { node := rec, m_count := r.m_count, m_root := r.m_root, m_next := r.m_next,
        m_prev := r.m_prev, next_prev := n.m_prev, prev_next := prev_next }
    pure ok
  else pure ok

/-- The loop `for ( rec = root_next ; ok && rec != root ; rec = rec->m_next )` of `is_sane`,
entered with the current values of `ok` and `rec`; the result is the final value of `ok`. -/
def is_sane_walk (root root_next : Ptr) : Nat → Bool → Ptr → Exec Bool
  | 0, _, _ => out_of_fuel
  | fuel + 1, ok, rec =>
    if ok ∧ rec ≠ root then do
      let ok1 ← is_sane_body root root_next rec
      let r ← load rec
      is_sane_walk root root_next fuel ok1 r.m_next
    else pure ok

/-- The function `SharedAllocationRecord<void,void>::is_sane`. -/
def is_sane (fuel : Nat) (arg_record : Ptr) : Exec Bool := do
  let root ←
    if arg_record ≠ 0 then do
      let r ← load arg_record
      pure r.m_root
    else pure 0
  let ok ←
    if root ≠ 0 then do
      let r ← load root
      pure (decide (r.m_count = 0))
    else pure false
  if ok then do
    let root_next ← lock_spin (pure root) fuel
    let ok1 ← is_sane_walk root root_next fuel ok root_next
    let old ← atomic_exchange_next root root_next
    if old ≠ 0 then throw_runtime_exception Failure.is_sane_unlocking
    else pure ok1
  else pure ok

/-- The loop `while ( ( m_next = atomic_exchange( & m_root->m_next , zero ) ) == 0 );` of the
constructor, which stores every value it reads in the `m_next` of the new record. -/
def construct_lock (this : Ptr) : Nat → Exec Unit
  | 0 => out_of_fuel
  | fuel + 1 => do
    let r ← load this
    let v ← atomic_exchange_next r.m_root 0
    write_next this v
    if v = 0 then construct_lock this fuel else pure ()

/-- The constructor `SharedAllocationRecord( arg_root , arg_alloc_ptr , arg_alloc_size ,
arg_dealloc )` run on the storage at `this`; the result is `this`. -/
def construct (fuel : Nat) (this arg_root : Ptr) (arg_alloc_ptr arg_alloc_size : Nat)
    (arg_dealloc : function_type) : Exec Ptr := do
  emplace this
    { m_alloc_ptr := arg_alloc_ptr, m_alloc_size := arg_alloc_size, m_dealloc := arg_dealloc,
      m_root := arg_root, m_prev := 0, m_next := 0, m_count := 0 }
  let r ← load this
  write_prev this r.m_root
  construct_lock this fuel
  let r1 ← load this
  write_prev r1.m_next this
  let r2 ← load this
  let old ← atomic_exchange_next r2.m_root this
  if old ≠ 0 then throw_runtime_exception Failure.locking_unlocking
  else pure this

/-- The function `SharedAllocationRecord<void,void>::increment`. -/
def increment (arg_record : Ptr) : Exec Unit := do
  let old_count ← atomic_fetch_add_count arg_record 1
  if old_count < 0 then throw_runtime_exception Failure.failed_increment
  else pure ()

/-- The function `SharedAllocationRecord<void,void>::decrement`; the result is the returned
pointer. -/
def decrement (fuel : Nat) (arg_record : Ptr) : Exec Ptr := do
  let old_count ← atomic_fetch_add_count arg_record (-1)
  if old_count = 1 then do
    let root_next ← lock_spin
      (do
        let r ← load arg_record
        pure r.m_root)
      fuel
    let r ← load arg_record
    write_prev r.m_next r.m_prev
    let root_next1 ←
      if root_next ≠ arg_record then do
        let r1 ← load arg_record
        write_next r1.m_prev r1.m_next
        pure root_next
      else do
        let r1 ← load arg_record
        pure r1.m_next
    let r2 ← load arg_record
    let old ← atomic_exchange_next r2.m_root root_next1
    if old ≠ 0 then throw_runtime_exception Failure.decrement_unlocking
    else do
      write_next arg_record 0
      write_prev arg_record 0
      let r3 ← load arg_record
      call_dealloc r3.m_dealloc arg_record
      pure 0
  else if old_count < 1 then throw_runtime_exception Failure.decrement_count
  else pure arg_record

/-- Modelled from the spec: the default constructor, which makes a root record, is not in
this file.  A freshly created root `R` has the chain `[R]` and count zero: it is its own
root, predecessor and successor.  This is the state that holds that record alone. -/
def fresh_root (R : Ptr) : State :=
  { heap := fun q =>
      if q = R then
        some { m_alloc_ptr := 0, m_alloc_size := 0, m_dealloc := 0,
               m_root := R, m_prev := R, m_next := R, m_count := 0 }
      else none
    dealloc_calls := []
    stderr := [] }

/-- The returned value of a call that returned. -/
def Outcome.value {α : Type} : Outcome α → Option α
  | .returns v _ => some v
  | _ => none

/-- The state a call ended in, when it returned or threw. -/
def Outcome.state {α : Type} : Outcome α → Option State
  | .returns _ s => some s
  | .throws _ s => some s
  | _ => none

/-- The exception of a call that threw. -/
def Outcome.thrown {α : Type} : Outcome α → Option Failure
  | .throws e _ => some e
  | _ => none

/-- The `m_next` of the record at `p`, when there is one. -/
def next_of (h : Heap) (p : Ptr) : Option Ptr := (h p).map (fun r => r.m_next)

/-- The `m_prev` of the record at `p`, when there is one. -/
def prev_of (h : Heap) (p : Ptr) : Option Ptr := (h p).map (fun r => r.m_prev)

/-- The `m_root` of the record at `p`, when there is one. -/
def root_of (h : Heap) (p : Ptr) : Option Ptr := (h p).map (fun r => r.m_root)

/-- The `m_count` of the record at `p`, when there is one. -/
def count_of (h : Heap) (p : Ptr) : Option Int := (h p).map (fun r => r.m_count)

/-- The records `l` lie between `p` and `e`: the `m_next` links lead from `p` through `l`, in
order, to `e`, and the `m_prev` links lead back. -/
def Segment (h : Heap) : Ptr → List Ptr → Ptr → Prop
  | p, [], e => next_of h p = some e ∧ prev_of h e = some p
  | p, q :: l, e => next_of h p = some q ∧ prev_of h q = some p ∧ Segment h q l e

/-- The chain of the root `R` is the closed circle `R, l, R`: invariants 1 to 3 of the data
model, with the lock free.  The records of `l` are the non-root records, in the order in
which `m_next` visits them from `R`. -/
structure Linked (h : Heap) (R : Ptr) (l : List Ptr) : Prop where
  nodup : (R :: l).Nodup
  nonnull : ∀ x ∈ R :: l, x ≠ 0
  roots : ∀ x ∈ R :: l, root_of h x = some R
  links : Segment h R l R

/-- A well-formed chain: `Linked`, the count of the root is zero and no count is negative
(invariant 4 of the data model). -/
structure Sane (h : Heap) (R : Ptr) (l : List Ptr) : Prop where
  linked : Linked h R l
  root_count : count_of h R = some 0
  counts : ∀ x ∈ l, ∃ c : Int, count_of h x = some c ∧ 0 ≤ c

/-- Whether the records `l` lie between `p` and `e` can be computed. -/
instance Segment.decidable (h : Heap) :
    ∀ (p : Ptr) (l : List Ptr) (e : Ptr), Decidable (Segment h p l e)
  | p, [], e => inferInstanceAs (Decidable (next_of h p = some e ∧ prev_of h e = some p))
  | p, q :: l, e =>
    have : Decidable (Segment h q l e) := Segment.decidable h q l e
    inferInstanceAs
      (Decidable (next_of h p = some q ∧ prev_of h q = some p ∧ Segment h q l e))

/-- Whether a chain is linked can be computed. -/
instance Linked.decidable (h : Heap) (R : Ptr) (l : List Ptr) : Decidable (Linked h R l) :=
  decidable_of_iff
    ((R :: l).Nodup ∧ (∀ x ∈ R :: l, x ≠ 0) ∧ (∀ x ∈ R :: l, root_of h x = some R) ∧
      Segment h R l R)
    ⟨fun c => ⟨c.1, c.2.1, c.2.2.1, c.2.2.2⟩, fun c => ⟨c.nodup, c.nonnull, c.roots, c.links⟩⟩

/-- Whether a count is there and not negative can be computed. -/
instance count_decidable (o : Option Int) : Decidable (∃ c : Int, o = some c ∧ 0 ≤ c) :=
  match o with
  | none => isFalse (by simp)
  | some v => decidable_of_iff (0 ≤ v) (by simp)

/-- Whether a chain is well formed can be computed. -/
instance Sane.decidable (h : Heap) (R : Ptr) (l : List Ptr) : Decidable (Sane h R l) :=
  decidable_of_iff
    (Linked h R l ∧ count_of h R = some 0 ∧ ∀ x ∈ l, ∃ c : Int, count_of h x = some c ∧ 0 ≤ c)
    ⟨fun c => ⟨c.1, c.2.1, c.2.2⟩, fun c => ⟨c.linked, c.root_count, c.counts⟩⟩

/-- The memory after the assignment `p->m_next = v`. -/
def set_next (h : Heap) (p v : Ptr) : Heap :=
  fun q => if q = p then (h q).map (fun r => { r with m_next := v }) else h q

/-- The memory after the assignment `p->m_prev = v`. -/
def set_prev (h : Heap) (p v : Ptr) : Heap :=
  fun q => if q = p then (h q).map (fun r => { r with m_prev := v }) else h q

/-- The memory after the assignment `p->m_count = c`. -/
def set_count (h : Heap) (p : Ptr) (c : Int) : Heap :=
  fun q => if q = p then (h q).map (fun r => { r with m_count := c }) else h q

/-- The last record of the path `p, l`. -/
def end_of : Ptr → List Ptr → Ptr
  | p, [] => p
  | _, q :: l => end_of q l

/-- The first record of the path `l, e`. -/
def head_of : List Ptr → Ptr → Ptr
  | [], e => e
  | q :: _, _ => q

/-- The memory that `decrement` leaves when it unlinks `X`, between `a` and `b`. -/
def unlinked (h : Heap) (X a b : Ptr) : Heap :=
  set_prev (set_next (set_next (set_prev (set_count h X 0) b a) a b) X 0) X 0

/-- The chain `1, 2, 3, 4` under the root `1`, in which the record `3` has one owner and the
records `2` and `4` have two. -/
def sample_chain : State :=
  { heap := fun q =>
      if q = 1 then some ⟨0, 0, 0, 1, 4, 2, 0⟩
      else if q = 2 then some ⟨20, 8, 5, 1, 1, 3, 2⟩
      else if q = 3 then some ⟨30, 8, 5, 1, 2, 4, 1⟩
      else if q = 4 then some ⟨40, 8, 5, 1, 3, 1, 2⟩
      else none
    dealloc_calls := []
    stderr := [] }

/-- The states reached from the fresh root `R` by calls that returned: constructors under
`R` on fresh storage, and `increment` and `decrement` of records other than `R`, where no
`increment` is of a record whose count is `INT_MAX`. -/
inductive Reachable (R : Ptr) : State → Prop
  | fresh : Reachable R (fresh_root R)
  | construct {s s1 : State} (fuel : Nat) (this : Ptr) (arg_alloc_ptr arg_alloc_size : Nat)
      (arg_dealloc : function_type) :
      Reachable R s → this ≠ 0 → s.heap this = none →
      construct fuel this R arg_alloc_ptr arg_alloc_size arg_dealloc s = .returns this s1 →
      Reachable R s1
  | increment {s s1 : State} (x : Ptr) :
      Reachable R s → x ≠ R → count_of s.heap x ≠ some INT_MAX →
      increment x s = .returns () s1 → Reachable R s1
  | decrement {s s1 : State} (fuel : Nat) (x v : Ptr) :
      Reachable R s → x ≠ R → decrement fuel x s = .returns v s1 → Reachable R s1

/-- The chain of `R` is well formed with the records `l`, and every other record of the
memory has been released: it has root `R` and null links. -/
def Tracked (R : Ptr) (s : State) (l : List Ptr) : Prop :=
  Sane s.heap R l ∧
    ∀ x r, x ∉ R :: l → s.heap x = some r → r.m_root = R ∧ r.m_prev = 0 ∧ r.m_next = 0

/-- A lifecycle call on one record. -/
inductive Op where
  | increment
  | decrement
  deriving DecidableEq, Repr

/-- The call `op` on the record `X`; the pointer that `decrement` returns is dropped. -/
def Op.run (fuel : Nat) (X : Ptr) : Op → Exec Unit
  | .increment => SharedAlloc.increment X
  | .decrement => do
    let _ ← SharedAlloc.decrement fuel X
    pure ()

/-- The calls `ops` on the record `X`, one after the other.  A call that throws hands its
state to the next call, as when the exception is caught; a fault or a spin without end stops
the run, which then has no final state. -/
def run_ops (fuel : Nat) (X : Ptr) : List Op → State → Option State
  | [], s => some s
  | op :: ops, s => (op.run fuel X s).state.bind (run_ops fuel X ops)

/-- The two stages in the life of the record `X` with callback `d`, constructed under `R`
in front of the records `l` when the callback log was `log`: either `X` is linked and its
callback has not been called, or `X` has been released, its links are null and its callback
has been called once. -/
def Lifecycle (R : Ptr) (l : List Ptr) (X : Ptr) (d : function_type)
    (log : List (function_type × Ptr)) (s : State) : Prop :=
  (∃ r, s.heap X = some r ∧ r.m_dealloc = d ∧ r.m_root = R) ∧
    ((Linked s.heap R (X :: l) ∧ s.dealloc_calls = log) ∨
      (Linked s.heap R l ∧ X ∉ R :: l ∧ next_of s.heap X = some 0 ∧
        s.dealloc_calls = log ++ [(d, X)]))

/-- The state after the constructor has put a first record, at address 2, under the fresh
root 1. -/
def sample_first : State :=
  ⟨set_next (set_prev ((fresh_root 1).heap.set 2 ⟨7, 8, 9, 1, 1, 1, 0⟩) 1 2) 1 2, [], []⟩

/-- The state `sample_first` after an `increment` of the record 2. -/
def sample_owned : State := ⟨set_count sample_first.heap 2 1, [], []⟩

/-- The state `sample_owned` after a `decrement` of the record 2. -/
def sample_released : State := ⟨unlinked sample_owned.heap 2 1 1, [(9, 2)], []⟩

/-- No `decrement` of the sequence `ops`, run on a record whose count is `c`, finds the
count 1: no call of the sequence releases the record.  The count moves as an `int`. -/
def no_release : Int → List Op → Prop
  | _, [] => True
  | c, .increment :: ops => no_release (wrap_int (c + 1)) ops
  | c, .decrement :: ops => c ≠ 1 ∧ no_release (wrap_int (c - 1)) ops

/-- The arguments of one constructor call under a given root: the storage of the new
record, the allocation pointer, the allocation size and the callback. -/
structure ConstructArgs where
  this : Ptr
  arg_alloc_ptr : Nat
  arg_alloc_size : Nat
  arg_dealloc : function_type
  deriving DecidableEq, Repr

/-- The constructor calls `cs` under the root `R`, one after the other; there is a final
state when every call returned. -/
def construct_all (fuel : Nat) (R : Ptr) : List ConstructArgs → State → Option State
  | [], s => some s
  | c :: cs, s =>
    match construct fuel c.this R c.arg_alloc_ptr c.arg_alloc_size c.arg_dealloc s with
    | .returns _ s1 => construct_all fuel R cs s1
    | _ => none

/-- Follow `m_next` from the record `p` until the root `R` comes up, for at most `fuel`
steps; the result is the list of the records met before `R`. -/
def follow_next (h : Heap) (R : Ptr) : Nat → Ptr → Option (List Ptr)
  | 0, _ => none
  | fuel + 1, p =>
    match next_of h p with
    | none => none
    | some q => if q = R then some [] else (follow_next h R fuel q).map (fun l => q :: l)

/-- The memory that the constructor leaves when it links the new record `this` between the
root `R` and its successor `S`. -/
def inserted (h : Heap) (this R S : Ptr) (a b : Nat) (d : function_type) : Heap :=
  set_next (set_prev (h.set this ⟨a, b, d, R, R, S, 0⟩) S this) R this

/-- The five checks of the loop body of `is_sane` on the record `n`, for the root `R` whose
successor read under the lock is `F`, in the memory `g`: the links are not null, the root
field is `R`, the forward link of the predecessor comes back to `n` (for a predecessor that
is the root, whose link is the lock cell, `F` is `n`), the backward link of the successor
comes back to `n`, and the count is not negative. -/
def node_ok (g : Heap) (R F n : Ptr) : Prop :=
  n ≠ 0 ∧ ∃ rn, g n = some rn ∧ rn.m_prev ≠ 0 ∧ rn.m_next ≠ 0 ∧ rn.m_root = R ∧
    (if rn.m_prev ≠ R then next_of g rn.m_prev = some n else F = n) ∧
    prev_of g rn.m_next = some n ∧ 0 ≤ rn.m_count

/-- The walk of `is_sane` entered at `n` visits the records `l`, in this order, and then
comes to the root: every record of `l` is not the root, passes the five checks of the loop
body, and its `m_next` is the record that the walk looks at next. -/
def Visits (g : Heap) (R F : Ptr) : Ptr → List Ptr → Prop
  | n, [] => n = R
  | n, q :: l =>
    q = n ∧ n ≠ R ∧ node_ok g R F n ∧ ∃ m, next_of g n = some m ∧ Visits g R F m l


/-- The `m_next` links lead from `p` through the records `l`, in order, to `e`. -/
def NextPath (h : Heap) : Ptr → List Ptr → Ptr → Prop
  | p, [], e => next_of h p = some e
  | p, q :: l, e => next_of h p = some q ∧ NextPath h q l e

/-- What `is_sane` has checked of a record `n` that it met under the root `R`: its root
field is `R`, its count is not negative, `n.prev.next` is `n` and `n.next.prev` is `n`. -/
def Checked (h : Heap) (R n : Ptr) : Prop :=
  ∃ rn, h n = some rn ∧ rn.m_root = R ∧ 0 ≤ rn.m_count ∧
    next_of h rn.m_prev = some n ∧ prev_of h rn.m_next = some n

/-- What a true result of `is_sane` says of the chain of the root `R`: the count of the root
is zero, the `m_next` links lead from `R` through the records `l`, which are distinct, not
null and not `R`, back to `R`, and every record of `l` is `Checked`. -/
structure Passes (h : Heap) (R : Ptr) (l : List Ptr) : Prop where
  nodup : (R :: l).Nodup
  nonnull : ∀ x ∈ R :: l, x ≠ 0
  root_count : count_of h R = some 0
  path : NextPath h R l R
  checked : ∀ n ∈ l, Checked h R n


/-- A memory that `is_sane` accepts although the root is not well linked: the record 2 is
the only record under the root 1, but its `m_prev` is the record 3, which is not in the
chain and whose `m_next` is 2, and the root field of the root is 9. -/
def sample_stray : State :=
  { heap := fun q =>
      if q = 1 then some ⟨0, 0, 0, 9, 2, 2, 0⟩
      else if q = 2 then some ⟨20, 8, 5, 1, 3, 1, 0⟩
      else if q = 3 then some ⟨30, 8, 5, 1, 0, 2, 0⟩
      else none
    dealloc_calls := []
    stderr := [] }

/-- A root alone in its chain whose `m_prev` is null. -/
def sample_lone : State :=
  { heap := fun q => if q = 1 then some ⟨0, 0, 0, 1, 0, 1, 0⟩ else none
    dealloc_calls := []
    stderr := [] }


/-- The record 2, the only one under the root 1, has a null `m_next`. -/
def sample_null_next : State :=
  { heap := fun q =>
      if q = 1 then some ⟨0, 0, 0, 1, 2, 2, 0⟩
      else if q = 2 then some ⟨20, 8, 5, 1, 1, 0, 0⟩
      else none
    dealloc_calls := []
    stderr := [] }

/-- The record 2, the only one under the root 1, has a null `m_prev`. -/
def sample_null_prev : State :=
  { heap := fun q =>
      if q = 1 then some ⟨0, 0, 0, 1, 2, 2, 0⟩
      else if q = 2 then some ⟨20, 8, 5, 1, 0, 1, 0⟩
      else none
    dealloc_calls := []
    stderr := [] }

/-- The record 2, the only one under the root 1, has the count -1; its links are in
order. -/
def sample_negative : State :=
  { heap := fun q =>
      if q = 1 then some ⟨0, 0, 0, 1, 2, 2, 0⟩
      else if q = 2 then some ⟨20, 8, 5, 1, 1, 1, -1⟩
      else none
    dealloc_calls := []
    stderr := [] }


/-- The state `sample_chain` with the count of the root set to 5. -/
def sample_counted : State := ⟨set_count sample_chain.heap 1 5, [], []⟩


/-- Two roots with their chains: the chain `1, 2, 3, 4` of `sample_chain` and the chain
`10, 11`, in which the record 11 has one owner. -/
def sample_two_roots : State :=
  { heap := fun q =>
      if q = 10 then some ⟨0, 0, 0, 10, 11, 11, 0⟩
      else if q = 11 then some ⟨110, 8, 6, 10, 10, 10, 1⟩
      else sample_chain.heap q
    dealloc_calls := []
    stderr := [] }

/-- Every count in the memory is a value of the C type `int`. -/
def Typed (h : Heap) : Prop := ∀ x c, count_of h x = some c → INT_MIN ≤ c ∧ c ≤ INT_MAX

/-- The call `increment` of the record `X`, `n` times over, each call returning; there is a
final state when every call returned. -/
def increment_times (X : Ptr) : Nat → State → Option State
  | 0, s => some s
  | n + 1, s =>
    match increment X s with
    | .returns _ s1 => increment_times X n s1
    | _ => none

/-- The state `sample_first` with the count of the record 2 at `INT_MAX`. -/
def sample_full : State := ⟨set_count sample_first.heap 2 INT_MAX, [], []⟩

/-- The state `sample_first` with the count of the record 2 at `INT_MIN`. -/
def sample_drained : State := ⟨set_count sample_first.heap 2 INT_MIN, [], []⟩

/-! ## Closed forms of the operations -/

/-! ### The arithmetic of `int` -/

/-- A value of type `int` is what `wrap_int` leaves of it. -/
theorem wrap_int_of_range (x : Int) (hmin : INT_MIN ≤ x) (hmax : x ≤ INT_MAX) :
    wrap_int x = x := by
  unfold INT_MIN at hmin
  unfold INT_MAX at hmax
  unfold wrap_int
  omega

/-- The result of `wrap_int` is a value of type `int`. -/
theorem wrap_int_range (x : Int) : INT_MIN ≤ wrap_int x ∧ wrap_int x ≤ INT_MAX := by
  unfold INT_MIN INT_MAX wrap_int
  omega

@[simp] theorem wrap_int_zero : wrap_int 0 = 0 := rfl

@[simp] theorem wrap_int_one : wrap_int 1 = 1 := rfl

/-- Wrapping an intermediate sum does not change the wrapped result. -/
theorem wrap_int_add (x y : Int) : wrap_int (wrap_int x + y) = wrap_int (x + y) := by
  unfold wrap_int
  omega

theorem construct_run (h : Heap) (R this : Ptr) (rR rS : SharedAllocationRecord)
    (dl : List (function_type × Ptr)) (se : List Diagnostic) (a b : Nat) (c : function_type)
    (fuel : Nat) (hR0 : R ≠ 0) (ht0 : this ≠ 0) (ht : h this = none) (hR : h R = some rR)
    (hS0 : rR.m_next ≠ 0) (hS : h rR.m_next = some rS) :
    construct (fuel + 1) this R a b c ⟨h, dl, se⟩ =
      .returns this
        ⟨set_next (set_prev (h.set this ⟨a, b, c, R, R, rR.m_next, 0⟩) rR.m_next this) R this,
          dl, se⟩ := by
  have htR : this ≠ R := by rintro rfl; simp [hR] at ht
  have htS : this ≠ rR.m_next := by intro e; rw [← e] at hS; simp [hS] at ht
  by_cases hSR : rR.m_next = R
  · simp [construct, construct_lock, emplace, load, store, write_prev, write_next,
      atomic_exchange_next, bind, Exec.bind, pure, Heap.set, hR, hS, hR0, ht0, htR, Ne.symm htR,
      hSR]
    funext q
    simp [set_next, set_prev, Heap.set]
    split_ifs <;> simp_all
  · simp [construct, construct_lock, emplace, load, store, write_prev, write_next,
      atomic_exchange_next, bind, Exec.bind, pure, Heap.set, hR, hS, hR0, ht0, htR, Ne.symm htR,
      hSR, hS0, htS, Ne.symm htS, Ne.symm hSR]
    funext q
    simp [set_next, set_prev, Heap.set]
    split_ifs <;> simp_all

theorem decrement_run (h : Heap) (R X a b : Ptr) (rR rX ra rb : SharedAllocationRecord)
    (dl : List (function_type × Ptr)) (se : List Diagnostic) (fuel : Nat)
    (hR0 : R ≠ 0) (hX0 : X ≠ 0) (hXR : X ≠ R) (hX : h X = some rX) (hc : rX.m_count = 1)
    (hroot : rX.m_root = R) (hR : h R = some rR) (hF0 : rR.m_next ≠ 0)
    (hpa : rX.m_prev = a) (hnb : rX.m_next = b)
    (ha0 : a ≠ 0) (hb0 : b ≠ 0) (haX : a ≠ X) (hbX : b ≠ X)
    (ha : h a = some ra) (hb : h b = some rb)
    (hfirst : rR.m_next = X ↔ a = R) :
    decrement (fuel + 1) X ⟨h, dl, se⟩ =
      .returns 0
        ⟨set_prev (set_next (set_next (set_prev (set_count h X 0) b a) a b) X 0) X 0,
          dl ++ [(rX.m_dealloc, X)], se⟩ := by
  have hF := hfirst
  rcases eq_or_ne a R with h1 | h1 <;> rcases eq_or_ne b R with h2 | h2
  · simp only [h1, iff_true, iff_false] at hF
    simp [decrement, lock_spin, load, store, write_prev, write_next, call_dealloc,
      atomic_exchange_next, atomic_fetch_add_count, bind, Exec.bind, pure, Heap.set, hR, hX,
      hX0, hXR, Ne.symm hXR, hc, hroot, hF0, ha0, hb0, haX, hbX, ha, hb, hF, hpa, hnb,
      Ne.symm haX, Ne.symm hbX, hR0, h1, h2]
    funext q
    simp [set_next, set_prev, set_count, Heap.set]
    split_ifs <;> simp_all
  · simp only [h1, iff_true, iff_false] at hF
    simp [decrement, lock_spin, load, store, write_prev, write_next, call_dealloc,
      atomic_exchange_next, atomic_fetch_add_count, bind, Exec.bind, pure, Heap.set, hR, hX,
      hX0, hXR, Ne.symm hXR, hc, hroot, hF0, ha0, hb0, haX, hbX, ha, hb, hF, hpa, hnb,
      Ne.symm haX, Ne.symm hbX, hR0, h1, h2, Ne.symm h2]
    funext q
    simp [set_next, set_prev, set_count, Heap.set]
    split_ifs <;> simp_all
  · simp only [h1, iff_true, iff_false] at hF
    simp [decrement, lock_spin, load, store, write_prev, write_next, call_dealloc,
      atomic_exchange_next, atomic_fetch_add_count, bind, Exec.bind, pure, Heap.set, hR, hX,
      hX0, hXR, Ne.symm hXR, hc, hroot, hF0, ha0, hb0, haX, hbX, ha, hb, hF, hpa, hnb,
      Ne.symm haX, Ne.symm hbX, hR0, h1, h2, Ne.symm h1]
    funext q
    simp [set_next, set_prev, set_count, Heap.set]
    split_ifs <;> simp_all
  · simp only [h1, iff_true, iff_false] at hF
    rcases eq_or_ne a b with h3 | h3
    · subst h3
      simp [decrement, lock_spin, load, store, write_prev, write_next, call_dealloc,
        atomic_exchange_next, atomic_fetch_add_count, bind, Exec.bind, pure, Heap.set, hR, hX,
        hX0, hXR, Ne.symm hXR, hc, hroot, hF0, ha0, haX, ha, hF, hpa, hnb,
        Ne.symm haX, hR0, h1, Ne.symm h1]
      funext q
      simp [set_next, set_prev, set_count, Heap.set]
      split_ifs <;> simp_all
    · simp [decrement, lock_spin, load, store, write_prev, write_next, call_dealloc,
        atomic_exchange_next, atomic_fetch_add_count, bind, Exec.bind, pure, Heap.set, hR, hX,
        hX0, hXR, Ne.symm hXR, hc, hroot, hF0, ha0, hb0, haX, hbX, ha, hb, hF, hpa, hnb,
        Ne.symm haX, Ne.symm hbX, hR0, h1, h2, Ne.symm h1, Ne.symm h2, h3, Ne.symm h3]
      funext q
      simp [set_next, set_prev, set_count, Heap.set]
      split_ifs <;> simp_all

theorem increment_run (h : Heap) (X : Ptr) (rX : SharedAllocationRecord)
    (dl : List (function_type × Ptr)) (se : List Diagnostic) (hX0 : X ≠ 0)
    (hX : h X = some rX) :
    increment X ⟨h, dl, se⟩ =
      if rX.m_count < 0 then
        .throws Failure.failed_increment ⟨set_count h X (wrap_int (rX.m_count + 1)), dl, se⟩
      else .returns () ⟨set_count h X (wrap_int (rX.m_count + 1)), dl, se⟩ := by
  have e : h.set X { rX with m_count := wrap_int (rX.m_count + 1) } =
      set_count h X (wrap_int (rX.m_count + 1)) := by
    funext q
    simp [set_count, Heap.set]
    split_ifs <;> simp_all
  simp [increment, load, store, atomic_fetch_add_count, bind, Exec.bind, pure, hX, hX0,
    throw_runtime_exception] at e ⊢
  split_ifs <;> simp [e, throw_runtime_exception]

theorem decrement_run_other (h : Heap) (X : Ptr) (rX : SharedAllocationRecord)
    (dl : List (function_type × Ptr)) (se : List Diagnostic) (fuel : Nat) (hX0 : X ≠ 0)
    (hX : h X = some rX) (hc : rX.m_count ≠ 1) :
    decrement fuel X ⟨h, dl, se⟩ =
      if rX.m_count < 1 then
        .throws Failure.decrement_count ⟨set_count h X (wrap_int (rX.m_count - 1)), dl, se⟩
      else .returns X ⟨set_count h X (wrap_int (rX.m_count - 1)), dl, se⟩ := by
  have e : h.set X { rX with m_count := wrap_int (rX.m_count + -1) } =
      set_count h X (wrap_int (rX.m_count - 1)) := by
    funext q
    simp [set_count, Heap.set]
    split_ifs <;> simp_all
    rfl
  simp [decrement, load, store, atomic_fetch_add_count, bind, Exec.bind, pure, hX, hX0, hc,
    throw_runtime_exception] at e ⊢
  split_ifs <;> simp [e, throw_runtime_exception]

/-! ### Field reads after field writes -/

@[simp] theorem next_of_set_prev (h : Heap) (p v q : Ptr) :
    next_of (set_prev h p v) q = next_of h q := by
  unfold next_of set_prev
  split_ifs with e
  · cases h q <;> simp
  · rfl

@[simp] theorem next_of_set_count (h : Heap) (p q : Ptr) (c : Int) :
    next_of (set_count h p c) q = next_of h q := by
  unfold next_of set_count
  split_ifs with e
  · cases h q <;> simp
  · rfl

@[simp] theorem prev_of_set_next (h : Heap) (p v q : Ptr) :
    prev_of (set_next h p v) q = prev_of h q := by
  unfold prev_of set_next
  split_ifs with e
  · cases h q <;> simp
  · rfl

@[simp] theorem prev_of_set_count (h : Heap) (p q : Ptr) (c : Int) :
    prev_of (set_count h p c) q = prev_of h q := by
  unfold prev_of set_count
  split_ifs with e
  · cases h q <;> simp
  · rfl

@[simp] theorem root_of_set_next (h : Heap) (p v q : Ptr) :
    root_of (set_next h p v) q = root_of h q := by
  unfold root_of set_next
  split_ifs with e
  · cases h q <;> simp
  · rfl

@[simp] theorem root_of_set_prev (h : Heap) (p v q : Ptr) :
    root_of (set_prev h p v) q = root_of h q := by
  unfold root_of set_prev
  split_ifs with e
  · cases h q <;> simp
  · rfl

@[simp] theorem root_of_set_count (h : Heap) (p q : Ptr) (c : Int) :
    root_of (set_count h p c) q = root_of h q := by
  unfold root_of set_count
  split_ifs with e
  · cases h q <;> simp
  · rfl

@[simp] theorem count_of_set_next (h : Heap) (p v q : Ptr) :
    count_of (set_next h p v) q = count_of h q := by
  unfold count_of set_next
  split_ifs with e
  · cases h q <;> simp
  · rfl

@[simp] theorem count_of_set_prev (h : Heap) (p v q : Ptr) :
    count_of (set_prev h p v) q = count_of h q := by
  unfold count_of set_prev
  split_ifs with e
  · cases h q <;> simp
  · rfl

theorem next_of_set_next (h : Heap) (p v q : Ptr) :
    next_of (set_next h p v) q = if q = p then (next_of h p).map (fun _ => v) else next_of h q := by
  unfold next_of set_next
  split_ifs with e
  · subst e; cases h q <;> simp
  · rfl

theorem prev_of_set_prev (h : Heap) (p v q : Ptr) :
    prev_of (set_prev h p v) q = if q = p then (prev_of h p).map (fun _ => v) else prev_of h q := by
  unfold prev_of set_prev
  split_ifs with e
  · subst e; cases h q <;> simp
  · rfl

theorem count_of_set_count (h : Heap) (p q : Ptr) (c : Int) :
    count_of (set_count h p c) q =
      if q = p then (count_of h p).map (fun _ => c) else count_of h q := by
  unfold count_of set_count
  split_ifs with e
  · subst e; cases h q <;> simp
  · rfl

theorem next_of_set (h : Heap) (p q : Ptr) (r : SharedAllocationRecord) :
    next_of (h.set p r) q = if q = p then some r.m_next else next_of h q := by
  unfold next_of Heap.set
  split_ifs <;> rfl

theorem prev_of_set (h : Heap) (p q : Ptr) (r : SharedAllocationRecord) :
    prev_of (h.set p r) q = if q = p then some r.m_prev else prev_of h q := by
  unfold prev_of Heap.set
  split_ifs <;> rfl

theorem root_of_set (h : Heap) (p q : Ptr) (r : SharedAllocationRecord) :
    root_of (h.set p r) q = if q = p then some r.m_root else root_of h q := by
  unfold root_of Heap.set
  split_ifs <;> rfl

theorem count_of_set (h : Heap) (p q : Ptr) (r : SharedAllocationRecord) :
    count_of (h.set p r) q = if q = p then some r.m_count else count_of h q := by
  unfold count_of Heap.set
  split_ifs <;> rfl

/-- The record at `X` after its count is set, and the other records. -/
theorem heap_set_count_eq (h : Heap) (X : Ptr) (rX : SharedAllocationRecord) (c : Int)
    (hX : h X = some rX) :
    set_count h X c X = some { rX with m_count := c } ∧ ∀ q, q ≠ X → set_count h X c q = h q := by
  refine ⟨by simp [set_count, hX], ?_⟩
  intro q hq
  simp [set_count, hq]

/-- Setting a count twice is setting it to the last value. -/
theorem set_count_set_count (h : Heap) (X : Ptr) (c c1 : Int) :
    set_count (set_count h X c) X c1 = set_count h X c1 := by
  funext q
  simp only [set_count]
  split_ifs
  · cases h q <;> simp
  · rfl

/-- Setting a count to the value it has changes nothing. -/
theorem set_count_same (h : Heap) (X : Ptr) (rX : SharedAllocationRecord)
    (hX : h X = some rX) : set_count h X rX.m_count = h := by
  funext q
  simp only [set_count]
  split_ifs with e
  · subst e; simp [hX]
  · rfl

/-! ### Segments -/

theorem end_of_mem (p : Ptr) (l : List Ptr) : end_of p l ∈ p :: l := by
  induction l generalizing p with
  | nil => simp [end_of]
  | cons q l ih =>
    have := ih q
    simp only [end_of]
    exact List.mem_cons_of_mem _ this

theorem head_of_mem (l : List Ptr) (e : Ptr) : head_of l e ∈ l ++ [e] := by
  cases l <;> simp [head_of]

theorem Segment.append_iff (h : Heap) (p x e : Ptr) (l1 l2 : List Ptr) :
    Segment h p (l1 ++ x :: l2) e ↔ Segment h p l1 x ∧ Segment h x l2 e := by
  induction l1 generalizing p with
  | nil => simp [Segment, and_assoc]
  | cons q l ih => simp [Segment, ih q, and_assoc]

theorem Segment.end_link {h : Heap} {p e : Ptr} {l : List Ptr} (hs : Segment h p l e) :
    next_of h (end_of p l) = some e ∧ prev_of h e = some (end_of p l) := by
  induction l generalizing p with
  | nil => simpa [Segment, end_of] using hs
  | cons q l ih => exact ih hs.2.2

theorem Segment.head_link {h : Heap} {p e : Ptr} {l : List Ptr} (hs : Segment h p l e) :
    next_of h p = some (head_of l e) ∧ prev_of h (head_of l e) = some p := by
  cases l with
  | nil => simpa [Segment, head_of] using hs
  | cons q l => exact ⟨hs.1, hs.2.1⟩

/-- A segment only depends on the `m_next` of its records but the last target and on the
`m_prev` of its records but the source. -/
theorem Segment.frame {h h1 : Heap} {p e : Ptr} {l : List Ptr} (hs : Segment h p l e)
    (hn : ∀ x ∈ p :: l, next_of h1 x = next_of h x)
    (hp : ∀ x ∈ l ++ [e], prev_of h1 x = prev_of h x) : Segment h1 p l e := by
  induction l generalizing p with
  | nil =>
    refine ⟨?_, ?_⟩
    · rw [hn p (by simp)]; exact hs.1
    · rw [hp e (by simp)]; exact hs.2
  | cons q l ih =>
    refine ⟨?_, ?_, ih hs.2.2 ?_ ?_⟩
    · rw [hn p (by simp)]; exact hs.1
    · rw [hp q (by simp)]; exact hs.2.1
    · intro x hx; exact hn x (List.mem_cons_of_mem _ hx)
    · intro x hx; exact hp x (by simpa using Or.inr (by simpa using hx))

/-- Redirect the last link of a segment to a new target `b`. -/
theorem Segment.retarget {h h1 : Heap} {p e b : Ptr} {l : List Ptr} (hs : Segment h p l e)
    (hn : ∀ x ∈ p :: l, x ≠ end_of p l → next_of h1 x = next_of h x)
    (hp : ∀ x ∈ l, prev_of h1 x = prev_of h x)
    (hnd : (p :: l).Nodup)
    (hnb : next_of h1 (end_of p l) = some b) (hpb : prev_of h1 b = some (end_of p l)) :
    Segment h1 p l b := by
  induction l generalizing p with
  | nil => exact ⟨hnb, hpb⟩
  | cons q l ih =>
    have hpe : p ≠ end_of p (q :: l) := by
      intro e1
      have := end_of_mem q l
      simp only [end_of] at e1
      rw [← e1] at this
      exact (List.nodup_cons.mp hnd).1 this
    refine ⟨?_, ?_, ih hs.2.2 ?_ ?_ (List.nodup_cons.mp hnd).2 hnb hpb⟩
    · rw [hn p (by simp) hpe]; exact hs.1
    · rw [hp q (by simp)]; exact hs.2.1
    · intro x hx hne; exact hn x (List.mem_cons_of_mem _ hx) hne
    · intro x hx; exact hp x (List.mem_cons_of_mem _ hx)

/-- Start a segment from a new source `a`. -/
theorem Segment.resource {h h1 : Heap} {p e a : Ptr} {l : List Ptr} (hs : Segment h p l e)
    (hn : ∀ x ∈ l, next_of h1 x = next_of h x)
    (hp : ∀ x ∈ l ++ [e], x ≠ head_of l e → prev_of h1 x = prev_of h x)
    (hnd : (l ++ [e]).Nodup)
    (hna : next_of h1 a = some (head_of l e)) (hpa : prev_of h1 (head_of l e) = some a) :
    Segment h1 a l e := by
  cases l with
  | nil => exact ⟨hna, hpa⟩
  | cons q l =>
    refine ⟨hna, hpa, hs.2.2.frame ?_ ?_⟩
    · intro x hx; exact hn x hx
    · intro x hx
      refine hp x (by simp at hx ⊢; tauto) ?_
      simp only [head_of]
      rintro rfl
      simp at hnd
      simp at hx
      tauto

/-! ### Facts about linked chains -/

theorem Linked.root_ne_zero {h : Heap} {R : Ptr} {l : List Ptr} (hL : Linked h R l) : R ≠ 0 :=
  hL.nonnull R (by simp)

theorem Linked.alloc {h : Heap} {R : Ptr} {l : List Ptr} (hL : Linked h R l) {x : Ptr}
    (hx : x ∈ R :: l) : ∃ r, h x = some r ∧ r.m_root = R := by
  have := hL.roots x hx
  unfold root_of at this
  cases e : h x with
  | none => simp [e] at this
  | some r => exact ⟨r, rfl, by simpa [e] using this⟩

theorem Linked.not_mem_of_free {h : Heap} {R : Ptr} {l : List Ptr} (hL : Linked h R l)
    {x : Ptr} (hx : h x = none) : x ∉ R :: l := by
  intro hm
  obtain ⟨r, hr, _⟩ := hL.alloc hm
  simp [hr] at hx

theorem Linked.nodup_snoc {h : Heap} {R : Ptr} {l : List Ptr} (hL : Linked h R l) :
    (l ++ [R]).Nodup := by
  have := hL.nodup
  rw [List.nodup_cons] at this
  rw [List.nodup_append]
  refine ⟨this.2, by simp, ?_⟩
  intro a ha hb
  simp at hb
  subst hb
  exact this.1 ha

theorem Linked.head_mem {R : Ptr} (l : List Ptr) : head_of l R ∈ R :: l := by
  have := head_of_mem l R
  simp at this ⊢
  tauto

theorem inserted_self (h : Heap) (this R S : Ptr) (a b : Nat) (d : function_type)
    (htR : this ≠ R) (htS : this ≠ S) :
    inserted h this R S a b d this = some ⟨a, b, d, R, R, S, 0⟩ := by
  simp [inserted, set_next, set_prev, Heap.set, htR, htS]

/-- The constructor leaves every record that existed as it was, but for the `m_next` of the
root and the `m_prev` of its old successor. -/
theorem inserted_frame (h : Heap) (this R S : Ptr) (a b : Nat) (d : function_type) (q : Ptr)
    (hq : q ≠ this) :
    inserted h this R S a b d q = (h q).map (fun r =>
      { r with m_next := if q = R then this else r.m_next,
               m_prev := if q = S then this else r.m_prev }) := by
  simp only [inserted, set_next, set_prev, Heap.set, hq, if_false]
  split_ifs <;> cases h q <;> simp_all

/-- The chain after the constructor is the old chain with the new record in front. -/
theorem Linked.inserted_linked {h : Heap} {R : Ptr} {l : List Ptr} (hL : Linked h R l)
    (this : Ptr) (a b : Nat) (d : function_type) (ht0 : this ≠ 0) (ht : h this = none) :
    Linked (inserted h this R (head_of l R) a b d) R (this :: l) := by
  have hS := hL.links.head_link.1
  have hSm : head_of l R ∈ R :: l := Linked.head_mem l
  obtain ⟨rS, hrS, -⟩ := hL.alloc hSm
  have htm : this ∉ R :: l := hL.not_mem_of_free ht
  have htR : this ≠ R := fun e => htm (e ▸ List.mem_cons_self _ _)
  have htS : this ≠ head_of l R := fun e => htm (e ▸ hSm)
  have hpS : prev_of h (head_of l R) = some rS.m_prev := by simp [prev_of, hrS]
  have hRl : R ∉ l := (List.nodup_cons.mp hL.nodup).1
  have hn1 : next_of (inserted h this R (head_of l R) a b d) R = some this := by
    simp [inserted, next_of_set_next, next_of_set, Ne.symm htR, hS]
  have hp1 : prev_of (inserted h this R (head_of l R) a b d) (head_of l R) = some this := by
    simp [inserted, prev_of_set_prev, prev_of_set, Ne.symm htS, hpS]
  refine ⟨?_, ?_, ?_, ?_⟩
  · have := hL.nodup
    simp only [List.nodup_cons, List.mem_cons, not_or] at this htm ⊢
    exact ⟨⟨Ne.symm htR, this.1⟩, htm.2, this.2⟩
  · intro x hx
    simp only [List.mem_cons] at hx
    rcases hx with rfl | rfl | hx
    · exact hL.root_ne_zero
    · exact ht0
    · exact hL.nonnull x (List.mem_cons_of_mem _ hx)
  · intro x hx
    simp only [inserted, root_of_set_next, root_of_set_prev, root_of_set]
    split_ifs with e
    · rfl
    · refine hL.roots x ?_
      simp only [List.mem_cons] at hx ⊢
      tauto
  · refine ⟨hn1, ?_, ?_⟩
    · simp [inserted, prev_of_set_prev, prev_of_set, htS]
    · refine hL.links.resource ?_ ?_ hL.nodup_snoc ?_ hp1
      · intro x hx
        have hxR : x ≠ R := fun e => hRl (e ▸ hx)
        have hxt : x ≠ this := fun e => htm (e ▸ List.mem_cons_of_mem _ hx)
        simp [inserted, next_of_set_next, next_of_set, hxR, hxt]
      · intro x hx hne
        have hxt : x ≠ this := by
          rintro rfl
          apply htm
          simp at hx ⊢
          tauto
        simp [inserted, prev_of_set_prev, prev_of_set, hne, hxt]
      · simp [inserted, next_of_set_next, next_of_set, htR]

/-- A well-formed chain is well formed after the constructor. -/
theorem Sane.inserted_sane {h : Heap} {R : Ptr} {l : List Ptr} (hs : Sane h R l)
    (this : Ptr) (a b : Nat) (d : function_type) (ht0 : this ≠ 0) (ht : h this = none) :
    Sane (inserted h this R (head_of l R) a b d) R (this :: l) := by
  have htm : this ∉ R :: l := hs.linked.not_mem_of_free ht
  have htR : this ≠ R := fun e => htm (e ▸ List.mem_cons_self _ _)
  refine ⟨hs.linked.inserted_linked this a b d ht0 ht, ?_, ?_⟩
  · simpa [inserted, count_of_set, Ne.symm htR] using hs.root_count
  · intro x hx
    simp only [inserted, count_of_set_next, count_of_set_prev, count_of_set]
    split_ifs with e
    · exact ⟨0, rfl, le_refl _⟩
    · refine hs.counts x ?_
      simp only [List.mem_cons] at hx
      tauto

/-- The constructor on a linked chain with the lock free: it returns, and the memory it
leaves is `inserted`. -/
theorem construct_inserts (h : Heap) (R : Ptr) (l : List Ptr) (this : Ptr) (a b : Nat)
    (d : function_type) (dl : List (function_type × Ptr)) (se : List Diagnostic) (fuel : Nat)
    (hL : Linked h R l) (ht0 : this ≠ 0) (ht : h this = none) :
    construct (fuel + 1) this R a b d ⟨h, dl, se⟩ =
      .returns this ⟨inserted h this R (head_of l R) a b d, dl, se⟩ := by
  obtain ⟨rR, hR, -⟩ := hL.alloc (List.mem_cons_self R l)
  have hSm : head_of l R ∈ R :: l := Linked.head_mem l
  obtain ⟨rS, hrS, -⟩ := hL.alloc hSm
  have hRn : rR.m_next = head_of l R := by simpa [next_of, hR] using hL.links.head_link.1
  have hrun := construct_run h R this rR rS dl se a b d fuel
    hL.root_ne_zero ht0 ht hR (hRn ▸ hL.nonnull _ hSm) (hRn ▸ hrS)
  rw [hRn] at hrun
  exact hrun

/-- C1: on a linked chain the constructor returns the new record `this`, with count zero,
root and predecessor `R` and successor `S`, the old successor of `R`; `S.m_prev` and
`R.m_next` become `this`, so the chain read from `R` is `R, this, l`; every other field of
every record that existed is unchanged, no dealloc is called and nothing is printed. -/
theorem construct_links_after_root (s : State) (R S : Ptr) (l : List Ptr) (this : Ptr)
    (arg_alloc_ptr arg_alloc_size : Nat) (arg_dealloc : function_type) (fuel : Nat)
    (hL : Linked s.heap R l) (hS : next_of s.heap R = some S)
    (ht0 : this ≠ 0) (ht : s.heap this = none) :
    ∃ s1 : State,
      construct (fuel + 1) this R arg_alloc_ptr arg_alloc_size arg_dealloc s
        = .returns this s1 ∧
      s1.heap this = some ⟨arg_alloc_ptr, arg_alloc_size, arg_dealloc, R, R, S, 0⟩ ∧
      prev_of s1.heap S = some this ∧ next_of s1.heap R = some this ∧
      Linked s1.heap R (this :: l) ∧
      (Sane s.heap R l → Sane s1.heap R (this :: l)) ∧
      (∀ q, q ≠ this → s1.heap q = (s.heap q).map (fun r =>
        { r with m_next := if q = R then this else r.m_next,
                 m_prev := if q = S then this else r.m_prev })) ∧
      s1.dealloc_calls = s.dealloc_calls ∧ s1.stderr = s.stderr := by
  obtain ⟨h, dl, se⟩ := s
  simp only at hL hS ht ⊢
  obtain rfl : S = head_of l R := by
    have := hL.links.head_link.1
    rw [hS] at this
    exact Option.some.inj this
  have htm : this ∉ R :: l := hL.not_mem_of_free ht
  have htR : this ≠ R := fun e => htm (e ▸ List.mem_cons_self _ _)
  have htS : this ≠ head_of l R := fun e => htm (e ▸ Linked.head_mem l)
  have hlinked := hL.inserted_linked this arg_alloc_ptr arg_alloc_size arg_dealloc ht0 ht
  exact ⟨_, construct_inserts h R l this arg_alloc_ptr arg_alloc_size arg_dealloc dl se fuel hL
      ht0 ht,
    inserted_self h this R _ _ _ _ htR htS, hlinked.links.2.2.head_link.2, hlinked.links.1,
    hlinked, fun hs => hs.inserted_sane this _ _ _ ht0 ht,
    fun q hq => inserted_frame h this R _ _ _ _ q hq, rfl, rfl⟩

/-- The neighbours of a record of a linked chain, and what `decrement_run` needs of them. -/
theorem Linked.neighbours {h : Heap} {R X : Ptr} {l1 l2 : List Ptr}
    (hL : Linked h R (l1 ++ X :: l2)) :
    ∃ rR rX ra rb, h R = some rR ∧ h X = some rX ∧ h (end_of R l1) = some ra ∧
      h (head_of l2 R) = some rb ∧ ra.m_next = X ∧ rb.m_prev = X ∧
      rX.m_root = R ∧ rX.m_prev = end_of R l1 ∧
      rX.m_next = head_of l2 R ∧ rR.m_next ≠ 0 ∧ (rR.m_next = X ↔ end_of R l1 = R) ∧
      end_of R l1 ≠ 0 ∧ head_of l2 R ≠ 0 ∧ end_of R l1 ≠ X ∧ head_of l2 R ≠ X ∧ X ≠ R ∧
      X ≠ 0 ∧ R ≠ 0 := by
  have hnd := hL.nodup
  simp only [List.nodup_cons, List.nodup_append, List.mem_append, List.mem_cons, not_or,
    List.disjoint_cons_right] at hnd
  obtain ⟨⟨hR1, hRX, hR2⟩, hn1, ⟨hX2, hn2⟩, hX1, hd⟩ := hnd
  have hXm : X ∈ R :: (l1 ++ X :: l2) := by simp
  have ham : end_of R l1 ∈ R :: (l1 ++ X :: l2) := by
    have := end_of_mem R l1
    simp only [List.mem_cons, List.mem_append] at this ⊢
    tauto
  have hbm : head_of l2 R ∈ R :: (l1 ++ X :: l2) := by
    have := head_of_mem l2 R
    simp only [List.mem_cons, List.mem_append, List.mem_singleton] at this ⊢
    tauto
  obtain ⟨rR, hR, -⟩ := hL.alloc (List.mem_cons_self _ _)
  obtain ⟨rX, hX, hXroot⟩ := hL.alloc hXm
  obtain ⟨ra, ha, -⟩ := hL.alloc ham
  obtain ⟨rb, hb, -⟩ := hL.alloc hbm
  obtain ⟨hs1, hs2⟩ := (Segment.append_iff h R X R l1 l2).mp hL.links
  have hprev : rX.m_prev = end_of R l1 := by
    simpa [prev_of, hX] using hs1.end_link.2
  have hnext : rX.m_next = head_of l2 R := by
    simpa [next_of, hX] using hs2.head_link.1
  have hRn : rR.m_next = head_of (l1 ++ X :: l2) R := by
    simpa [next_of, hR] using hL.links.head_link.1
  have haX : end_of R l1 ≠ X := by
    intro e
    have := end_of_mem R l1
    rw [e] at this
    simp only [List.mem_cons] at this
    rcases this with e1 | e1
    · exact hRX e1.symm
    · exact hX1 e1
  have hbX : head_of l2 R ≠ X := by
    intro e
    have := head_of_mem l2 R
    rw [e] at this
    simp only [List.mem_append, List.mem_singleton] at this
    rcases this with e1 | e1
    · exact hX2 e1
    · exact hRX e1.symm
  have hanext : ra.m_next = X := by
    simpa [next_of, ha] using hs1.end_link.1
  have hbprev : rb.m_prev = X := by
    simpa [prev_of, hb] using hs2.head_link.2
  refine ⟨rR, rX, ra, rb, hR, hX, ha, hb, hanext, hbprev, hXroot, hprev, hnext, ?_, ?_,
    hL.nonnull _ ham,
    hL.nonnull _ hbm, haX, hbX, Ne.symm hRX, hL.nonnull _ hXm, hL.root_ne_zero⟩
  · rw [hRn]
    refine hL.nonnull _ ?_
    exact Linked.head_mem _
  · rw [hRn]
    cases l1 with
    | nil => simp [head_of, end_of]
    | cons q l1 =>
      simp only [List.cons_append, head_of, end_of]
      simp only [List.mem_cons, not_or] at hR1 hX1
      constructor
      · intro e; exact absurd e.symm hX1.1
      · intro e
        have := end_of_mem q l1
        rw [e] at this
        simp only [List.mem_cons] at this
        rcases this with e1 | e1
        · exact absurd e1 hR1.1
        · exact absurd e1 hR1.2

theorem next_of_unlinked_ne (h : Heap) {X a b x : Ptr} (hX : x ≠ X) (ha : x ≠ a) :
    next_of (unlinked h X a b) x = next_of h x := by
  simp [unlinked, next_of_set_next, hX, ha]

theorem next_of_unlinked_pred (h : Heap) {X a b : Ptr} {ra : SharedAllocationRecord}
    (haX : a ≠ X) (ha : h a = some ra) : next_of (unlinked h X a b) a = some b := by
  have e : next_of h a = some ra.m_next := by simp [next_of, ha]
  simp [unlinked, next_of_set_next, haX, e]

theorem prev_of_unlinked_ne (h : Heap) {X a b x : Ptr} (hX : x ≠ X) (hb : x ≠ b) :
    prev_of (unlinked h X a b) x = prev_of h x := by
  simp [unlinked, prev_of_set_prev, hX, hb]

theorem prev_of_unlinked_succ (h : Heap) {X a b : Ptr} {rb : SharedAllocationRecord}
    (hbX : b ≠ X) (hb : h b = some rb) : prev_of (unlinked h X a b) b = some a := by
  have e : prev_of h b = some rb.m_prev := by simp [prev_of, hb]
  simp [unlinked, prev_of_set_prev, hbX, e]

@[simp] theorem root_of_unlinked (h : Heap) (X a b x : Ptr) :
    root_of (unlinked h X a b) x = root_of h x := by
  simp [unlinked]

theorem count_of_unlinked_ne (h : Heap) {X a b x : Ptr} (hX : x ≠ X) :
    count_of (unlinked h X a b) x = count_of h x := by
  simp [unlinked, count_of_set_count, hX]

/-- Unlinking a record of a linked chain leaves the other records linked in their order. -/
theorem Linked.unlinked_linked {h : Heap} {R X : Ptr} {l1 l2 : List Ptr}
    (hL : Linked h R (l1 ++ X :: l2)) :
    Linked (unlinked h X (end_of R l1) (head_of l2 R)) R (l1 ++ l2) := by
  obtain ⟨rR, rX, ra, rb, hR, hX, ha, hb, -, -, hXroot, hprev, hnext, hRn0, hfirst, ha0, hb0,
    haX, hbX, hXR, hX0, hR0⟩ := hL.neighbours
  have hnd := hL.nodup
  have hsub : ∀ x, x ∈ R :: (l1 ++ l2) → x ∈ R :: (l1 ++ X :: l2) := by
    intro x hx
    simp only [List.mem_cons, List.mem_append] at hx ⊢
    tauto
  simp only [List.nodup_cons, List.nodup_append, List.mem_append, List.mem_cons, not_or,
    List.disjoint_cons_right] at hnd
  obtain ⟨⟨hR1, hRX, hR2⟩, hn1, ⟨hX2, hn2⟩, hX1, hd⟩ := hnd
  obtain ⟨hs1, hs2⟩ := (Segment.append_iff h R X R l1 l2).mp hL.links
  have ham : end_of R l1 ∈ R :: l1 := end_of_mem R l1
  have hbm : head_of l2 R ∈ l2 ++ [R] := head_of_mem l2 R
  refine ⟨?_, ?_, ?_, ?_⟩
  · simp only [List.nodup_cons, List.nodup_append, List.mem_append, not_or]
    exact ⟨⟨hR1, hR2⟩, hn1, hn2, hd⟩
  · intro x hx
    exact hL.nonnull x (hsub x hx)
  · intro x hx
    rw [root_of_unlinked]
    exact hL.roots x (hsub x hx)
  · have hseg1 : Segment (SharedAlloc.unlinked h X (end_of R l1) (head_of l2 R)) R l1
        (head_of l2 R) := by
      refine hs1.retarget ?_ ?_ ?_ (next_of_unlinked_pred h haX ha)
        (prev_of_unlinked_succ h hbX hb)
      · intro x hx hne
        refine next_of_unlinked_ne h ?_ hne
        rintro rfl
        simp only [List.mem_cons] at hx
        rcases hx with e | e
        · exact hXR e
        · exact hX1 e
      · intro x hx
        refine prev_of_unlinked_ne h ?_ ?_
        · rintro rfl; exact hX1 hx
        · intro e
          rw [← e] at hbm
          simp only [List.mem_append, List.mem_singleton] at hbm
          rcases hbm with e1 | e1
          · exact hd hx e1
          · exact hR1 (e1 ▸ hx)
      · simp only [List.nodup_cons]
        exact ⟨hR1, hn1⟩
    cases l2 with
    | nil => simpa [head_of] using hseg1
    | cons q l2 =>
      simp only [head_of] at hseg1 hb hbX
      rw [Segment.append_iff]
      refine ⟨hseg1, hs2.2.2.frame ?_ ?_⟩
      · intro x hx
        refine next_of_unlinked_ne h ?_ ?_
        · rintro rfl; exact hX2 hx
        · intro e
          rw [← e] at ham
          simp only [List.mem_cons] at ham
          rcases ham with e1 | e1
          · exact hR2 (e1 ▸ hx)
          · exact hd e1 hx
      · intro x hx
        simp only [List.nodup_cons, List.mem_cons, not_or] at hn2 hR2
        refine prev_of_unlinked_ne h ?_ ?_
        · rintro rfl
          simp only [List.mem_append, List.mem_singleton] at hx
          simp only [List.mem_cons, not_or] at hX2
          rcases hx with e1 | e1
          · exact hX2.2 e1
          · exact hXR e1
        · simp only [head_of]
          rintro rfl
          simp only [List.mem_append, List.mem_singleton] at hx
          rcases hx with e1 | e1
          · exact hn2.1 e1
          · exact hR2.1 e1.symm

theorem Sane.unlinked_sane {h : Heap} {R X : Ptr} {l1 l2 : List Ptr}
    (hs : Sane h R (l1 ++ X :: l2)) :
    Sane (unlinked h X (end_of R l1) (head_of l2 R)) R (l1 ++ l2) := by
  have hnd := hs.linked.nodup
  simp only [List.nodup_cons, List.nodup_append, List.mem_append, List.mem_cons, not_or,
    List.disjoint_cons_right] at hnd
  obtain ⟨⟨hR1, hRX, hR2⟩, hn1, ⟨hX2, hn2⟩, hX1, hd⟩ := hnd
  refine ⟨hs.linked.unlinked_linked, ?_, ?_⟩
  · rw [count_of_unlinked_ne h hRX]
    exact hs.root_count
  · intro x hx
    have hxX : x ≠ X := by
      rintro rfl
      simp only [List.mem_append] at hx
      rcases hx with e | e
      · exact hX1 e
      · exact hX2 e
    rw [count_of_unlinked_ne h hxX]
    refine hs.counts x ?_
    simp only [List.mem_append, List.mem_cons] at hx ⊢
    tauto

theorem unlinked_self (h : Heap) (X a b : Ptr) (rX : SharedAllocationRecord)
    (hX : h X = some rX) (haX : a ≠ X) (hbX : b ≠ X) :
    unlinked h X a b X = some { rX with m_count := 0, m_prev := 0, m_next := 0 } := by
  simp [unlinked, set_prev, set_next, set_count, hX, Ne.symm haX, Ne.symm hbX]

/-- Unlinking `X` leaves every other record as it was, but for the `m_next` of the
predecessor and the `m_prev` of the successor of `X`. -/
theorem unlinked_frame (h : Heap) (X a b q : Ptr) (hq : q ≠ X) :
    unlinked h X a b q = (h q).map (fun r =>
      { r with m_next := if q = a then b else r.m_next,
               m_prev := if q = b then a else r.m_prev }) := by
  simp only [unlinked, set_next, set_prev, set_count, hq, if_false]
  split_ifs <;> cases h q <;> simp_all

/-- The `decrement` of a record with count 1 at any place of a linked chain with the lock
free: it returns null, the memory it leaves is `unlinked` and the callback of the record
has been called with it. -/
theorem decrement_unlinks (h : Heap) (R X : Ptr) (l1 l2 : List Ptr)
    (rX : SharedAllocationRecord) (dl : List (function_type × Ptr)) (se : List Diagnostic)
    (fuel : Nat) (hL : Linked h R (l1 ++ X :: l2)) (hX : h X = some rX)
    (hc : rX.m_count = 1) :
    decrement (fuel + 1) X ⟨h, dl, se⟩ =
      .returns 0 ⟨unlinked h X (end_of R l1) (head_of l2 R), dl ++ [(rX.m_dealloc, X)], se⟩ := by
  obtain ⟨rR, rX1, ra, rb, hR, hX1, ha, hb, -, -, hXroot, hprev, hnext, hRn0, hfirst, ha0, hb0,
    haX, hbX, hXR, hX0, hR0⟩ := hL.neighbours
  obtain rfl : rX1 = rX := by rw [hX] at hX1; exact (Option.some.inj hX1).symm
  exact decrement_run h R X (end_of R l1) (head_of l2 R) rR rX1 ra rb dl se fuel hR0 hX0
    hXR hX hc hXroot hR hRn0 hprev hnext ha0 hb0 haX hbX ha hb hfirst

/-- The record `X` after it has been unlinked from a linked chain. -/
theorem Linked.unlinked_self_eq {h : Heap} {R X : Ptr} {l1 l2 : List Ptr}
    (hL : Linked h R (l1 ++ X :: l2)) (rX : SharedAllocationRecord) (hX : h X = some rX) :
    unlinked h X (end_of R l1) (head_of l2 R) X =
      some { rX with m_count := 0, m_prev := 0, m_next := 0 } := by
  obtain ⟨-, -, -, -, -, -, -, -, -, -, -, -, -, -, -, -, -, haX, hbX, -, -, -⟩ := hL.neighbours
  exact unlinked_self h X _ _ rX hX haX hbX

/-- C2: `decrement` of a record `X` with count 1 that is linked under `R`, at any place of
the chain (`l1` before it, `l2` after it), sets the count of `X` to 0, takes exactly `X` out
of the chain (`X.next.prev` becomes `X.prev` and `X.prev.next` becomes `X.next`, where
`X.prev` is `R` when `X` was first), keeps the other records in their order, clears `X.prev`
and `X.next`, calls the dealloc callback of `X` with `X` once, and returns null. -/
theorem decrement_releases_last_owner (s : State) (R X : Ptr) (l1 l2 : List Ptr)
    (rX : SharedAllocationRecord) (fuel : Nat)
    (hL : Linked s.heap R (l1 ++ X :: l2)) (hX : s.heap X = some rX) (hc : rX.m_count = 1) :
    ∃ s1 : State,
      decrement (fuel + 1) X s = .returns 0 s1 ∧
      rX.m_prev = end_of R l1 ∧ rX.m_next = head_of l2 R ∧
      s1.heap X = some { rX with m_count := 0, m_prev := 0, m_next := 0 } ∧
      prev_of s1.heap rX.m_next = some rX.m_prev ∧
      next_of s1.heap rX.m_prev = some rX.m_next ∧
      Linked s1.heap R (l1 ++ l2) ∧
      (Sane s.heap R (l1 ++ X :: l2) → Sane s1.heap R (l1 ++ l2)) ∧
      (∀ q, q ≠ X → s1.heap q = (s.heap q).map (fun r =>
        { r with m_next := if q = rX.m_prev then rX.m_next else r.m_next,
                 m_prev := if q = rX.m_next then rX.m_prev else r.m_prev })) ∧
      s1.dealloc_calls = s.dealloc_calls ++ [(rX.m_dealloc, X)] ∧ s1.stderr = s.stderr := by
  obtain ⟨h, dl, se⟩ := s
  simp only at hL hX ⊢
  obtain ⟨rR, rX1, ra, rb, hR, hX1, ha, hb, -, -, hXroot, hprev, hnext, hRn0, hfirst, ha0, hb0,
    haX, hbX, hXR, hX0, hR0⟩ := hL.neighbours
  obtain rfl : rX1 = rX := by rw [hX] at hX1; exact (Option.some.inj hX1).symm
  refine ⟨_, decrement_unlinks h R X l1 l2 rX1 dl se fuel hL hX hc, hprev, hnext,
    unlinked_self h X _ _ rX1 hX haX hbX, ?_, ?_, hL.unlinked_linked,
    fun hs => hs.unlinked_sane, ?_, rfl, rfl⟩
  · rw [hprev, hnext]
    exact prev_of_unlinked_succ h hbX hb
  · rw [hprev, hnext]
    exact next_of_unlinked_pred h haX ha
  · intro q hq
    rw [hprev, hnext]
    exact unlinked_frame h X _ _ q hq

/-! ### The validator on a well-formed chain -/

/-- The loop body of `is_sane` passes a record whose five checks hold, without printing. -/
theorem is_sane_body_ok (g : Heap) (root root_next x : Ptr) (rx rb : SharedAllocationRecord)
    (dl : List (function_type × Ptr)) (se : List Diagnostic)
    (hx0 : x ≠ 0) (hxr : x ≠ root) (hx : g x = some rx) (hp0 : rx.m_prev ≠ 0)
    (hn0 : rx.m_next ≠ 0) (hroot : rx.m_root = root) (hc : 0 ≤ rx.m_count)
    (hpn : rx.m_prev ≠ root → ∃ ra, g rx.m_prev = some ra ∧ ra.m_next = x)
    (hfirst : rx.m_prev = root → root_next = x)
    (hb : g rx.m_next = some rb) (hnp : rb.m_prev = x) :
    is_sane_body root root_next x ⟨g, dl, se⟩ = .returns true ⟨g, dl, se⟩ := by
  by_cases h1 : rx.m_prev = root
  · have hr0 : root ≠ 0 := h1 ▸ hp0
    simp [is_sane_body, load, bind, Exec.bind, pure, hx0, hxr, hx, hr0, hn0, hroot, hc, hb,
      hnp, h1, hfirst h1]
  · obtain ⟨ra, hra, hran⟩ := hpn h1
    simp [is_sane_body, load, bind, Exec.bind, pure, hx0, hxr, hx, hp0, hn0, hroot, hc, hb,
      hnp, h1, hra, hran]

/-- The walk of `is_sane` over the rest `l2` of a well-formed chain, while the lock is held,
passes every record and leaves the state as it is. -/
theorem is_sane_walk_ok (h : Heap) (R : Ptr) (rR : SharedAllocationRecord)
    (dl : List (function_type × Ptr)) (se : List Diagnostic) (hR : h R = some rR)
    (l2 l1 : List Ptr) (fuel : Nat) (hs : Sane h R (l1 ++ l2)) (hf : l2.length < fuel) :
    is_sane_walk R rR.m_next fuel true (head_of l2 R) ⟨set_next h R 0, dl, se⟩ =
      .returns true ⟨set_next h R 0, dl, se⟩ := by
  induction l2 generalizing l1 fuel with
  | nil =>
    obtain ⟨f, rfl⟩ : ∃ f, fuel = f + 1 := ⟨fuel - 1, by simp at hf; omega⟩
    simp [is_sane_walk, head_of, pure]
  | cons x l2 ih =>
    obtain ⟨f, rfl⟩ : ∃ f, fuel = f + 1 := ⟨fuel - 1, by simp at hf; omega⟩
    have hf1 : l2.length < f := by simp at hf; omega
    obtain ⟨rR1, rX, ra, rb, hR1, hX, ha, hb, hanext, hbprev, hXroot, hprev, hnext, hRn0,
      hfirst, ha0, hb0, haX, hbX, hXR, hX0, hR0⟩ := hs.linked.neighbours
    have e : rR1 = rR := by rw [hR] at hR1; exact (Option.some.inj hR1).symm
    subst e
    obtain ⟨c, hc, hc0⟩ := hs.counts x (by simp)
    have hcx : 0 ≤ rX.m_count := by
      have : rX.m_count = c := by simpa [count_of, hX] using hc
      rw [this]; exact hc0
    have hgx : set_next h R 0 x = some rX := by simp [set_next, hXR, hX]
    have hbody : is_sane_body R rR1.m_next x ⟨set_next h R 0, dl, se⟩ =
        .returns true ⟨set_next h R 0, dl, se⟩ := by
      by_cases hbR : head_of l2 R = R
      · refine is_sane_body_ok (set_next h R 0) R rR1.m_next x rX { rR1 with m_next := 0 } dl se
          hX0 hXR hgx (hprev ▸ ha0) (hnext ▸ hb0) hXroot hcx ?_ ?_ ?_ ?_
        · intro hne
          rw [hprev] at hne ⊢
          exact ⟨ra, by simp [set_next, hne, ha], hanext⟩
        · intro he
          rw [hprev] at he
          exact hfirst.mpr he
        · rw [hnext, hbR]
          simp [set_next, hR]
        · rw [hbR, hR] at hb
          rw [← Option.some.inj hb] at hbprev
          exact hbprev
      · refine is_sane_body_ok (set_next h R 0) R rR1.m_next x rX rb dl se
          hX0 hXR hgx (hprev ▸ ha0) (hnext ▸ hb0) hXroot hcx ?_ ?_ ?_ hbprev
        · intro hne
          rw [hprev] at hne ⊢
          exact ⟨ra, by simp [set_next, hne, ha], hanext⟩
        · intro he
          rw [hprev] at he
          exact hfirst.mpr he
        · rw [hnext]
          simp [set_next, hbR, hb]
    have hrec := ih (l1 ++ [x]) f (by simpa using hs) hf1
    have hload : load x ⟨set_next h R 0, dl, se⟩ = .returns rX ⟨set_next h R 0, dl, se⟩ := by
      simp [load, hX0, hgx]
    simp only [is_sane_walk, head_of, ne_eq, hXR, not_false_eq_true, and_self, if_true, bind,
      Exec.bind, hbody, hload, hnext]
    exact hrec

/-- On a well-formed chain with the lock free, `is_sane` of any record of the chain returns
true and leaves the state as it is, given fuel for one round of the chain. -/
theorem is_sane_of_sane (s : State) (R x : Ptr) (l : List Ptr) (fuel : Nat)
    (hs : Sane s.heap R l) (hx : x ∈ R :: l) (hf : l.length < fuel) :
    is_sane fuel x s = .returns true s := by
  obtain ⟨h, dl, se⟩ := s
  simp only at hs ⊢
  obtain ⟨f, rfl⟩ : ∃ f, fuel = f + 1 := ⟨fuel - 1, by omega⟩
  obtain ⟨rx, hrx, hxroot⟩ := hs.linked.alloc hx
  obtain ⟨rR, hR, -⟩ := hs.linked.alloc (List.mem_cons_self R l)
  have hx0 := hs.linked.nonnull x hx
  have hR0 := hs.linked.root_ne_zero
  have hRc : rR.m_count = 0 := by simpa [count_of, hR] using hs.root_count
  have hRn : rR.m_next = head_of l R := by
    simpa [next_of, hR] using hs.linked.links.head_link.1
  have hRn0 : rR.m_next ≠ 0 := hRn ▸ hs.linked.nonnull _ (Linked.head_mem l)
  have hwalk := is_sane_walk_ok h R rR dl se hR l [] (f + 1) (by simpa using hs) hf
  rw [← hRn] at hwalk
  obtain ⟨ap, sz, d, rt, pv, nx, ct⟩ := rR
  simp only at hRc hRn0 hwalk
  subst hRc
  have hback : (set_next h R 0).set R ⟨ap, sz, d, rt, pv, nx, 0⟩ = h := by
    funext q
    simp only [Heap.set, set_next]
    split_ifs with e
    · rw [e, hR]
    · rfl
  have hlock : h.set R ⟨ap, sz, d, rt, pv, 0, 0⟩ = set_next h R 0 := by
    funext q
    simp only [Heap.set, set_next]
    split_ifs with e
    · rw [e, hR]; rfl
    · rfl
  simp [is_sane, lock_spin, load, store, atomic_exchange_next, bind, Exec.bind, pure, hx0,
    hrx, hxroot, hR0, hR, hRn0, hlock, hwalk, set_next, hback]

/-! ### Concrete chains -/

/-- A fresh root is a well-formed chain with no record. -/
theorem fresh_root_sane (R : Ptr) (hR : R ≠ 0) : Sane (fresh_root R).heap R [] := by
  refine ⟨⟨by simp, by simpa using hR, ?_, ?_⟩, ?_, by simp⟩
  · intro x hx
    simp only [List.mem_singleton] at hx
    subst hx
    simp [root_of, fresh_root]
  · simp [Segment, next_of, prev_of, fresh_root]
  · simp [count_of, fresh_root]

theorem sample_chain_sane : Sane sample_chain.heap 1 [2, 3, 4] := by
  refine ⟨⟨by decide, by decide, ?_, ?_⟩, ?_, ?_⟩
  · intro x hx
    simp only [List.mem_cons, List.mem_singleton, List.not_mem_nil, or_false] at hx
    rcases hx with rfl | rfl | rfl | rfl <;> simp [root_of, sample_chain]
  · simp [Segment, next_of, prev_of, sample_chain]
  · simp [count_of, sample_chain]
  · intro x hx
    simp only [List.mem_cons, List.mem_singleton, List.not_mem_nil, or_false] at hx
    rcases hx with rfl | rfl | rfl <;> simp [count_of, sample_chain]

/-- Witness of C1: a first record, at address 2, is constructed under the fresh root 1. -/
theorem construct_links_after_root_witness :
    Linked (fresh_root 1).heap 1 [] ∧ next_of (fresh_root 1).heap 1 = some 1 ∧
      (fresh_root 1).heap 2 = none ∧
      ∃ s1 : State, construct 1 2 1 7 8 9 (fresh_root 1) = .returns 2 s1 ∧
        s1.heap 2 = some ⟨7, 8, 9, 1, 1, 1, 0⟩ ∧ Linked s1.heap 1 [2] :=
  ⟨(fresh_root_sane 1 (by decide)).linked, rfl, rfl,
    (construct_links_after_root (fresh_root 1) 1 1 [] 2 7 8 9 0
      (fresh_root_sane 1 (by decide)).linked rfl (by decide) rfl).imp
      (fun _ hs => ⟨hs.1, hs.2.1, hs.2.2.2.2.1⟩)⟩

/-- Witness of C2: the record 3, in the middle of the chain `1, 2, 3, 4`, is released. -/
theorem decrement_releases_last_owner_witness :
    Linked sample_chain.heap 1 ([2] ++ 3 :: [4]) ∧
      sample_chain.heap 3 = some ⟨30, 8, 5, 1, 2, 4, 1⟩ ∧
      ∃ s1 : State, decrement 1 3 sample_chain = .returns 0 s1 ∧
        s1.heap 3 = some ⟨30, 8, 5, 1, 0, 0, 0⟩ ∧ Linked s1.heap 1 [2, 4] ∧
        s1.dealloc_calls = [(5, 3)] :=
  ⟨sample_chain_sane.linked, rfl,
    (decrement_releases_last_owner sample_chain 1 3 [2] [4] ⟨30, 8, 5, 1, 2, 4, 1⟩ 0
      sample_chain_sane.linked rfl rfl).imp
      (fun _ hs => ⟨hs.1, hs.2.2.2.1, hs.2.2.2.2.2.2.1, hs.2.2.2.2.2.2.2.2.2.1⟩)⟩

/-! ### The invariant of the chain -/

/-- A chain stays linked when no link and no root field changes. -/
theorem Linked.congr {h h1 : Heap} {R : Ptr} {l : List Ptr} (hL : Linked h R l)
    (hn : ∀ x, next_of h1 x = next_of h x) (hp : ∀ x, prev_of h1 x = prev_of h x)
    (hr : ∀ x, root_of h1 x = root_of h x) : Linked h1 R l :=
  ⟨hL.nodup, hL.nonnull, fun x hx => (hr x).trans (hL.roots x hx),
    hL.links.frame (fun x _ => hn x) (fun x _ => hp x)⟩

/-- A well-formed chain stays well formed when a non-root count is set to a value that is
not negative. -/
theorem Sane.set_count_sane {h : Heap} {R x : Ptr} {l : List Ptr} (hs : Sane h R l) (c : Int)
    (hxR : x ≠ R) (hc : 0 ≤ c) : Sane (set_count h x c) R l := by
  refine ⟨hs.linked.congr (by simp) (by simp) (by simp), ?_, ?_⟩
  · rw [count_of_set_count, if_neg (Ne.symm hxR)]
    exact hs.root_count
  · intro y hy
    obtain ⟨c1, hc1, hc10⟩ := hs.counts y hy
    rw [count_of_set_count]
    split_ifs with e
    · subst e
      exact ⟨c, by simp [hc1], hc⟩
    · exact ⟨c1, hc1, hc10⟩

theorem increment_fault (s : State) (x : Ptr) (hx : x = 0 ∨ s.heap x = none) :
    increment x s = .fault := by
  rcases hx with hx | hx <;>
    simp [increment, atomic_fetch_add_count, load, bind, Exec.bind, hx]

theorem decrement_fault (s : State) (x : Ptr) (fuel : Nat) (hx : x = 0 ∨ s.heap x = none) :
    decrement fuel x s = .fault := by
  rcases hx with hx | hx <;>
    simp [decrement, atomic_fetch_add_count, load, bind, Exec.bind, hx]

theorem construct_zero_fuel (s : State) (this R : Ptr) (a b : Nat) (d : function_type) :
    ∀ v s1, construct 0 this R a b d s ≠ .returns v s1 := by
  intro v s1
  by_cases h0 : this = 0
  · simp [construct, emplace, load, bind, Exec.bind, h0]
  · simp [construct, construct_lock, emplace, load, store, write_prev, bind, Exec.bind,
      Heap.set, h0, out_of_fuel]

/-- A released record with count 1 cannot be released again: `decrement` runs into the null
link of the record. -/
theorem decrement_released_fault (h : Heap) (R X : Ptr) (rR rX : SharedAllocationRecord)
    (dl : List (function_type × Ptr)) (se : List Diagnostic) (fuel : Nat)
    (hR0 : R ≠ 0) (hX0 : X ≠ 0) (hXR : X ≠ R) (hX : h X = some rX) (hc : rX.m_count = 1)
    (hroot : rX.m_root = R) (hR : h R = some rR) (hF0 : rR.m_next ≠ 0)
    (hn : rX.m_next = 0) :
    decrement (fuel + 1) X ⟨h, dl, se⟩ = .fault := by
  simp [decrement, lock_spin, load, store, write_prev, atomic_exchange_next,
    atomic_fetch_add_count, bind, Exec.bind, pure, Heap.set, hR, hX, hX0, hXR, Ne.symm hXR,
    hc, hroot, hF0, hR0, hn]

theorem decrement_zero_fuel (s : State) (X : Ptr) (rX : SharedAllocationRecord)
    (hX0 : X ≠ 0) (hX : s.heap X = some rX) (hc : rX.m_count = 1) :
    decrement 0 X s = .timeout := by
  simp [decrement, lock_spin, load, store, atomic_fetch_add_count, bind, Exec.bind, pure,
    hX, hX0, hc, out_of_fuel]

/-- A count that is set to a value of type `int` leaves every count of that type. -/
theorem Typed.set_count_typed {h : Heap} (hty : Typed h) (x : Ptr) (c : Int)
    (hc : INT_MIN ≤ c ∧ c ≤ INT_MAX) : Typed (set_count h x c) := by
  intro y d hd
  rw [count_of_set_count] at hd
  split_ifs at hd with e
  · cases e1 : count_of h x with
    | none => simp [e1] at hd
    | some c0 =>
      simp only [e1, Option.map_some', Option.some.injEq] at hd
      rw [← hd]
      exact hc
  · exact hty y d hd

/-- The constructor leaves every count of type `int`. -/
theorem Typed.inserted_typed {h : Heap} (hty : Typed h) (this R S : Ptr) (a b : Nat)
    (d : function_type) : Typed (inserted h this R S a b d) := by
  intro y c hc
  simp only [inserted, count_of_set_next, count_of_set_prev, count_of_set] at hc
  split_ifs at hc with e
  · simp only [Option.some.injEq] at hc
    rw [← hc]
    decide
  · exact hty y c hc

/-- Unlinking a record leaves every count of type `int`. -/
theorem Typed.unlinked_typed {h : Heap} (hty : Typed h) (X a b : Ptr) :
    Typed (unlinked h X a b) := by
  intro y c hc
  simp only [unlinked, count_of_set_next, count_of_set_prev] at hc
  exact hty.set_count_typed X 0 (by decide) y c hc

theorem Tracked.construct_tracked {R : Ptr} {s s1 : State} {l : List Ptr}
    (ht : Tracked R s l) (hty : Typed s.heap) (fuel : Nat) (this : Ptr) (a b : Nat)
    (d : function_type) (h0 : this ≠ 0) (hfree : s.heap this = none)
    (hrun : construct fuel this R a b d s = .returns this s1) :
    Tracked R s1 (this :: l) ∧ Typed s1.heap := by
  obtain ⟨f, rfl⟩ : ∃ f, fuel = f + 1 := by
    cases fuel with
    | zero => exact absurd hrun (construct_zero_fuel s this R a b d this s1)
    | succ f => exact ⟨f, rfl⟩
  obtain ⟨h, dl, se⟩ := s
  have hrun2 := construct_inserts h R l this a b d dl se f ht.1.linked h0 hfree
  rw [hrun] at hrun2
  obtain rfl : s1 = ⟨inserted h this R (head_of l R) a b d, dl, se⟩ := by injection hrun2
  refine ⟨⟨ht.1.inserted_sane this a b d h0 hfree, ?_⟩, hty.inserted_typed _ _ _ _ _ _⟩
  intro x r hx hr
  change inserted h this R (head_of l R) a b d x = some r at hr
  simp only [List.mem_cons, not_or] at hx
  have hxS : x ≠ head_of l R := by
    intro e
    have := Linked.head_mem (R := R) l
    rw [← e] at this
    simp only [List.mem_cons] at this
    tauto
  rw [inserted_frame h this R _ a b d x hx.2.1] at hr
  cases e : h x with
  | none => simp [e] at hr
  | some r0 =>
    have h1 := ht.2 x r0 (by simp only [List.mem_cons, not_or]; exact ⟨hx.1, hx.2.2⟩) e
    simp only [e, Option.map_some', hx.1, hxS, if_false, Option.some.injEq] at hr
    subst hr
    exact h1

theorem Tracked.set_count_tracked {R x : Ptr} {h : Heap} {dl : List (function_type × Ptr)}
    {se : List Diagnostic} {l : List Ptr} (ht : Tracked R ⟨h, dl, se⟩ l) (c : Int)
    (hxR : x ≠ R) (hc : 0 ≤ c) : Tracked R ⟨set_count h x c, dl, se⟩ l := by
  refine ⟨ht.1.set_count_sane c hxR hc, ?_⟩
  intro y r hy hr
  simp only [set_count] at hr
  split_ifs at hr with e
  · cases e1 : h y with
    | none => simp [e1] at hr
    | some r0 =>
      have := ht.2 y r0 hy e1
      simp only [e1, Option.map_some', Option.some.injEq] at hr
      subst hr
      exact this
  · exact ht.2 y r hy hr

theorem Tracked.increment_tracked {R x : Ptr} {s s1 : State} {l : List Ptr}
    (ht : Tracked R s l) (hty : Typed s.heap) (hxR : x ≠ R)
    (hmax : count_of s.heap x ≠ some INT_MAX) (hrun : increment x s = .returns () s1) :
    Tracked R s1 l ∧ Typed s1.heap := by
  obtain ⟨h, dl, se⟩ := s
  by_cases hx0 : x = 0
  · rw [increment_fault _ x (Or.inl hx0)] at hrun; cases hrun
  cases hx : h x with
  | none => rw [increment_fault _ x (Or.inr hx)] at hrun; cases hrun
  | some rx =>
    rw [increment_run h x rx dl se hx0 hx] at hrun
    split_ifs at hrun with hc
    injection hrun with _ e
    subst e
    have hr := hty x rx.m_count (by simp [count_of, hx])
    have hne : rx.m_count ≠ INT_MAX := fun e => hmax (by simp [count_of, hx, e])
    have hw : wrap_int (rx.m_count + 1) = rx.m_count + 1 :=
      wrap_int_of_range _ (by omega) (by omega)
    exact ⟨ht.set_count_tracked _ hxR (by rw [hw]; omega),
      hty.set_count_typed x _ (wrap_int_range _)⟩

theorem Tracked.decrement_tracked {R x v : Ptr} {s s1 : State} {l : List Ptr}
    (ht : Tracked R s l) (hty : Typed s.heap) (hxR : x ≠ R) (fuel : Nat)
    (hrun : decrement fuel x s = .returns v s1) :
    ∃ l1, Tracked R s1 l1 ∧ Typed s1.heap := by
  obtain ⟨h, dl, se⟩ := s
  by_cases hx0 : x = 0
  · rw [decrement_fault _ x fuel (Or.inl hx0)] at hrun; cases hrun
  cases hx : h x with
  | none => rw [decrement_fault _ x fuel (Or.inr hx)] at hrun; cases hrun
  | some rx =>
    by_cases hc : rx.m_count = 1
    · cases fuel with
      | zero => rw [decrement_zero_fuel _ x rx hx0 hx hc] at hrun; cases hrun
      | succ f =>
        by_cases hxl : x ∈ l
        · obtain ⟨l1, l2, rfl⟩ := List.append_of_mem hxl
          have hrun2 := decrement_unlinks h R x l1 l2 rx dl se f ht.1.linked hx hc
          obtain ⟨-, rx1, -, -, -, hx1, -, -, -, -, hroot, hprev, hnext, -, -, -, -, haX, hbX,
            -, -, -⟩ := ht.1.linked.neighbours
          change h x = some rx1 at hx1
          obtain rfl : rx1 = rx := by rw [hx] at hx1; exact (Option.some.inj hx1).symm
          rw [hrun] at hrun2
          obtain ⟨rfl, rfl⟩ : v = 0 ∧ s1 = ⟨unlinked h x (end_of R l1) (head_of l2 R),
              dl ++ [(rx1.m_dealloc, x)], se⟩ := by
            injection hrun2 with e1 e2
            exact ⟨e1, e2⟩
          refine ⟨l1 ++ l2, ⟨ht.1.unlinked_sane, ?_⟩, hty.unlinked_typed _ _ _⟩
          intro y r hy hr
          change unlinked h x (end_of R l1) (head_of l2 R) y = some r at hr
          by_cases hyx : y = x
          · subst hyx
            rw [unlinked_self h y _ _ rx1 hx haX hbX] at hr
            obtain rfl := Option.some.inj hr
            exact ⟨hroot, rfl, rfl⟩
          · have hy1 : y ∉ R :: (l1 ++ x :: l2) := by
              simp only [List.mem_cons, List.mem_append, not_or] at hy ⊢
              exact ⟨hy.1, hy.2.1, hyx, hy.2.2⟩
            have hya : y ≠ end_of R l1 := by
              intro e
              have := end_of_mem R l1
              rw [← e] at this
              simp only [List.mem_cons, List.mem_append, not_or] at hy1 this
              tauto
            have hyb : y ≠ head_of l2 R := by
              intro e
              have := head_of_mem l2 R
              rw [← e] at this
              simp only [List.mem_cons, List.mem_append, List.mem_singleton, not_or] at hy1 this
              tauto
            rw [unlinked_frame h x _ _ y hyx] at hr
            cases e : h y with
            | none => simp [e] at hr
            | some r0 =>
              have h1 := ht.2 y r0 hy1 e
              simp only [e, Option.map_some', hya, hyb, if_false, Option.some.injEq] at hr
              subst hr
              exact h1
        · obtain ⟨hroot, -, hnext⟩ := ht.2 x rx (by
            simp only [List.mem_cons, not_or]; exact ⟨hxR, hxl⟩) hx
          obtain ⟨rR, hR, -⟩ := ht.1.linked.alloc (List.mem_cons_self R l)
          change h R = some rR at hR
          have hRn : rR.m_next = head_of l R := by
            have := ht.1.linked.links.head_link.1
            change next_of h R = _ at this
            simpa [next_of, hR] using this
          have hRn0 : rR.m_next ≠ 0 := hRn ▸ ht.1.linked.nonnull _ (Linked.head_mem l)
          rw [decrement_released_fault h R x rR rx dl se f ht.1.linked.root_ne_zero hx0 hxR hx
            hc hroot hR hRn0 hnext] at hrun
          cases hrun
    · rw [decrement_run_other h x rx dl se fuel hx0 hx hc] at hrun
      split_ifs at hrun with hc1
      injection hrun with _ e
      subst e
      have hr := hty x rx.m_count (by simp [count_of, hx])
      have hw : wrap_int (rx.m_count - 1) = rx.m_count - 1 :=
        wrap_int_of_range _ (by unfold INT_MIN; omega) (by omega)
      exact ⟨l, ht.set_count_tracked _ hxR (by rw [hw]; omega),
        hty.set_count_typed x _ (wrap_int_range _)⟩

/-- Every state reached from a fresh root by completed calls on its chain is tracked, and
every count in it is of type `int`. -/
theorem Reachable.tracked {R : Ptr} {s : State} (hR : R ≠ 0) (hs : Reachable R s) :
    ∃ l, Tracked R s l ∧ Typed s.heap := by
  induction hs with
  | fresh =>
    refine ⟨[], ⟨fresh_root_sane R hR, ?_⟩, ?_⟩
    · intro x r hx hr
      simp only [List.mem_singleton] at hx
      simp [fresh_root, hx] at hr
    · intro y c hc
      by_cases e : y = R <;> simp [fresh_root, count_of, e] at hc
      rw [← hc]
      decide
  | construct fuel this a b d _ h0 hfree hrun ih =>
    obtain ⟨l, ht, hty⟩ := ih
    exact ⟨this :: l, ht.construct_tracked hty fuel this a b d h0 hfree hrun⟩
  | increment x _ hxR hmax hrun ih =>
    obtain ⟨l, ht, hty⟩ := ih
    exact ⟨l, ht.increment_tracked hty hxR hmax hrun⟩
  | decrement fuel x v _ hxR hrun ih =>
    obtain ⟨l, ht, hty⟩ := ih
    exact ht.decrement_tracked hty hxR fuel hrun

/-! ### A sample run -/

theorem construct_sample : construct 1 2 1 7 8 9 (fresh_root 1) = .returns 2 sample_first :=
  construct_run (fresh_root 1).heap 1 2 ⟨0, 0, 0, 1, 1, 1, 0⟩ ⟨0, 0, 0, 1, 1, 1, 0⟩ [] [] 7 8 9
    0 (by decide) (by decide) rfl rfl (by decide) rfl

theorem increment_sample : increment 2 sample_first = .returns () sample_owned :=
  increment_run sample_first.heap 2 ⟨7, 8, 9, 1, 1, 1, 0⟩ [] [] (by decide) rfl

theorem decrement_sample : decrement 1 2 sample_owned = .returns 0 sample_released :=
  decrement_run sample_owned.heap 1 2 1 1 ⟨0, 0, 0, 1, 2, 2, 0⟩ ⟨7, 8, 9, 1, 1, 1, 1⟩
    ⟨0, 0, 0, 1, 2, 2, 0⟩ ⟨0, 0, 0, 1, 2, 2, 0⟩ [] [] 0 (by decide) (by decide) (by decide) rfl
    rfl rfl rfl (by decide) rfl rfl (by decide) (by decide) (by decide) (by decide) rfl rfl
    (by decide)

theorem sample_owned_reachable : Reachable 1 sample_owned :=
  Reachable.increment 2
    (Reachable.construct 1 2 7 8 9 (Reachable.fresh (R := 1)) (by decide) rfl construct_sample)
    (by decide) (by decide) increment_sample

/-! ### C3: the validator after completed calls -/

/-- Calls of `increment` on a record with a count `c ≥ 0`, `n + 1` times over with
`c + n ≤ INT_MAX`, all return; they leave the count `c + n + 1` as an `int`, which is
`INT_MIN` when `c + n` is `INT_MAX`. -/
theorem increment_times_count (X : Ptr) (hX0 : X ≠ 0) (dl : List (function_type × Ptr))
    (se : List Diagnostic) (n : Nat) (h : Heap) (rX : SharedAllocationRecord)
    (hX : h X = some rX) (h0 : 0 ≤ rX.m_count) (hn : rX.m_count + n ≤ INT_MAX) :
    increment_times X (n + 1) ⟨h, dl, se⟩ =
      some ⟨set_count h X (wrap_int (rX.m_count + (n + 1))), dl, se⟩ := by
  induction n generalizing h rX with
  | zero =>
    have hrun := increment_run h X rX dl se hX0 hX
    rw [if_neg (by omega)] at hrun
    simp [increment_times, hrun]
  | succ n ih =>
    have hrun := increment_run h X rX dl se hX0 hX
    have hw : wrap_int (rX.m_count + 1) = rX.m_count + 1 :=
      wrap_int_of_range _ (by unfold INT_MIN; omega) (by push_cast at hn; omega)
    rw [if_neg (by omega), hw] at hrun
    have hX1 := (heap_set_count_eq h X rX (rX.m_count + 1) hX).1
    have hrec := ih (set_count h X (rX.m_count + 1)) _ hX1
      (by show 0 ≤ rX.m_count + 1; omega)
      (by show rX.m_count + 1 + (n : Int) ≤ INT_MAX; push_cast at hn; omega)
    unfold increment_times
    rw [hrun]
    simp only [hrec, set_count_set_count]
    have e : rX.m_count + 1 + ((n : Int) + 1) = rX.m_count + (((n + 1 : Nat) : Int) + 1) := by
      push_cast
      omega
    rw [e]

/-- C3, as stated, fails, in two ways.  `increment` of the fresh root `1` itself returns, and
`is_sane` of the root is false afterwards, because the count of the root is 1.  And after
the constructor has put the record 2 under the fresh root `1`, `increment` of that record
returns `2^31` times over; the count, an `int`, is then `INT_MIN`, and `is_sane` of the root
is false. -/
theorem is_sane_false_after_completed_calls :
    (increment 1 (fresh_root 1)).value = some () ∧
      ((increment 1 (fresh_root 1)).state.bind fun s => (is_sane 2 1 s).value) = some false ∧
      construct 1 2 1 7 8 9 (fresh_root 1) = .returns 2 sample_first ∧
      ((increment_times 2 (2147483647 + 1) sample_first).bind
        fun s => (is_sane 2 1 s).value) = some false := by
  refine ⟨by decide, by decide, construct_sample, ?_⟩
  rw [show sample_first = ⟨sample_first.heap, [], []⟩ from rfl,
    increment_times_count 2 (by decide) [] [] 2147483647 sample_first.heap
      ⟨7, 8, 9, 1, 1, 1, 0⟩ rfl (by decide) (by decide)]
  decide

/-- C3, amended: in every state reached from a fresh root `R` by calls that returned, each
one a constructor under `R` on fresh storage or an `increment` or `decrement` of a record
other than `R`, and no `increment` being of a record whose count is `INT_MAX`, the chain of
`R` is well formed and `is_sane` of `R` returns true, leaving the state as it is. -/
theorem is_sane_after_completed_calls (R : Ptr) (s : State) (hR : R ≠ 0)
    (hs : Reachable R s) :
    ∃ l, Sane s.heap R l ∧ ∀ fuel, l.length < fuel → is_sane fuel R s = .returns true s := by
  obtain ⟨l, ht, -⟩ := hs.tracked hR
  exact ⟨l, ht.1, fun fuel hf => is_sane_of_sane s R R l fuel ht.1 (List.mem_cons_self R l) hf⟩

/-- Witness of C3: the state after a constructor under the fresh root `1` and an `increment`
of the new record. -/
theorem is_sane_after_completed_calls_witness :
    (1 : Ptr) ≠ 0 ∧ Reachable 1 sample_owned ∧
      ∃ l, Sane sample_owned.heap 1 l ∧
        ∀ fuel, l.length < fuel → is_sane fuel 1 sample_owned = .returns true sample_owned :=
  ⟨by decide, sample_owned_reachable,
    is_sane_after_completed_calls 1 sample_owned (by decide) sample_owned_reachable⟩

/-! ### C4: the callback is called on the last release only -/

theorem run_decrement_state (fuel : Nat) (X : Ptr) (s : State) :
    (Op.run fuel X Op.decrement s).state = (decrement fuel X s).state := by
  simp only [Op.run, bind, Exec.bind, pure]
  cases decrement fuel X s <;> rfl

theorem Lifecycle.step {R X : Ptr} {l : List Ptr} {d : function_type}
    {log : List (function_type × Ptr)} {s s2 : State} (hJ : Lifecycle R l X d log s)
    (hX0 : X ≠ 0) (op : Op) (fuel : Nat) (hrun : (op.run fuel X s).state = some s2) :
    Lifecycle R l X d log s2 ∧
      s2.dealloc_calls = s.dealloc_calls ++
        (if op = Op.decrement ∧ count_of s.heap X = some 1 then [(d, X)] else []) := by
  obtain ⟨h, dl, se⟩ := s
  obtain ⟨⟨r, hr, hd, hroot⟩, hJ⟩ := hJ
  change h X = some r at hr
  have hcount : count_of h X = some r.m_count := by simp [count_of, hr]
  have hkeep : ∀ c : Int, Lifecycle R l X d log ⟨set_count h X c, dl, se⟩ := by
    intro c
    refine ⟨⟨{ r with m_count := c }, by simp [set_count, hr], hd, hroot⟩, ?_⟩
    rcases hJ with ⟨hL, hlog⟩ | ⟨hL, hX, hn, hlog⟩
    · exact Or.inl ⟨hL.congr (by simp) (by simp) (by simp), hlog⟩
    · exact Or.inr ⟨hL.congr (by simp) (by simp) (by simp), hX, by simpa using hn, hlog⟩
  cases op with
  | increment =>
    simp only [Op.run, increment_run h X r dl se hX0 hr] at hrun
    split_ifs at hrun <;>
    · simp only [Outcome.state, Option.some.injEq] at hrun
      subst hrun
      exact ⟨hkeep _, by simp⟩
  | decrement =>
    rw [run_decrement_state] at hrun
    by_cases hc : r.m_count = 1
    · cases fuel with
      | zero =>
        rw [decrement_zero_fuel _ X r hX0 hr hc] at hrun
        simp [Outcome.state] at hrun
      | succ f =>
        rcases hJ with ⟨hL, hlog⟩ | ⟨hL, hX, hn, hlog⟩
        · have hrun3 := decrement_unlinks h R X [] l r dl se f hL hr hc
          have hL0 : Linked h R ([] ++ X :: l) := hL
          have hX3 := hL0.unlinked_self_eq r hr
          have hL3 := hL0.unlinked_linked
          have hlog3 : (dl ++ [(r.m_dealloc, X)]) = dl ++ [(r.m_dealloc, X)] := rfl
          rw [hrun3] at hrun
          simp only [Outcome.state, Option.some.injEq] at hrun
          subst hrun
          have hXl : X ∉ R :: l := by
            have := hL.nodup
            simp only [List.nodup_cons, List.mem_cons, not_or] at this ⊢
            exact ⟨Ne.symm this.1.1, this.2.1⟩
          refine ⟨⟨⟨_, hX3, hd, hroot⟩, Or.inr ⟨hL3, hXl, by simp [next_of, hX3], ?_⟩⟩, ?_⟩
          · change dl ++ [(r.m_dealloc, X)] = _
            rw [hd]
            exact congrArg (· ++ [(d, X)]) hlog
          · change dl ++ [(r.m_dealloc, X)] = _
            rw [hd]
            simp [hcount, hc]
        · obtain ⟨rR, hR, -⟩ := hL.alloc (List.mem_cons_self R l)
          change h R = some rR at hR
          have hRn : rR.m_next = head_of l R := by
            have := hL.links.head_link.1
            change next_of h R = _ at this
            simpa [next_of, hR] using this
          have hRn0 : rR.m_next ≠ 0 := hRn ▸ hL.nonnull _ (Linked.head_mem l)
          have hXR : X ≠ R := by
            simp only [List.mem_cons, not_or] at hX
            exact hX.1
          have hn0 : r.m_next = 0 := by
            change next_of h X = some 0 at hn
            simpa [next_of, hr] using hn
          rw [decrement_released_fault h R X rR r dl se f hL.root_ne_zero hX0 hXR hr hc hroot
            hR hRn0 hn0] at hrun
          simp [Outcome.state] at hrun
    · rw [decrement_run_other h X r dl se fuel hX0 hr hc] at hrun
      split_ifs at hrun <;>
      · simp only [Outcome.state, Option.some.injEq] at hrun
        subst hrun
        exact ⟨hkeep _, by simp [hcount, hc]⟩

theorem Lifecycle.run_ops_lifecycle {R X : Ptr} {l : List Ptr} {d : function_type}
    {log : List (function_type × Ptr)} (hX0 : X ≠ 0) (fuel : Nat) (ops : List Op)
    {s s2 : State} (hJ : Lifecycle R l X d log s) (hrun : run_ops fuel X ops s = some s2) :
    Lifecycle R l X d log s2 := by
  induction ops generalizing s with
  | nil =>
    simp only [run_ops, Option.some.injEq] at hrun
    exact hrun ▸ hJ
  | cons op ops ih =>
    simp only [run_ops] at hrun
    cases e : (op.run fuel X s).state with
    | none => simp [e] at hrun
    | some s3 =>
      rw [e] at hrun
      exact ih (hJ.step hX0 op fuel e).1 hrun

/-- C4: take a record `X` constructed under `R` on fresh storage with callback `d`, and any
sequence of `increment` and `decrement` calls on `X` that runs to its end, from the state
`s1` after the constructor to the state `s`.  Then the callback has been called on `X` at
most once since the constructor; any further call that returns or throws appends a call of
`d` on `X` to the log if and only if it is a `decrement` that finds the count 1, and appends
nothing else; as long as the callback has not been called, the `decrement` that finds the
count 1 does return, having called it; and once it has been called, a `decrement` that
finds the count 1 again faults on the null link of the released record, before any
callback. -/
theorem dealloc_called_on_last_release_only (s0 s1 s : State) (R X : Ptr) (l : List Ptr)
    (a b : Nat) (d : function_type) (fuel0 fuel : Nat) (ops : List Op)
    (hL : Linked s0.heap R l) (hX0 : X ≠ 0) (hfree : s0.heap X = none)
    (hcons : construct fuel0 X R a b d s0 = .returns X s1)
    (hrun : run_ops fuel X ops s1 = some s) :
    (s.dealloc_calls = s1.dealloc_calls ∨ s.dealloc_calls = s1.dealloc_calls ++ [(d, X)]) ∧
    (∀ (op : Op) (s2 : State), (op.run fuel X s).state = some s2 →
      s2.dealloc_calls = s.dealloc_calls ++
        (if op = Op.decrement ∧ count_of s.heap X = some 1 then [(d, X)] else [])) ∧
    (s.dealloc_calls = s1.dealloc_calls → count_of s.heap X = some 1 →
      ∃ s2, decrement (fuel + 1) X s = .returns 0 s2 ∧
        s2.dealloc_calls = s.dealloc_calls ++ [(d, X)]) ∧
    (s.dealloc_calls = s1.dealloc_calls ++ [(d, X)] → count_of s.heap X = some 1 →
      decrement (fuel + 1) X s = .fault) := by
  obtain ⟨f0, rfl⟩ : ∃ f, fuel0 = f + 1 := by
    cases fuel0 with
    | zero => exact absurd hcons (construct_zero_fuel s0 X R a b d X s1)
    | succ f => exact ⟨f, rfl⟩
  obtain ⟨h0, dl0, se0⟩ := s0
  have hcons1 := construct_inserts h0 R l X a b d dl0 se0 f0 hL hX0 hfree
  rw [hcons] at hcons1
  obtain rfl : s1 = ⟨inserted h0 X R (head_of l R) a b d, dl0, se0⟩ := by injection hcons1
  have htm : X ∉ R :: l := hL.not_mem_of_free hfree
  have hX1 : inserted h0 X R (head_of l R) a b d X = some ⟨a, b, d, R, R, head_of l R, 0⟩ :=
    inserted_self h0 X R _ a b d (fun e => htm (e ▸ List.mem_cons_self _ _))
      (fun e => htm (e ▸ Linked.head_mem l))
  have hL1 := hL.inserted_linked X a b d hX0 hfree
  have hJ1 : Lifecycle R l X d dl0 ⟨inserted h0 X R (head_of l R) a b d, dl0, se0⟩ :=
    ⟨⟨_, hX1, rfl, rfl⟩, Or.inl ⟨hL1, rfl⟩⟩
  have hJ := hJ1.run_ops_lifecycle hX0 fuel ops hrun
  refine ⟨?_, ?_, ?_, ?_⟩
  · rcases hJ.2 with ⟨-, hlog⟩ | ⟨-, -, -, hlog⟩
    · exact Or.inl hlog
    · exact Or.inr hlog
  · intro op s2 hstep
    exact (hJ.step hX0 op fuel hstep).2
  · intro hlog hc
    obtain ⟨⟨r, hr, hd, hroot⟩, hJ2⟩ := hJ
    have hrc : r.m_count = 1 := by simpa [count_of, hr] using hc
    rcases hJ2 with ⟨hL2, -⟩ | ⟨-, -, -, hlog2⟩
    · obtain ⟨h2, dl2, se2⟩ := s
      exact ⟨_, decrement_unlinks h2 R X [] l r dl2 se2 fuel hL2 hr hrc, by rw [hd]⟩
    · rw [hlog] at hlog2
      have := congrArg List.length hlog2
      simp at this
  · intro hlog hc
    obtain ⟨⟨r, hr, hd, hroot⟩, hJ2⟩ := hJ
    have hrc : r.m_count = 1 := by simpa [count_of, hr] using hc
    rcases hJ2 with ⟨-, hlog2⟩ | ⟨hL2, hXl, hn, -⟩
    · rw [hlog2] at hlog
      have := congrArg List.length hlog
      simp at this
    · obtain ⟨h2, dl2, se2⟩ := s
      obtain ⟨rR, hR, -⟩ := hL2.alloc (List.mem_cons_self R l)
      change h2 R = some rR at hR
      change h2 X = some r at hr
      have hRn : rR.m_next = head_of l R := by
        have := hL2.links.head_link.1
        change next_of h2 R = _ at this
        simpa [next_of, hR] using this
      have hRn0 : rR.m_next ≠ 0 := hRn ▸ hL2.nonnull _ (Linked.head_mem l)
      have hXR : X ≠ R := by
        simp only [List.mem_cons, not_or] at hXl
        exact hXl.1
      have hn0 : r.m_next = 0 := by
        change next_of h2 X = some 0 at hn
        simpa [next_of, hr] using hn
      exact decrement_released_fault h2 R X rR r dl2 se2 fuel hL2.root_ne_zero hX0 hXR hr hrc
        hroot hR hRn0 hn0

/-- Witness of C4: a record is constructed under a fresh root, then incremented and
decremented. -/
theorem dealloc_called_on_last_release_only_witness :
    Linked (fresh_root 1).heap 1 [] ∧ (2 : Ptr) ≠ 0 ∧ (fresh_root 1).heap 2 = none ∧
      construct 1 2 1 7 8 9 (fresh_root 1) = .returns 2 sample_first ∧
      run_ops 1 2 [Op.increment, Op.decrement] sample_first = some sample_released ∧
      (sample_released.dealloc_calls = sample_first.dealloc_calls ∨
        sample_released.dealloc_calls = sample_first.dealloc_calls ++ [(9, 2)]) := by
  have hrun : run_ops 1 2 [Op.increment, Op.decrement] sample_first = some sample_released := by
    simp [run_ops, Op.run, increment_sample, decrement_sample, Outcome.state, bind, Exec.bind,
      pure]
  exact ⟨(fresh_root_sane 1 (by decide)).linked, by decide, rfl, construct_sample, hrun,
    (dealloc_called_on_last_release_only (fresh_root 1) sample_first sample_released 1 2 []
      7 8 9 1 1 [Op.increment, Op.decrement] (fresh_root_sane 1 (by decide)).linked
      (by decide) rfl construct_sample hrun).1⟩

/-! ### C5, C6, C7: the count checks -/

/-- C5: `decrement` throws if and only if the count it finds is below 1, for a record that
is linked in a chain whenever its count is 1 (so that the release check of the unlinking
branch passes).  When the count is below 1, as for a record fresh from the constructor, the
call throws `decrement_count`: it is no silent no-op, the count is one less (as an `int`:
the difference is wrapped), no link or other field of any record changes and no dealloc is
called. -/
theorem decrement_throws_iff_count_below_one (s : State) (X : Ptr)
    (rX : SharedAllocationRecord) (fuel : Nat) (hX0 : X ≠ 0) (hX : s.heap X = some rX)
    (hL : rX.m_count = 1 → ∃ R l, Linked s.heap R l ∧ X ∈ l) :
    ((∃ e s1, decrement fuel X s = .throws e s1) ↔ rX.m_count < 1) ∧
    (rX.m_count < 1 → ∃ s1, decrement fuel X s = .throws Failure.decrement_count s1 ∧
      s1.heap X = some { rX with m_count := wrap_int (rX.m_count - 1) } ∧
      (∀ q, q ≠ X → s1.heap q = s.heap q) ∧
      s1.dealloc_calls = s.dealloc_calls ∧ s1.stderr = s.stderr) := by
  obtain ⟨h, dl, se⟩ := s
  change h X = some rX at hX
  by_cases hc : rX.m_count = 1
  · have hnot : ¬ rX.m_count < 1 := by omega
    refine ⟨⟨?_, fun h1 => absurd h1 hnot⟩, fun h1 => absurd h1 hnot⟩
    rintro ⟨e, s1, hrun⟩
    exfalso
    cases fuel with
    | zero =>
      rw [decrement_zero_fuel _ X rX hX0 hX hc] at hrun
      cases hrun
    | succ f =>
      obtain ⟨R, l, hLk, hXl⟩ := hL hc
      obtain ⟨l1, l2, rfl⟩ := List.append_of_mem hXl
      rw [decrement_unlinks h R X l1 l2 rX dl se f hLk hX hc] at hrun
      cases hrun
  · have hrun := decrement_run_other h X rX dl se fuel hX0 hX hc
    obtain ⟨hself, hothers⟩ := heap_set_count_eq h X rX (wrap_int (rX.m_count - 1)) hX
    by_cases h1 : rX.m_count < 1
    · rw [if_pos h1] at hrun
      exact ⟨⟨fun _ => h1, fun _ => ⟨_, _, hrun⟩⟩,
        fun _ => ⟨_, hrun, hself, hothers, rfl, rfl⟩⟩
    · rw [if_neg h1] at hrun
      refine ⟨⟨?_, fun h2 => absurd h2 h1⟩, fun h2 => absurd h2 h1⟩
      rintro ⟨e, s1, hrun1⟩
      rw [hrun] at hrun1
      cases hrun1

/-- C6: `decrement` of a record with count `c > 1`, where `c` is a value of type `int`,
returns the record itself, leaves the count `c - 1`, calls no dealloc and changes no other
field of any record, the lock cell of the root included. -/
theorem decrement_shared_only_counts (s : State) (X : Ptr) (rX : SharedAllocationRecord)
    (fuel : Nat) (hX0 : X ≠ 0) (hX : s.heap X = some rX) (hc : 1 < rX.m_count)
    (hmax : rX.m_count ≤ INT_MAX) :
    ∃ s1, decrement fuel X s = .returns X s1 ∧
      s1.heap X = some { rX with m_count := rX.m_count - 1 } ∧
      (∀ q, q ≠ X → s1.heap q = s.heap q) ∧
      s1.dealloc_calls = s.dealloc_calls ∧ s1.stderr = s.stderr := by
  obtain ⟨h, dl, se⟩ := s
  change h X = some rX at hX
  have hrun := decrement_run_other h X rX dl se fuel hX0 hX (by omega)
  rw [if_neg (by omega), wrap_int_of_range (rX.m_count - 1) (by unfold INT_MIN; omega)
    (by omega)] at hrun
  obtain ⟨hself, hothers⟩ := heap_set_count_eq h X rX (rX.m_count - 1) hX
  exact ⟨_, hrun, hself, hothers, rfl, rfl⟩

/-- C7, as stated, fails at the greatest count: `increment` of the record 2 of `sample_full`,
whose count is `INT_MAX`, returns and leaves the count `INT_MIN`, not `INT_MAX + 1`. -/
theorem increment_wraps_at_int_max :
    count_of sample_full.heap 2 = some 2147483647 ∧
      (increment 2 sample_full).value = some () ∧
      ((increment 2 sample_full).state.bind fun s => count_of s.heap 2)
        = some (-2147483648) := by
  decide

/-- C7, amended: `increment` of a record whose count `c` is a value of type `int` (so
`INT_MIN ≤ c`, and one of the two cases that follow holds) leaves the count `c + 1` when
`c < INT_MAX` and `INT_MIN` when `c = INT_MAX`, where the sum wraps; it changes no other
field of any record; it throws if and only if `c < 0` and returns if and only if `0 ≤ c`. -/
theorem increment_adds_one (s : State) (X : Ptr) (rX : SharedAllocationRecord)
    (hX0 : X ≠ 0) (hX : s.heap X = some rX) (hmin : INT_MIN ≤ rX.m_count) :
    ∃ s1, increment X s =
        (if rX.m_count < 0 then .throws Failure.failed_increment s1 else .returns () s1) ∧
      (rX.m_count < INT_MAX → s1.heap X = some { rX with m_count := rX.m_count + 1 }) ∧
      (rX.m_count = INT_MAX → s1.heap X = some { rX with m_count := INT_MIN }) ∧
      (∀ q, q ≠ X → s1.heap q = s.heap q) ∧
      s1.dealloc_calls = s.dealloc_calls ∧ s1.stderr = s.stderr ∧
      ((∃ e s2, increment X s = .throws e s2) ↔ rX.m_count < 0) ∧
      ((∃ s2, increment X s = .returns () s2) ↔ 0 ≤ rX.m_count) := by
  obtain ⟨h, dl, se⟩ := s
  change h X = some rX at hX
  have hrun := increment_run h X rX dl se hX0 hX
  obtain ⟨hself, hothers⟩ := heap_set_count_eq h X rX (wrap_int (rX.m_count + 1)) hX
  refine ⟨⟨set_count h X (wrap_int (rX.m_count + 1)), dl, se⟩, ?_, ?_, ?_, hothers, rfl, rfl,
    ?_, ?_⟩
  · rw [hrun]
  · intro hlt
    show set_count h X (wrap_int (rX.m_count + 1)) X = _
    rw [wrap_int_of_range (rX.m_count + 1) (by omega) (by omega)]
    exact (heap_set_count_eq h X rX _ hX).1
  · intro heq
    have e : wrap_int (rX.m_count + 1) = INT_MIN := by
      rw [heq]
      rfl
    show set_count h X (wrap_int (rX.m_count + 1)) X = _
    rw [e]
    exact (heap_set_count_eq h X rX _ hX).1
  · by_cases h1 : rX.m_count < 0
    · rw [if_pos h1] at hrun
      exact ⟨fun _ => h1, fun _ => ⟨_, _, hrun⟩⟩
    · rw [if_neg h1] at hrun
      refine ⟨?_, fun h2 => absurd h2 h1⟩
      rintro ⟨e, s2, hrun2⟩
      rw [hrun] at hrun2
      cases hrun2
  · by_cases h1 : rX.m_count < 0
    · rw [if_pos h1] at hrun
      refine ⟨?_, fun h2 => absurd h1 (by omega)⟩
      rintro ⟨s2, hrun2⟩
      rw [hrun] at hrun2
      cases hrun2
    · rw [if_neg h1] at hrun
      exact ⟨fun _ => by omega, fun _ => ⟨_, hrun⟩⟩

/-- Witness of C5: the record 2 fresh from the constructor, with count 0, is decremented. -/
theorem decrement_throws_iff_count_below_one_witness :
    (2 : Ptr) ≠ 0 ∧ sample_first.heap 2 = some ⟨7, 8, 9, 1, 1, 1, 0⟩ ∧
      ((∃ e s1, decrement 1 2 sample_first = .throws e s1) ↔ (0 : Int) < 1) ∧
      ∃ s1, decrement 1 2 sample_first = .throws Failure.decrement_count s1 ∧
        s1.heap 2 = some ⟨7, 8, 9, 1, 1, 1, -1⟩ ∧ s1.dealloc_calls = [] :=
  ⟨by decide, rfl,
    (decrement_throws_iff_count_below_one sample_first 2 ⟨7, 8, 9, 1, 1, 1, 0⟩ 1 (by decide) rfl
      (fun h => absurd h (by decide))).1,
    ((decrement_throws_iff_count_below_one sample_first 2 ⟨7, 8, 9, 1, 1, 1, 0⟩ 1 (by decide)
      rfl (fun h => absurd h (by decide))).2 (by decide)).imp
      (fun _ hs => ⟨hs.1, hs.2.1, hs.2.2.2.1⟩)⟩

/-- Witness of C6: the record 2 of the chain `1, 2, 3, 4`, with count 2, is decremented. -/
theorem decrement_shared_only_counts_witness :
    (2 : Ptr) ≠ 0 ∧ sample_chain.heap 2 = some ⟨20, 8, 5, 1, 1, 3, 2⟩ ∧ (1 : Int) < 2 ∧
      (2 : Int) ≤ INT_MAX ∧
      ∃ s1, decrement 1 2 sample_chain = .returns 2 s1 ∧
        s1.heap 2 = some ⟨20, 8, 5, 1, 1, 3, 1⟩ ∧
        (∀ q, q ≠ 2 → s1.heap q = sample_chain.heap q) ∧
        s1.dealloc_calls = sample_chain.dealloc_calls ∧ s1.stderr = sample_chain.stderr :=
  ⟨by decide, rfl, by decide, by decide,
    decrement_shared_only_counts sample_chain 2 ⟨20, 8, 5, 1, 1, 3, 2⟩ 1 (by decide) rfl
      (by decide) (by decide)⟩

/-- Witness of C7: the record 2 fresh from the constructor, with count 0, is incremented. -/
theorem increment_adds_one_witness :
    (2 : Ptr) ≠ 0 ∧ sample_first.heap 2 = some ⟨7, 8, 9, 1, 1, 1, 0⟩ ∧
      INT_MIN ≤ (0 : Int) ∧ (0 : Int) < INT_MAX ∧
      ∃ s1, increment 2 sample_first = .returns () s1 ∧
        s1.heap 2 = some ⟨7, 8, 9, 1, 1, 1, 1⟩ ∧
        (∀ q, q ≠ 2 → s1.heap q = sample_first.heap q) :=
  ⟨by decide, rfl, by decide, by decide,
    (increment_adds_one sample_first 2 ⟨7, 8, 9, 1, 1, 1, 0⟩ (by decide) rfl
      (by decide)).imp
      (fun _ hs => ⟨hs.1, hs.2.1 (by decide), hs.2.2.2.1⟩)⟩

/-! ### C8: paired calls -/

/-- C8, as stated, fails: on the record 2 fresh from the constructor, with count 0 and
linked under the root 1, the pair `increment`, `decrement` returns twice and leaves the
count 0 as before, but the record is no longer linked and its callback has been called: the
successor of the root was 2 and is the root itself, and the `m_prev` of the record was 1 and
is null. -/
theorem paired_calls_unlink_record :
    (count_of sample_first.heap 2, next_of sample_first.heap 1, prev_of sample_first.heap 2,
        sample_first.dealloc_calls) = (some 0, some 2, some 1, []) ∧
      (increment 2 sample_first).value = some () ∧
      ((increment 2 sample_first).state.bind fun s => (decrement 1 2 s).value) = some 0 ∧
      (run_ops 1 2 [Op.increment, Op.decrement] sample_first).map
        (fun s => (count_of s.heap 2, next_of s.heap 1, prev_of s.heap 2, s.dealloc_calls))
        = some (some 0, some 1, some 0, [(9, 2)]) := by
  decide

/-- A sequence of calls on `X` of which no `decrement` finds the count 1 only moves the
count, by the number of `increment` less the number of `decrement`, as an `int`. -/
theorem run_ops_no_release (fuel : Nat) (X : Ptr) (hX0 : X ≠ 0)
    (dl : List (function_type × Ptr)) (se : List Diagnostic) (ops : List Op) (h : Heap)
    (rX : SharedAllocationRecord) (hX : h X = some rX) (hmin : INT_MIN ≤ rX.m_count)
    (hmax : rX.m_count ≤ INT_MAX) (hno : no_release rX.m_count ops) :
    run_ops fuel X ops ⟨h, dl, se⟩ =
      some ⟨set_count h X
        (wrap_int (rX.m_count + ops.count Op.increment - ops.count Op.decrement)), dl, se⟩ := by
  induction ops generalizing h rX with
  | nil =>
    simp only [run_ops, List.count_nil, Nat.cast_zero, add_zero, sub_zero]
    rw [wrap_int_of_range _ hmin hmax, set_count_same h X rX hX]
  | cons op ops ih =>
    cases op with
    | increment =>
      have hX1 := (heap_set_count_eq h X rX (wrap_int (rX.m_count + 1)) hX).1
      have hrec := ih (set_count h X (wrap_int (rX.m_count + 1))) _ hX1
        (wrap_int_range _).1 (wrap_int_range _).2 hno
      have hstate : (Op.run fuel X Op.increment ⟨h, dl, se⟩).state =
          some ⟨set_count h X (wrap_int (rX.m_count + 1)), dl, se⟩ := by
        simp only [Op.run, increment_run h X rX dl se hX0 hX]
        split_ifs <;> rfl
      simp only [run_ops, hstate, Option.some_bind, hrec, set_count_set_count]
      congr 3
      simp only [List.count_cons, beq_self_eq_true, if_true, Nat.cast_add, Nat.cast_one,
        show (Op.increment == Op.decrement) = false from rfl, Bool.false_eq_true, if_false,
        Nat.add_zero]
      refine congrArg (set_count h X) ?_
      unfold wrap_int
      omega
    | decrement =>
      have hX1 := (heap_set_count_eq h X rX (wrap_int (rX.m_count - 1)) hX).1
      have hrec := ih (set_count h X (wrap_int (rX.m_count - 1))) _ hX1
        (wrap_int_range _).1 (wrap_int_range _).2 hno.2
      have hstate : (Op.run fuel X Op.decrement ⟨h, dl, se⟩).state =
          some ⟨set_count h X (wrap_int (rX.m_count - 1)), dl, se⟩ := by
        rw [run_decrement_state, decrement_run_other h X rX dl se fuel hX0 hX hno.1]
        split_ifs <;> rfl
      simp only [run_ops, hstate, Option.some_bind, hrec, set_count_set_count]
      congr 3
      simp only [List.count_cons, beq_self_eq_true, if_true, Nat.cast_add, Nat.cast_one,
        show (Op.decrement == Op.increment) = false from rfl, Bool.false_eq_true, if_false,
        Nat.add_zero]
      refine congrArg (set_count h X) ?_
      unfold wrap_int
      omega

/-- C8, amended: a sequence of as many `increment` as `decrement` calls on one record, in
any order, of which no `decrement` finds the count 1, runs to its end and leaves the whole
state, so the count of the record and every link of every record, as it was.  The count of
the record is a value of type `int`. -/
theorem paired_calls_keep_state (s : State) (X : Ptr) (rX : SharedAllocationRecord)
    (fuel : Nat) (ops : List Op) (hX0 : X ≠ 0) (hX : s.heap X = some rX)
    (hmin : INT_MIN ≤ rX.m_count) (hmax : rX.m_count ≤ INT_MAX)
    (hpair : ops.count Op.increment = ops.count Op.decrement)
    (hno : no_release rX.m_count ops) :
    run_ops fuel X ops s = some s := by
  obtain ⟨h, dl, se⟩ := s
  change h X = some rX at hX
  rw [run_ops_no_release fuel X hX0 dl se ops h rX hX hmin hmax hno, hpair]
  have e : rX.m_count + (ops.count Op.decrement : Int) - ops.count Op.decrement
      = rX.m_count := by ring
  rw [e, wrap_int_of_range _ hmin hmax, set_count_same h X rX hX]

/-- Witness of C8: two pairs of calls, interleaved, on the record 2 of the chain
`1, 2, 3, 4`, which has count 2. -/
theorem paired_calls_keep_state_witness :
    (2 : Ptr) ≠ 0 ∧ sample_chain.heap 2 = some ⟨20, 8, 5, 1, 1, 3, 2⟩ ∧
      INT_MIN ≤ (2 : Int) ∧ (2 : Int) ≤ INT_MAX ∧
      no_release 2 [Op.decrement, Op.increment, Op.increment, Op.decrement] ∧
      run_ops 1 2 [Op.decrement, Op.increment, Op.increment, Op.decrement] sample_chain
        = some sample_chain :=
  ⟨by decide, rfl, by decide, by decide, by simp [no_release, wrap_int],
    paired_calls_keep_state sample_chain 2 ⟨20, 8, 5, 1, 1, 3, 2⟩ 1
      [Op.decrement, Op.increment, Op.increment, Op.decrement] (by decide) rfl (by decide)
      (by decide) (by decide) (by simp [no_release, wrap_int])⟩

/-! ### C9: a run of constructors -/

theorem follow_next_segment (h : Heap) (R : Ptr) (l : List Ptr) (p : Ptr)
    (hs : Segment h p l R) (hR : R ∉ l) : follow_next h R (l.length + 1) p = some l := by
  induction l generalizing p with
  | nil => simp [follow_next, hs.1]
  | cons q l ih =>
    simp only [List.mem_cons, not_or] at hR
    have e := ih q hs.2.2 hR.2
    rw [List.length_cons, follow_next, hs.1]
    simp only [Ne.symm hR.1, if_false]
    rw [e]
    rfl

/-- Following `m_next` from the root of a linked chain visits the records of the chain, in
order, and comes back to the root. -/
theorem Linked.follow_next_eq {h : Heap} {R : Ptr} {l : List Ptr} (hL : Linked h R l) :
    follow_next h R (l.length + 1) R = some l :=
  follow_next_segment h R l R hL.links (List.nodup_cons.mp hL.nodup).1

/-- Every record of a linked chain, the root included, is the successor of its predecessor
and the predecessor of its successor. -/
theorem Linked.closed {h : Heap} {R : Ptr} {l : List Ptr} (hL : Linked h R l) (x : Ptr)
    (hx : x ∈ R :: l) :
    ∃ a b, prev_of h x = some a ∧ next_of h a = some x ∧ next_of h x = some b ∧
      prev_of h b = some x := by
  simp only [List.mem_cons] at hx
  rcases hx with rfl | hx
  · exact ⟨end_of x l, head_of l x, hL.links.end_link.2, hL.links.end_link.1,
      hL.links.head_link.1, hL.links.head_link.2⟩
  · obtain ⟨l1, l2, rfl⟩ := List.append_of_mem hx
    obtain ⟨hs1, hs2⟩ := (Segment.append_iff h R x R l1 l2).mp hL.links
    exact ⟨end_of R l1, head_of l2 R, hs1.end_link.2, hs1.end_link.1, hs2.head_link.1,
      hs2.head_link.2⟩

theorem construct_all_sane (fuel : Nat) (R : Ptr) (cs : List ConstructArgs) (s : State)
    (l0 : List Ptr) (hs : Sane s.heap R l0)
    (hfresh : ∀ c ∈ cs, c.this ≠ 0 ∧ s.heap c.this = none)
    (hnd : (cs.map ConstructArgs.this).Nodup) :
    ∃ s1, construct_all (fuel + 1) R cs s = some s1 ∧
      Sane s1.heap R ((cs.map ConstructArgs.this).reverse ++ l0) := by
  induction cs generalizing s l0 with
  | nil => exact ⟨s, rfl, by simpa using hs⟩
  | cons c cs ih =>
    obtain ⟨h0, hfree⟩ := hfresh c (List.mem_cons_self c cs)
    obtain ⟨h, dl, se⟩ := s
    have hrun := construct_inserts h R l0 c.this c.arg_alloc_ptr c.arg_alloc_size c.arg_dealloc
      dl se fuel hs.linked h0 hfree
    simp only [List.map_cons, List.nodup_cons, List.mem_map, not_exists, not_and] at hnd
    obtain ⟨s2, hrun2, hsane2⟩ := ih ⟨inserted h c.this R (head_of l0 R) c.arg_alloc_ptr
        c.arg_alloc_size c.arg_dealloc, dl, se⟩ (c.this :: l0)
      (hs.inserted_sane c.this _ _ _ h0 hfree) (by
      intro c1 hc1
      obtain ⟨h10, hfree1⟩ := hfresh c1 (List.mem_cons_of_mem c hc1)
      refine ⟨h10, ?_⟩
      change inserted h c.this R (head_of l0 R) _ _ _ c1.this = none
      change h c1.this = none at hfree1
      rw [inserted_frame h c.this R _ _ _ _ c1.this (fun e => hnd.1 c1 hc1 e), hfree1]
      rfl) hnd.2
    refine ⟨s2, ?_, ?_⟩
    · simp only [construct_all, hrun, hrun2]
    · simpa using hsane2

/-- C9: `N` constructor calls under the root `R` of an empty chain, on `N` distinct fresh
storages, all return.  Afterwards the chain has `N + 1` nodes: following `m_next` from `R`
visits exactly the new records, each once (the latest first), and comes back to `R`; every
node is the successor of its predecessor and the predecessor of its successor; the chain is
well formed and `is_sane` of `R` returns true. -/
theorem construct_all_builds_chain (fuel : Nat) (R : Ptr) (cs : List ConstructArgs)
    (s : State) (hs : Sane s.heap R [])
    (hfresh : ∀ c ∈ cs, c.this ≠ 0 ∧ s.heap c.this = none)
    (hnd : (cs.map ConstructArgs.this).Nodup) :
    ∃ s1, construct_all (fuel + 1) R cs s = some s1 ∧
      follow_next s1.heap R (cs.length + 1) R = some (cs.map ConstructArgs.this).reverse ∧
      (R :: (cs.map ConstructArgs.this).reverse).Nodup ∧
      (R :: (cs.map ConstructArgs.this).reverse).length = cs.length + 1 ∧
      (∀ x ∈ R :: (cs.map ConstructArgs.this).reverse, ∃ a b, prev_of s1.heap x = some a ∧
        next_of s1.heap a = some x ∧ next_of s1.heap x = some b ∧
        prev_of s1.heap b = some x) ∧
      Sane s1.heap R (cs.map ConstructArgs.this).reverse ∧
      ∀ f, cs.length < f → is_sane f R s1 = .returns true s1 := by
  obtain ⟨s1, hrun, hsane⟩ := construct_all_sane fuel R cs s [] hs hfresh hnd
  rw [List.append_nil] at hsane
  have hlen : (cs.map ConstructArgs.this).reverse.length = cs.length := by simp
  refine ⟨s1, hrun, ?_, hsane.linked.nodup, by simp, hsane.linked.closed, hsane, ?_⟩
  · have := hsane.linked.follow_next_eq
    rwa [hlen] at this
  · intro f hf
    exact is_sane_of_sane s1 R R _ f hsane (List.mem_cons_self R _) (hlen ▸ hf)

/-- Witness of C9: the records 2, 3 and 4 are constructed under the fresh root 1; following
`m_next` from the root visits 4, 3, 2. -/
theorem construct_all_builds_chain_witness :
    Sane (fresh_root 1).heap 1 [] ∧
      ∃ s1, construct_all 1 1 [⟨2, 20, 8, 5⟩, ⟨3, 30, 8, 5⟩, ⟨4, 40, 8, 5⟩] (fresh_root 1)
          = some s1 ∧
        follow_next s1.heap 1 4 1 = some [4, 3, 2] ∧
        ∀ f, 3 < f → is_sane f 1 s1 = .returns true s1 :=
  ⟨fresh_root_sane 1 (by decide),
    (construct_all_builds_chain 0 1 [⟨2, 20, 8, 5⟩, ⟨3, 30, 8, 5⟩, ⟨4, 40, 8, 5⟩] (fresh_root 1)
      (fresh_root_sane 1 (by decide))
      (by
        intro c hc
        simp only [List.mem_cons, List.mem_singleton, List.not_mem_nil, or_false] at hc
        rcases hc with rfl | rfl | rfl <;> exact ⟨by decide, rfl⟩)
      (by decide)).imp
      (fun _ hs => ⟨hs.1, hs.2.1, hs.2.2.2.2.2.2⟩)⟩

/-! ### C10: construct, increment, decrement -/

/-- C10: on a well-formed chain under `R`, a constructor on fresh storage `A` followed by
`increment` of `A` gives `A` the count 1 with `is_sane` of `R` true; the `decrement` of `A`
that follows returns null, calls the callback of `A` once, and leaves every record other
than `A`, so every link of `R` and of the records that were there, as before the
constructor; `is_sane` of `R` is true again. -/
theorem construct_increment_decrement_round_trip (s : State) (R A : Ptr) (l : List Ptr)
    (arg_alloc_ptr arg_alloc_size : Nat) (arg_dealloc : function_type) (fuel : Nat)
    (hs : Sane s.heap R l) (hA0 : A ≠ 0) (hfree : s.heap A = none) :
    ∃ s1 s2 s3,
      construct (fuel + 1) A R arg_alloc_ptr arg_alloc_size arg_dealloc s = .returns A s1 ∧
      increment A s1 = .returns () s2 ∧
      count_of s2.heap A = some 1 ∧
      (∀ f, l.length + 1 < f → is_sane f R s2 = .returns true s2) ∧
      decrement (fuel + 1) A s2 = .returns 0 s3 ∧
      s3.dealloc_calls = s.dealloc_calls ++ [(arg_dealloc, A)] ∧
      (∀ q, q ≠ A → s3.heap q = s.heap q) ∧
      (∀ f, l.length < f → is_sane f R s3 = .returns true s3) := by
  obtain ⟨h, dl, se⟩ := s
  change Sane h R l at hs
  change h A = none at hfree
  have hS := hs.linked.links.head_link
  have hrun1 := construct_inserts h R l A arg_alloc_ptr arg_alloc_size arg_dealloc dl se fuel
    hs.linked hA0 hfree
  have hs1 := hs.inserted_sane A arg_alloc_ptr arg_alloc_size arg_dealloc hA0 hfree
  have htm : A ∉ R :: l := hs.linked.not_mem_of_free hfree
  have hAR : A ≠ R := fun e => htm (e ▸ List.mem_cons_self _ _)
  have hA1 := inserted_self h A R (head_of l R) arg_alloc_ptr arg_alloc_size arg_dealloc hAR
    (fun e => htm (e ▸ Linked.head_mem l))
  have hframe1 := inserted_frame h A R (head_of l R) arg_alloc_ptr arg_alloc_size arg_dealloc
  generalize inserted h A R (head_of l R) arg_alloc_ptr arg_alloc_size arg_dealloc = h1
    at hrun1 hs1 hA1 hframe1
  have hrun2 : increment A ⟨h1, dl, se⟩ = .returns () ⟨set_count h1 A 1, dl, se⟩ := by
    have := increment_run h1 A _ dl se hA0 hA1
    simpa using this
  have hs2 : Sane (set_count h1 A 1) R (A :: l) := hs1.set_count_sane 1 hAR (by decide)
  obtain ⟨hA2, hothers2⟩ := heap_set_count_eq h1 A _ 1 hA1
  have hrun3 := decrement_unlinks (set_count h1 A 1) R A [] l _ dl se fuel hs2.linked hA2 rfl
  have hs2a : Sane (set_count h1 A 1) R ([] ++ A :: l) := hs2
  have hs3 := hs2a.unlinked_sane
  refine ⟨⟨h1, dl, se⟩, ⟨set_count h1 A 1, dl, se⟩, _, hrun1, hrun2, ?_, ?_, hrun3, rfl,
    ?_, ?_⟩
  · simp [count_of, hA2]
  · intro f hf
    exact is_sane_of_sane _ R R (A :: l) f hs2 (List.mem_cons_self R _) (by simpa using hf)
  · intro q hq
    change unlinked (set_count h1 A 1) A (end_of R []) (head_of l R) q = h q
    rw [unlinked_frame _ A _ _ q hq, hothers2 q hq, hframe1 q hq]
    cases e : h q with
    | none => rfl
    | some r =>
      have hn : q = R → r.m_next = head_of l R := by
        rintro rfl
        simpa [next_of, e] using hS.1
      have hp : q = head_of l R → r.m_prev = R := by
        rintro rfl
        simpa [prev_of, e] using hS.2
      obtain ⟨ap, sz, d, rt, pv, nx, ct⟩ := r
      simp only at hn hp
      have e1 : (if q = head_of l R then R else if q = head_of l R then A else pv) = pv := by
        split_ifs with c
        · exact (hp c).symm
        · rfl
      have e2 : (if q = R then head_of l R else if q = R then A else nx) = nx := by
        split_ifs with c
        · exact (hn c).symm
        · rfl
      show some (⟨ap, sz, d, rt, if q = head_of l R then R else
          (if q = head_of l R then A else pv),
        if q = R then head_of l R else (if q = R then A else nx), ct⟩ :
          SharedAllocationRecord) = some ⟨ap, sz, d, rt, pv, nx, ct⟩
      rw [e1, e2]
  · intro f hf
    exact is_sane_of_sane _ R R l f hs3 (List.mem_cons_self R _) hf

/-- Witness of C10: the round trip on the chain `1, 2, 3, 4`, with the new record at 5. -/
theorem construct_increment_decrement_round_trip_witness :
    Sane sample_chain.heap 1 [2, 3, 4] ∧ (5 : Ptr) ≠ 0 ∧ sample_chain.heap 5 = none ∧
      ∃ s1 s2 s3,
        construct 1 5 1 50 8 6 sample_chain = .returns 5 s1 ∧
        increment 5 s1 = .returns () s2 ∧
        count_of s2.heap 5 = some 1 ∧
        (∀ f, 3 + 1 < f → is_sane f 1 s2 = .returns true s2) ∧
        decrement 1 5 s2 = .returns 0 s3 ∧
        s3.dealloc_calls = sample_chain.dealloc_calls ++ [(6, 5)] ∧
        (∀ q, q ≠ 5 → s3.heap q = sample_chain.heap q) ∧
        (∀ f, 3 < f → is_sane f 1 s3 = .returns true s3) :=
  ⟨sample_chain_sane, by decide, rfl,
    construct_increment_decrement_round_trip sample_chain 1 5 [2, 3, 4] 50 8 6 0
      sample_chain_sane (by decide) rfl⟩

/-! ### C18: the count after a call that throws -/

/-- C18, as stated, fails at the least count: `decrement` of the record 2 of
`sample_drained`, whose count is `INT_MIN`, throws and leaves the count `INT_MAX`, not
`INT_MIN - 1`. -/
theorem decrement_wraps_at_int_min :
    count_of sample_drained.heap 2 = some (-2147483648) ∧
      (decrement 1 2 sample_drained).thrown = some Failure.decrement_count ∧
      ((decrement 1 2 sample_drained).state.bind fun s => count_of s.heap 2)
        = some 2147483647 := by
  decide

/-- C18, amended: the count update is not rolled back.  Let the count `c` of the record be
a value of type `int`.  A `decrement` that finds `c < 1` throws and leaves the count `c - 1`
when `INT_MIN < c`, and `INT_MAX` when `c` is `INT_MIN`, where the difference wraps; an
`increment` that finds `c < 0` throws and leaves the count `c + 1`; in both cases every
other field of every record, so every link, is unchanged and no dealloc is called.  Hence
on a record with count 0 the `decrement` throws leaving the count `-1`, and the `increment`
that follows throws as well, leaving the count 0. -/
theorem count_kept_after_throw (s : State) (X : Ptr) (rX : SharedAllocationRecord)
    (fuel : Nat) (hX0 : X ≠ 0) (hX : s.heap X = some rX) (hmin : INT_MIN ≤ rX.m_count) :
    (rX.m_count < 1 → ∃ s1, decrement fuel X s = .throws Failure.decrement_count s1 ∧
      (INT_MIN < rX.m_count → s1.heap X = some { rX with m_count := rX.m_count - 1 }) ∧
      (rX.m_count = INT_MIN → s1.heap X = some { rX with m_count := INT_MAX }) ∧
      (∀ q, q ≠ X → s1.heap q = s.heap q) ∧ s1.dealloc_calls = s.dealloc_calls) ∧
    (rX.m_count < 0 → ∃ s1, increment X s = .throws Failure.failed_increment s1 ∧
      s1.heap X = some { rX with m_count := rX.m_count + 1 } ∧
      (∀ q, q ≠ X → s1.heap q = s.heap q) ∧ s1.dealloc_calls = s.dealloc_calls) ∧
    (rX.m_count = 0 → ∃ s1 s2, decrement fuel X s = .throws Failure.decrement_count s1 ∧
      s1.heap X = some { rX with m_count := -1 } ∧
      increment X s1 = .throws Failure.failed_increment s2 ∧
      s2.heap X = some { rX with m_count := 0 } ∧
      (∀ q, q ≠ X → s2.heap q = s.heap q) ∧ s2.dealloc_calls = s.dealloc_calls) := by
  obtain ⟨h, dl, se⟩ := s
  change h X = some rX at hX
  refine ⟨?_, ?_, ?_⟩
  · intro hc
    have hrun := decrement_run_other h X rX dl se fuel hX0 hX (by omega)
    rw [if_pos hc] at hrun
    obtain ⟨hself, hothers⟩ := heap_set_count_eq h X rX (wrap_int (rX.m_count - 1)) hX
    refine ⟨_, hrun, fun hlt => ?_, fun heq => ?_, hothers, rfl⟩
    · show set_count h X (wrap_int (rX.m_count - 1)) X = _
      rw [wrap_int_of_range (rX.m_count - 1) (by omega) (by unfold INT_MAX; omega)]
      exact (heap_set_count_eq h X rX _ hX).1
    · have e : wrap_int (rX.m_count - 1) = INT_MAX := by
        rw [heq]
        rfl
      show set_count h X (wrap_int (rX.m_count - 1)) X = _
      rw [e]
      exact (heap_set_count_eq h X rX _ hX).1
  · intro hc
    have hrun := increment_run h X rX dl se hX0 hX
    rw [if_pos hc, wrap_int_of_range (rX.m_count + 1) (by omega)
      (by unfold INT_MAX; omega)] at hrun
    obtain ⟨hself, hothers⟩ := heap_set_count_eq h X rX (rX.m_count + 1) hX
    exact ⟨_, hrun, hself, hothers, rfl⟩
  · intro hc
    have hrun := decrement_run_other h X rX dl se fuel hX0 hX (by omega)
    have hw : wrap_int (rX.m_count - 1) = -1 := by
      rw [hc]
      rfl
    rw [if_pos (by omega), hw] at hrun
    obtain ⟨hself, hothers⟩ := heap_set_count_eq h X rX (-1) hX
    have hrun2 : increment X ⟨set_count h X (-1), dl, se⟩ =
        .throws Failure.failed_increment ⟨set_count (set_count h X (-1)) X 0, dl, se⟩ := by
      have := increment_run (set_count h X (-1)) X _ dl se hX0 hself
      simpa using this
    obtain ⟨hself2, hothers2⟩ := heap_set_count_eq (set_count h X (-1)) X _ (0 : Int) hself
    refine ⟨_, _, hrun, hself, hrun2, hself2, ?_, rfl⟩
    intro q hq
    change set_count (set_count h X (-1)) X 0 q = h q
    rw [hothers2 q hq, hothers q hq]

/-- Witness of C18: the record 2 fresh from the constructor, with count 0, is decremented and
then incremented. -/
theorem count_kept_after_throw_witness :
    (2 : Ptr) ≠ 0 ∧ sample_first.heap 2 = some ⟨7, 8, 9, 1, 1, 1, 0⟩ ∧ INT_MIN ≤ (0 : Int) ∧
      ∃ s1 s2, decrement 1 2 sample_first = .throws Failure.decrement_count s1 ∧
        s1.heap 2 = some ⟨7, 8, 9, 1, 1, 1, -1⟩ ∧
        increment 2 s1 = .throws Failure.failed_increment s2 ∧
        s2.heap 2 = some ⟨7, 8, 9, 1, 1, 1, 0⟩ ∧
        (∀ q, q ≠ 2 → s2.heap q = sample_first.heap q) ∧
        s2.dealloc_calls = sample_first.dealloc_calls :=
  ⟨by decide, rfl, by decide,
    (count_kept_after_throw sample_first 2 ⟨7, 8, 9, 1, 1, 1, 0⟩ 1 (by decide) rfl
      (by decide)).2.2 rfl⟩

/-! ### What the validator does in any memory -/

/-- The loop body on a record whose `m_prev` is null: when it returns, it returns false. -/
theorem is_sane_body_null_prev (g : Heap) (R F n : Ptr) (dl : List (function_type × Ptr))
    (se : List Diagnostic) (b : Bool) (s1 : State) (hnR : n ≠ R)
    (h : is_sane_body R F n ⟨g, dl, se⟩ = .returns b s1)
    (h0 : n ≠ 0) (rn : SharedAllocationRecord) (hn : g n = some rn) (hp0 : rn.m_prev = 0) :
    s1.heap = g ∧ s1.dealloc_calls = dl ∧ n ≠ 0 ∧ (∃ rn, g n = some rn) ∧
      (b = true → s1.stderr = se ∧ node_ok g R F n) ∧
      (b = false → (∃ d, s1.stderr = se ++ [d]) ∧ ¬ node_ok g R F n) := by
  by_cases hb0 : rn.m_next = 0
  · simp [is_sane_body, load, bind, Exec.bind, pure, h0, hn, hp0, hb0, hnR] at h
  · cases hb : g rn.m_next with
    | none => simp [is_sane_body, load, bind, Exec.bind, pure, h0, hn, hp0, hb0, hnR, hb] at h
    | some rb =>
      by_cases hr0 : rn.m_root = 0 <;>
        simp [is_sane_body, load, bind, Exec.bind, pure, fprintf_stderr, h0, hn, hnR, hp0, hb0,
          hb, hr0, @eq_comm _ 0 rn.m_root] at h
      obtain ⟨rfl, rfl⟩ := h
      simp [node_ok, next_of, prev_of, h0, hn, hp0, hb0, hb]

set_option maxHeartbeats 1000000 in
/-- The loop body on a record whose `m_prev` is the root. -/
theorem is_sane_body_root_prev (g : Heap) (R F n : Ptr) (dl : List (function_type × Ptr))
    (se : List Diagnostic) (b : Bool) (s1 : State) (hnR : n ≠ R)
    (h : is_sane_body R F n ⟨g, dl, se⟩ = .returns b s1)
    (h0 : n ≠ 0) (rn : SharedAllocationRecord) (hn : g n = some rn) (hR0 : R ≠ 0)
    (hb0 : rn.m_next ≠ 0) (hpR : rn.m_prev = R) :
    s1.heap = g ∧ s1.dealloc_calls = dl ∧ n ≠ 0 ∧ (∃ rn, g n = some rn) ∧
      (b = true → s1.stderr = se ∧ node_ok g R F n) ∧
      (b = false → (∃ d, s1.stderr = se ++ [d]) ∧ ¬ node_ok g R F n) := by
  cases hb : g rn.m_next with
  | none =>
    simp [is_sane_body, load, bind, Exec.bind, pure, h0, hn, hR0, hb0, hnR, hb, hpR] at h
  | some rb =>
    cases hR : g R with
    | none =>
      by_cases hroot : rn.m_root = R <;>
      by_cases hF : F = n <;>
      by_cases hbp : rb.m_prev = n <;>
      by_cases hc : 0 ≤ rn.m_count <;>
      simp [is_sane_body, load, bind, Exec.bind, pure, fprintf_stderr, h0, hn, hnR, hR0, hb0, hb,
        hpR, hR, hroot, hF, hbp, hc,
        @eq_comm _ R rn.m_root] at h <;>
      (obtain ⟨rfl, rfl⟩ := h
       simp [node_ok, next_of, prev_of, h0, hn, hR0, hb0, hb, hpR, hR, hroot, hF, hbp, hc])
    | some rR =>
      by_cases hroot : rn.m_root = R <;>
      by_cases hF : F = n <;>
      by_cases hbp : rb.m_prev = n <;>
      by_cases hc : 0 ≤ rn.m_count <;>
      simp [is_sane_body, load, bind, Exec.bind, pure, fprintf_stderr, h0, hn, hnR, hR0, hb0, hb,
        hpR, hR, hroot, hF, hbp, hc,
        @eq_comm _ R rn.m_root] at h <;>
      (obtain ⟨rfl, rfl⟩ := h
       simp [node_ok, next_of, prev_of, h0, hn, hR0, hb0, hb, hpR, hR, hroot, hF, hbp, hc])

set_option maxHeartbeats 1000000 in
/-- The loop body on a record whose `m_prev` is neither null nor the root. -/
theorem is_sane_body_inner_prev (g : Heap) (R F n : Ptr) (dl : List (function_type × Ptr))
    (se : List Diagnostic) (b : Bool) (s1 : State) (hnR : n ≠ R)
    (h : is_sane_body R F n ⟨g, dl, se⟩ = .returns b s1)
    (h0 : n ≠ 0) (rn : SharedAllocationRecord) (hn : g n = some rn) (hp0 : rn.m_prev ≠ 0)
    (hb0 : rn.m_next ≠ 0) (hpR : rn.m_prev ≠ R) :
    s1.heap = g ∧ s1.dealloc_calls = dl ∧ n ≠ 0 ∧ (∃ rn, g n = some rn) ∧
      (b = true → s1.stderr = se ∧ node_ok g R F n) ∧
      (b = false → (∃ d, s1.stderr = se ++ [d]) ∧ ¬ node_ok g R F n) := by
  cases hp : g rn.m_prev with
  | none =>
    simp [is_sane_body, load, bind, Exec.bind, pure, h0, hn, hp0, hb0, hnR, hp, hpR] at h
  | some rp =>
    cases hb : g rn.m_next with
    | none =>
      simp [is_sane_body, load, bind, Exec.bind, pure, h0, hn, hp0, hb0, hnR, hp, hpR, hb] at h
    | some rb =>
      have hpr : (rn.m_prev = rn.m_root) = True ∨ (rn.m_prev = rn.m_root) = False := by
        by_cases hq : rn.m_prev = rn.m_root
        · exact Or.inl (eq_true hq)
        · exact Or.inr (eq_false hq)
      rcases hpr with hpr | hpr <;>
      by_cases hroot : rn.m_root = R <;>
      by_cases hpn : rp.m_next = n <;>
      by_cases hbp : rb.m_prev = n <;>
      by_cases hc : 0 ≤ rn.m_count <;>
      simp [is_sane_body, load, bind, Exec.bind, pure, fprintf_stderr, h0, hn, hnR, hp0, hb0, hb,
        hpR, hp, hroot, hpn, hbp, hc, hpr] at h <;>
      (obtain ⟨rfl, rfl⟩ := h
       simp [node_ok, next_of, prev_of, h0, hn, hp0, hb0, hb, hpR, hp, hroot, hpn, hbp, hc])

/-- What a run of the loop body of `is_sane` that returns has done: the memory and the
callback log are as before; the result is true exactly when the five checks hold, and then
nothing has been printed; when it is false one diagnostic has been printed. -/
theorem is_sane_body_returns (g : Heap) (R F n : Ptr) (dl : List (function_type × Ptr))
    (se : List Diagnostic) (b : Bool) (s1 : State) (hnR : n ≠ R)
    (h : is_sane_body R F n ⟨g, dl, se⟩ = .returns b s1) :
    s1.heap = g ∧ s1.dealloc_calls = dl ∧ n ≠ 0 ∧ (∃ rn, g n = some rn) ∧
      (b = true → s1.stderr = se ∧ node_ok g R F n) ∧
      (b = false → (∃ d, s1.stderr = se ++ [d]) ∧ ¬ node_ok g R F n) := by
  by_cases h0 : n = 0
  · simp [is_sane_body, load, bind, Exec.bind, pure, h0] at h
  cases hn : g n with
  | none => simp [is_sane_body, load, bind, Exec.bind, pure, h0, hn] at h
  | some rn =>
    have key : s1.heap = g ∧ s1.dealloc_calls = dl ∧ n ≠ 0 ∧ (∃ rn, g n = some rn) ∧
        (b = true → s1.stderr = se ∧ node_ok g R F n) ∧
        (b = false → (∃ d, s1.stderr = se ++ [d]) ∧ ¬ node_ok g R F n) := by
      by_cases hp0 : rn.m_prev = 0
      · exact is_sane_body_null_prev g R F n dl se b s1 hnR h h0 rn hn hp0
      · by_cases hb0 : rn.m_next = 0
        · simp [is_sane_body, load, bind, Exec.bind, pure, h0, hn, hp0, hb0, hnR] at h
        · by_cases hpR : rn.m_prev = R
          · exact is_sane_body_root_prev g R F n dl se b s1 hnR h h0 rn hn (hpR ▸ hp0) hb0 hpR
          · exact is_sane_body_inner_prev g R F n dl se b s1 hnR h h0 rn hn hp0 hb0 hpR
    simpa [hn] using key

/-! ### C11, C12, C13: what a result of the validator says -/

/-- A sequence of two computations that returned: both of them returned. -/
theorem bind_returns {α β : Type} (m : Exec α) (f : α → Exec β) (s s1 : State) (b : β)
    (h : Exec.bind m f s = .returns b s1) :
    ∃ v s2, m s = .returns v s2 ∧ f v s2 = .returns b s1 := by
  unfold Exec.bind at h
  cases hm : m s with
  | returns v s2 => rw [hm] at h; exact ⟨v, s2, rfl, h⟩
  | throws e s2 => rw [hm] at h; cases h
  | fault => rw [hm] at h; cases h
  | timeout => rw [hm] at h; cases h

/-- The lock loop of `is_sane` that returned: the root is a record whose `m_next` was not
null, that value is returned, and the `m_next` of the root is null afterwards. -/
theorem lock_spin_returns (R : Ptr) (fuel : Nat) (h : Heap) (dl : List (function_type × Ptr))
    (se : List Diagnostic) (v : Ptr) (s1 : State)
    (hrun : lock_spin (pure R) fuel ⟨h, dl, se⟩ = .returns v s1) :
    R ≠ 0 ∧ v ≠ 0 ∧ ∃ rR, h R = some rR ∧ rR.m_next = v ∧
      s1 = ⟨h.set R { rR with m_next := 0 }, dl, se⟩ := by
  induction fuel generalizing h with
  | zero => simp [lock_spin, out_of_fuel] at hrun
  | succ f ih =>
    by_cases hR0 : R = 0
    · simp [lock_spin, atomic_exchange_next, load, bind, Exec.bind, pure, hR0] at hrun
    cases hR : h R with
    | none =>
      simp [lock_spin, atomic_exchange_next, load, bind, Exec.bind, pure, hR0, hR] at hrun
    | some rR =>
      by_cases hn : rR.m_next = 0
      · simp only [lock_spin, atomic_exchange_next, load, store, bind, Exec.bind, pure, hR0,
          hR, hn, if_false, if_true] at hrun
        obtain ⟨-, hv0, rR1, hR1, hv, -⟩ := ih _ hrun
        simp only [Heap.set, if_true] at hR1
        rw [← Option.some.inj hR1] at hv
        exact absurd hv.symm hv0
      · simp [lock_spin, atomic_exchange_next, load, store, bind, Exec.bind, pure, hR0, hR,
          hn] at hrun
        obtain ⟨rfl, rfl⟩ := hrun
        exact ⟨hR0, hn, rR, rfl, rfl, rfl⟩

/-- The walk of `is_sane` that returned: the memory and the callback log are as before, and
a true result means that the walk was entered with `ok` true, printed nothing and passed
every record it visited up to the root. -/
theorem is_sane_walk_returns (R F : Ptr) (g : Heap) (dl : List (function_type × Ptr))
    (fuel : Nat) (ok : Bool) (n : Ptr) (se : List Diagnostic) (b : Bool) (s1 : State)
    (hrun : is_sane_walk R F fuel ok n ⟨g, dl, se⟩ = .returns b s1) :
    s1.heap = g ∧ s1.dealloc_calls = dl ∧
      (b = true → ok = true ∧ s1.stderr = se ∧ ∃ l, Visits g R F n l) := by
  induction fuel generalizing ok n se with
  | zero => simp [is_sane_walk, out_of_fuel] at hrun
  | succ f ih =>
    by_cases hc : ok = true ∧ n ≠ R
    · simp only [is_sane_walk, if_pos hc] at hrun
      obtain ⟨b1, s2, hbody, hrest⟩ := bind_returns _ _ _ _ _ hrun
      obtain ⟨g2, dl2, se2⟩ := s2
      obtain ⟨hg, hd, hn0, ⟨rn, hrn⟩, htrue, hfalse⟩ :=
        is_sane_body_returns g R F n dl se b1 _ hc.2 hbody
      simp only at hg hd
      subst hg hd
      obtain ⟨r, s3, hload, hwalk⟩ := bind_returns _ _ _ _ _ hrest
      have e : rn = r ∧ (⟨g2, dl2, se2⟩ : State) = s3 := by
        simpa [load, hn0, hrn] using hload
      obtain ⟨rfl, rfl⟩ := e
      obtain ⟨h1, h2, h3⟩ := ih b1 rn.m_next se2 hwalk
      refine ⟨h1, h2, fun hb => ?_⟩
      obtain ⟨hb1, hse, l, hl⟩ := h3 hb
      obtain ⟨hse2, hok⟩ := htrue hb1
      simp only at hse2
      exact ⟨hc.1, hse.trans hse2, n :: l, rfl, hc.2, hok, rn.m_next, by simp [next_of, hrn], hl⟩
    · simp only [is_sane_walk, if_neg hc, pure] at hrun
      obtain ⟨rfl, rfl⟩ := hrun
      refine ⟨rfl, rfl, fun hb => ⟨hb, rfl, [], ?_⟩⟩
      simp only [Visits]
      by_contra hne
      exact hc ⟨hb, hne⟩

/-- The call `is_sane` that returned: the memory and the callback log are as before; a true
result means that nothing was printed, the count of the root is zero, the lock was free and
the walk under the lock passed every record up to the root. -/
theorem is_sane_returns (h : Heap) (dl : List (function_type × Ptr)) (se : List Diagnostic)
    (fuel : Nat) (x : Ptr) (b : Bool) (s1 : State)
    (hrun : is_sane fuel x ⟨h, dl, se⟩ = .returns b s1) :
    s1.heap = h ∧ s1.dealloc_calls = dl ∧
      (b = true → s1.stderr = se ∧ ∃ rx rR l, x ≠ 0 ∧ h x = some rx ∧ rx.m_root ≠ 0 ∧
        h rx.m_root = some rR ∧ rR.m_count = 0 ∧ rR.m_next ≠ 0 ∧
        Visits (h.set rx.m_root { rR with m_next := 0 }) rx.m_root rR.m_next rR.m_next l) := by
  by_cases hx0 : x = 0
  · simp [is_sane, bind, Exec.bind, pure, hx0] at hrun
    obtain ⟨rfl, rfl⟩ := hrun
    simp
  cases hrx : h x with
  | none => simp [is_sane, load, bind, Exec.bind, pure, hx0, hrx] at hrun
  | some rx =>
    by_cases hR0 : rx.m_root = 0
    · simp [is_sane, load, bind, Exec.bind, pure, hx0, hrx, hR0] at hrun
      obtain ⟨rfl, rfl⟩ := hrun
      simp
    cases hR : h rx.m_root with
    | none => simp [is_sane, load, bind, Exec.bind, pure, hx0, hrx, hR0, hR] at hrun
    | some rR =>
      by_cases hcnt : rR.m_count = 0
      · have hcore : is_sane fuel x ⟨h, dl, se⟩ =
            Exec.bind (lock_spin (pure rx.m_root) fuel) (fun root_next =>
              Exec.bind (is_sane_walk rx.m_root root_next fuel true root_next) (fun ok1 =>
                Exec.bind (atomic_exchange_next rx.m_root root_next) (fun old =>
                  if old ≠ 0 then throw_runtime_exception Failure.is_sane_unlocking
                  else pure ok1))) ⟨h, dl, se⟩ := by
          simp [is_sane, load, bind, Exec.bind, pure, hx0, hrx, hR0, hR, hcnt]
        have h4 := hcore.symm.trans hrun
        obtain ⟨F, s4, h5, h6⟩ := bind_returns _ _ _ _ _ h4
        obtain ⟨-, hF0, rR1, hR1, hF, rfl⟩ := lock_spin_returns _ _ _ _ _ _ _ h5
        obtain rfl : rR = rR1 := by rw [hR] at hR1; exact Option.some.inj hR1
        obtain ⟨ok1, s5, h7, h8⟩ := bind_returns _ _ _ _ _ h6
        obtain ⟨g5, dl5, se5⟩ := s5
        obtain ⟨hg, hd, hv⟩ := is_sane_walk_returns _ _ _ _ _ _ _ _ _ _ h7
        simp only at hg hd
        subst hg hd
        obtain ⟨old, s6, h9, h10⟩ := bind_returns _ _ _ _ _ h8
        have e3 : 0 = old ∧ (⟨(Heap.set h rx.m_root { rR with m_next := 0 }).set rx.m_root
            { rR with m_next := F }, dl5, se5⟩ : State) = s6 := by
          simpa [atomic_exchange_next, load, store, bind, Exec.bind, pure, Heap.set, hR0]
            using h9
        obtain ⟨rfl, rfl⟩ := e3
        have e4 : ok1 = b ∧ (⟨(Heap.set h rx.m_root { rR with m_next := 0 }).set rx.m_root
            { rR with m_next := F }, dl5, se5⟩ : State) = s1 := by
          simpa [pure] using h10
        obtain ⟨rfl, rfl⟩ := e4
        have hback : (Heap.set h rx.m_root { rR with m_next := 0 }).set rx.m_root
            { rR with m_next := F } = h := by
          funext q
          simp only [Heap.set]
          split_ifs with e
          · rw [e, hR, ← hF]
          · rfl
        refine ⟨hback, rfl, fun hb => ?_⟩
        obtain ⟨-, hse, l, hl⟩ := hv hb
        simp only at hse
        subst hF
        exact ⟨hse, rx, rR, l, hx0, rfl, hR0, hR, hcnt, hF0, hl⟩
      · simp [is_sane, load, bind, Exec.bind, pure, hx0, hrx, hR0, hR, hcnt] at hrun
        obtain ⟨rfl, rfl⟩ := hrun
        simp

/-- The records that the walk visits from `n` are determined by `n`. -/
theorem Visits.deterministic {g : Heap} {R F : Ptr} {l1 : List Ptr} :
    ∀ {n : Ptr} {l2 : List Ptr}, Visits g R F n l1 → Visits g R F n l2 → l1 = l2 := by
  induction l1 with
  | nil =>
    intro n l2 h1 h2
    cases l2 with
    | nil => rfl
    | cons q l2 => exact absurd h1 h2.2.1
  | cons q l1 ih =>
    intro n l2 h1 h2
    cases l2 with
    | nil => exact absurd h2 h1.2.1
    | cons q2 l2 =>
      obtain ⟨e1, -, -, m1, hm1, hv1⟩ := h1
      obtain ⟨e2, -, -, m2, hm2, hv2⟩ := h2
      rw [hm1] at hm2
      obtain rfl := Option.some.inj hm2
      rw [e1, e2, ih hv1 hv2]

/-- From a record that the walk visits, the walk visits no more records than in all. -/
theorem Visits.suffix {g : Heap} {R F x : Ptr} {l : List Ptr} :
    ∀ {n : Ptr}, Visits g R F n l → x ∈ l → ∃ l1, Visits g R F x l1 ∧ l1.length ≤ l.length := by
  induction l with
  | nil => intro n _ hx; cases hx
  | cons q l ih =>
    intro n hv hx
    rcases List.mem_cons.mp hx with e | hx1
    · subst e
      have e2 := hv.1
      subst e2
      exact ⟨_, hv, le_refl _⟩
    · obtain ⟨-, -, -, m, -, hv1⟩ := hv
      obtain ⟨l1, h1, h2⟩ := ih hv1 hx1
      exact ⟨l1, h1, by simp; omega⟩

/-- The walk visits no record twice. -/
theorem Visits.nodup_visits {g : Heap} {R F : Ptr} {l : List Ptr} :
    ∀ {n : Ptr}, Visits g R F n l → l.Nodup := by
  induction l with
  | nil => intro n _; exact List.nodup_nil
  | cons q l ih =>
    intro n hv
    have hv0 := hv
    obtain ⟨e, -, -, m, -, hv1⟩ := hv
    refine List.nodup_cons.mpr ⟨fun hq => ?_, ih hv1⟩
    obtain ⟨l1, h1, h2⟩ := Visits.suffix hv1 hq
    rw [e] at h1
    have := Visits.deterministic h1 hv0
    rw [this] at h2
    simp at h2

/-- Every record that the walk visits is not the root and passes the five checks. -/
theorem Visits.each {g : Heap} {R F : Ptr} {l : List Ptr} :
    ∀ {n : Ptr}, Visits g R F n l → ∀ x ∈ l, x ≠ R ∧ node_ok g R F x := by
  induction l with
  | nil => intro n _ x hx; cases hx
  | cons q l ih =>
    intro n hv x hx
    obtain ⟨e, hnR, hok, m, -, hv1⟩ := hv
    rcases List.mem_cons.mp hx with e1 | hx1
    · rw [e1, e]; exact ⟨hnR, hok⟩
    · exact ih hv1 x hx1

/-- The five checks, made while the lock is held, in terms of the memory before the call. -/
theorem node_ok_checked (h : Heap) (R n : Ptr) (rR : SharedAllocationRecord)
    (hR : h R = some rR) (hnR : n ≠ R)
    (hok : node_ok (h.set R { rR with m_next := 0 }) R rR.m_next n) :
    n ≠ 0 ∧ Checked h R n := by
  obtain ⟨hn0, rn, hrn, hp0, hb0, hroot, hpn, hnp, hc⟩ := hok
  have hrn1 : h n = some rn := by simpa [Heap.set, hnR] using hrn
  refine ⟨hn0, rn, hrn1, hroot, hc, ?_, ?_⟩
  · by_cases hp : rn.m_prev = R
    · rw [if_neg (not_not.mpr hp)] at hpn
      rw [hp, ← hpn]
      simp [next_of, hR]
    · rw [if_pos hp] at hpn
      simpa [next_of, Heap.set, hp] using hpn
  · by_cases hb : rn.m_next = R
    · rw [hb] at hnp ⊢
      simpa [prev_of, Heap.set, hR] using hnp
    · simpa [prev_of, Heap.set, hb] using hnp

/-- The records that the walk visits are linked by `m_next` in the memory before the call. -/
theorem Visits.next_path {h : Heap} {R : Ptr} {rR : SharedAllocationRecord} {l : List Ptr} :
    ∀ {n p : Ptr}, Visits (h.set R { rR with m_next := 0 }) R rR.m_next n l →
      next_of h p = some n → NextPath h p l R := by
  induction l with
  | nil =>
    intro n p hv hp
    have e : n = R := hv
    rw [e] at hp
    exact hp
  | cons q l ih =>
    intro n p hv hp
    obtain ⟨e, hnR, -, m, hm, hv1⟩ := hv
    subst e
    refine ⟨hp, ih hv1 ?_⟩
    simpa [next_of, Heap.set, hnR] using hm

/-- What a run of `is_sane` that returned true has established. -/
theorem is_sane_passes (h : Heap) (dl : List (function_type × Ptr)) (se : List Diagnostic)
    (fuel : Nat) (x : Ptr) (s1 : State)
    (hrun : is_sane fuel x ⟨h, dl, se⟩ = .returns true s1) :
    s1 = ⟨h, dl, se⟩ ∧ x ≠ 0 ∧ ∃ R l, root_of h x = some R ∧ Passes h R l := by
  obtain ⟨hh, hd, htrue⟩ := is_sane_returns h dl se fuel x true s1 hrun
  obtain ⟨hse, rx, rR, l, hx0, hrx, hR0, hR, hcnt, hF0, hv⟩ := htrue rfl
  refine ⟨?_, hx0, rx.m_root, l, by simp [root_of, hrx], ?_⟩
  · obtain ⟨h1, dl1, se1⟩ := s1
    simp only at hh hd hse
    rw [hh, hd, hse]
  · have heach := Visits.each hv
    refine ⟨List.nodup_cons.mpr ⟨fun hm => (heach _ hm).1 rfl, Visits.nodup_visits hv⟩, ?_,
      by simp [count_of, hR, hcnt], Visits.next_path hv (by simp [next_of, hR]), ?_⟩
    · intro y hy
      rcases List.mem_cons.mp hy with e | hy1
      · rw [e]; exact hR0
      · exact (node_ok_checked h _ y rR hR (heach y hy1).1 (heach y hy1).2).1
    · intro y hy
      exact (node_ok_checked h _ y rR hR (heach y hy).1 (heach y hy).2).2

/-- C11, as stated, fails.  In `sample_stray` the call `is_sane` of the record 2, whose
root is 1, returns true; yet `root.next.prev` is 3 and not the root, and the root field of
the root is 9.  In `sample_lone` the call `is_sane` of the root 1 returns true; yet
`root.prev` is null, so `root.prev.next` is not the root. -/
theorem is_sane_true_on_stray_links :
    (is_sane 2 2 sample_stray).value = some true ∧
      root_of sample_stray.heap 2 = some 1 ∧
      next_of sample_stray.heap 1 = some 2 ∧ prev_of sample_stray.heap 2 = some 3 ∧
      root_of sample_stray.heap 1 = some 9 ∧
      (is_sane 1 1 sample_lone).value = some true ∧
      root_of sample_lone.heap 1 = some 1 ∧
      prev_of sample_lone.heap 1 = some 0 ∧ next_of sample_lone.heap 0 = none := by
  decide

/-- C11, amended: whenever `is_sane` of a record `x` returns true, the state is as before
the call, `x` is not null and, for `R` the root field of `x`: the count of `R` is zero, and
following `m_next` from `R` leads through records `l` that are distinct, not null and not
`R`, back to `R`; every record `n` of `l` has the root field `R`, a count that is not
negative, `n.prev.next == n` and `n.next.prev == n`. -/
theorem is_sane_true_checks_chain (s s1 : State) (fuel : Nat) (x : Ptr)
    (hrun : is_sane fuel x s = .returns true s1) :
    s1 = s ∧ x ≠ 0 ∧ ∃ R l, root_of s.heap x = some R ∧ Passes s.heap R l := by
  obtain ⟨h, dl, se⟩ := s
  exact is_sane_passes h dl se fuel x s1 hrun

/-- Witness of C11: `is_sane` of the record 3 of the chain `1, 2, 3, 4`. -/
theorem is_sane_true_checks_chain_witness :
    is_sane 4 3 sample_chain = .returns true sample_chain ∧
      ∃ R l, root_of sample_chain.heap 3 = some R ∧ Passes sample_chain.heap R l :=
  ⟨is_sane_of_sane sample_chain 1 3 [2, 3, 4] 4 sample_chain_sane (by decide) (by decide),
    (is_sane_true_checks_chain sample_chain sample_chain 4 3
      (is_sane_of_sane sample_chain 1 3 [2, 3, 4] 4 sample_chain_sane (by decide)
        (by decide))).2.2⟩

/-- A call that has a returned value returned. -/
theorem returns_of_value {α : Type} {o : Outcome α} {v : α} (h : o.value = some v) :
    ∃ s, o = .returns v s := by
  cases o with
  | returns w s => exact ⟨s, by simp [Outcome.value] at h; rw [h]⟩
  | throws e s => simp [Outcome.value] at h
  | fault => simp [Outcome.value] at h
  | timeout => simp [Outcome.value] at h

/-- C12 fails on the code for a record with a null link.  In `sample_null_next` and in
`sample_null_prev` the lock is free, the count of the root 1 is zero and the record 2, the
first one of the walk, fails the first check; `is_sane` of the root then reads through the
null link while it evaluates the arguments of the diagnostic, whatever the bound on the
loops, and does not return false.  With links that are not null (`sample_negative`, where
the count is negative) it returns false. -/
theorem is_sane_faults_on_null_link :
    (next_of sample_null_next.heap 1 = some 2 ∧ count_of sample_null_next.heap 1 = some 0 ∧
      next_of sample_null_next.heap 2 = some 0 ∧
      ∀ fuel, is_sane (fuel + 1) 1 sample_null_next = .fault) ∧
    (next_of sample_null_prev.heap 1 = some 2 ∧ count_of sample_null_prev.heap 1 = some 0 ∧
      prev_of sample_null_prev.heap 2 = some 0 ∧
      ∀ fuel, is_sane (fuel + 1) 1 sample_null_prev = .fault) ∧
    (is_sane 2 1 sample_negative).value = some false := by
  refine ⟨⟨rfl, rfl, rfl, fun fuel => ?_⟩, ⟨rfl, rfl, rfl, fun fuel => ?_⟩, by decide⟩
  · simp [is_sane, lock_spin, is_sane_walk, is_sane_body, atomic_exchange_next, load, store,
      bind, Exec.bind, pure, Heap.set, sample_null_next]
  · simp [is_sane, lock_spin, is_sane_walk, is_sane_body, atomic_exchange_next, load, store,
      bind, Exec.bind, pure, Heap.set, sample_null_prev]

/-- C13: `is_sane` is read-only.  When it returns, true or false, the memory after the call
is the memory before it, every field of every record and the `m_next` of the root, which is
the lock cell, included; no callback has been called; and when the result is true nothing
has been printed either, so the whole state is as before. -/
theorem is_sane_read_only (s s1 : State) (fuel : Nat) (x : Ptr) (b : Bool)
    (hrun : is_sane fuel x s = .returns b s1) :
    s1.heap = s.heap ∧ s1.dealloc_calls = s.dealloc_calls ∧ (b = true → s1 = s) := by
  obtain ⟨h, dl, se⟩ := s
  obtain ⟨hh, hd, -⟩ := is_sane_returns h dl se fuel x b s1 hrun
  refine ⟨hh, hd, fun hb => ?_⟩
  subst hb
  exact (is_sane_passes h dl se fuel x s1 hrun).1

/-- Witness of C13: `is_sane` of the root of `sample_negative` returns false, and the memory
is as before. -/
theorem is_sane_read_only_witness :
    ∃ s1, is_sane 2 1 sample_negative = .returns false s1 ∧
      s1.heap = sample_negative.heap ∧ s1.dealloc_calls = sample_negative.dealloc_calls :=
  (returns_of_value (by decide : (is_sane 2 1 sample_negative).value = some false)).elim
    fun s1 h1 =>
      ⟨s1, h1, (is_sane_read_only sample_negative s1 2 1 false h1).1,
        (is_sane_read_only sample_negative s1 2 1 false h1).2.1⟩

/-! ### C15: the validator and the count of the root -/

/-- One round of the loop of `is_sane` at a record of a well-formed chain, while the lock is
held: the body passes the record without printing, and the `m_next` read afterwards is the
next record of the chain. -/
theorem is_sane_step_ok (h : Heap) (R x : Ptr) (rR : SharedAllocationRecord)
    (dl : List (function_type × Ptr)) (se : List Diagnostic) (hR : h R = some rR)
    (l1 l2 : List Ptr) (hs : Sane h R (l1 ++ x :: l2)) :
    x ≠ R ∧
      is_sane_body R rR.m_next x ⟨set_next h R 0, dl, se⟩ =
        .returns true ⟨set_next h R 0, dl, se⟩ ∧
      ∃ rX, load x ⟨set_next h R 0, dl, se⟩ = .returns rX ⟨set_next h R 0, dl, se⟩ ∧
        rX.m_next = head_of l2 R := by
  obtain ⟨rR1, rX, ra, rb, hR1, hX, ha, hb, hanext, hbprev, hXroot, hprev, hnext, hRn0,
    hfirst, ha0, hb0, haX, hbX, hXR, hX0, hR0⟩ := hs.linked.neighbours
  have e : rR1 = rR := by rw [hR] at hR1; exact (Option.some.inj hR1).symm
  subst e
  obtain ⟨c, hc, hc0⟩ := hs.counts x (by simp)
  have hcx : 0 ≤ rX.m_count := by
    have : rX.m_count = c := by simpa [count_of, hX] using hc
    rw [this]; exact hc0
  have hgx : set_next h R 0 x = some rX := by simp [set_next, hXR, hX]
  refine ⟨hXR, ?_, rX, by simp [load, hX0, hgx], hnext⟩
  by_cases hbR : head_of l2 R = R
  · refine is_sane_body_ok (set_next h R 0) R rR1.m_next x rX { rR1 with m_next := 0 } dl se
      hX0 hXR hgx (hprev ▸ ha0) (hnext ▸ hb0) hXroot hcx ?_ ?_ ?_ ?_
    · intro hne
      rw [hprev] at hne ⊢
      exact ⟨ra, by simp [set_next, hne, ha], hanext⟩
    · intro he
      rw [hprev] at he
      exact hfirst.mpr he
    · rw [hnext, hbR]
      simp [set_next, hR]
    · rw [hbR, hR] at hb
      rw [← Option.some.inj hb] at hbprev
      exact hbprev
  · refine is_sane_body_ok (set_next h R 0) R rR1.m_next x rX rb dl se
      hX0 hXR hgx (hprev ▸ ha0) (hnext ▸ hb0) hXroot hcx ?_ ?_ ?_ hbprev
    · intro hne
      rw [hprev] at hne ⊢
      exact ⟨ra, by simp [set_next, hne, ha], hanext⟩
    · intro he
      rw [hprev] at he
      exact hfirst.mpr he
    · rw [hnext]
      simp [set_next, hbR, hb]

/-- The walk of `is_sane` over the rest `l2` of a well-formed chain needs one test of the
loop condition for each record of `l2` and one for the root: with fewer it does not end. -/
theorem is_sane_walk_short (h : Heap) (R : Ptr) (rR : SharedAllocationRecord)
    (dl : List (function_type × Ptr)) (se : List Diagnostic) (hR : h R = some rR)
    (l2 l1 : List Ptr) (fuel : Nat) (hs : Sane h R (l1 ++ l2)) (hf : fuel ≤ l2.length) :
    is_sane_walk R rR.m_next fuel true (head_of l2 R) ⟨set_next h R 0, dl, se⟩ = .timeout := by
  induction l2 generalizing l1 fuel with
  | nil =>
    obtain rfl : fuel = 0 := by simpa using hf
    rfl
  | cons x l2 ih =>
    cases fuel with
    | zero => rfl
    | succ f =>
      obtain ⟨hXR, hbody, rX, hload, hnext⟩ := is_sane_step_ok h R x rR dl se hR l1 l2 hs
      have hrec := ih (l1 ++ [x]) f (by simpa using hs) (by simp at hf; omega)
      simp only [is_sane_walk, head_of, ne_eq, hXR, not_false_eq_true, and_self, if_true,
        bind, Exec.bind, hbody, hload, hnext]
      exact hrec

/-- On a well-formed chain, `is_sane` does not end within fewer rounds than the chain has
records. -/
theorem is_sane_short (s : State) (R x : Ptr) (l : List Ptr) (fuel : Nat)
    (hs : Sane s.heap R l) (hx : x ∈ R :: l) (hf : fuel ≤ l.length) :
    is_sane fuel x s = .timeout := by
  obtain ⟨h, dl, se⟩ := s
  simp only at hs ⊢
  obtain ⟨rx, hrx, hxroot⟩ := hs.linked.alloc hx
  obtain ⟨rR, hR, -⟩ := hs.linked.alloc (List.mem_cons_self R l)
  have hx0 := hs.linked.nonnull x hx
  have hR0 := hs.linked.root_ne_zero
  have hRc : rR.m_count = 0 := by simpa [count_of, hR] using hs.root_count
  have hRn : rR.m_next = head_of l R := by
    simpa [next_of, hR] using hs.linked.links.head_link.1
  have hRn0 : rR.m_next ≠ 0 := hRn ▸ hs.linked.nonnull _ (Linked.head_mem l)
  cases fuel with
  | zero =>
    simp [is_sane, lock_spin, out_of_fuel, load, bind, Exec.bind, pure, hx0, hrx, hxroot, hR0,
      hR, hRc]
  | succ f =>
    have hwalk := is_sane_walk_short h R rR dl se hR l [] (f + 1) (by simpa using hs) hf
    rw [← hRn] at hwalk
    obtain ⟨ap, sz, d, rt, pv, nx, ct⟩ := rR
    simp only at hRc hRn0 hwalk
    subst hRc
    have hlock : h.set R ⟨ap, sz, d, rt, pv, 0, 0⟩ = set_next h R 0 := by
      funext q
      simp only [Heap.set, set_next]
      split_ifs with e
      · rw [e, hR]; rfl
      · rfl
    simp [is_sane, lock_spin, load, store, atomic_exchange_next, bind, Exec.bind, pure, hx0,
      hrx, hxroot, hR0, hR, hRn0, hlock, hwalk]

/-- When the count of the root is not zero, `is_sane` returns false at once. -/
theorem is_sane_root_counted (h : Heap) (dl : List (function_type × Ptr))
    (se : List Diagnostic) (x : Ptr) (rx rR : SharedAllocationRecord) (fuel : Nat)
    (hx0 : x ≠ 0) (hx : h x = some rx) (hR0 : rx.m_root ≠ 0) (hR : h rx.m_root = some rR)
    (hc : rR.m_count ≠ 0) :
    is_sane fuel x ⟨h, dl, se⟩ = .returns false ⟨h, dl, se⟩ := by
  simp [is_sane, load, bind, Exec.bind, pure, hx0, hx, hR0, hR, hc]

/-- The call `is_sane` of the null pointer returns false at once. -/
theorem is_sane_null (s : State) (fuel : Nat) : is_sane fuel 0 s = .returns false s := by
  simp [is_sane, bind, Exec.bind, pure]

/-- C15: in a state where the chain of `R` is linked with the lock free and no count of a
record other than `R` is negative, `is_sane` of any record `x` of the chain returns whether
the count of the root is zero and leaves the state as it is, as soon as the bound on the
loops exceeds the number of records other than the root.  With count zero the walk takes
exactly one round for each of these records, in the order of the chain, and the test that
finds the root: no smaller bound is enough.  With a count other than zero the result is
false whatever the bound, zero included, so no loop, neither that of the lock nor the walk,
is entered.  `is_sane` of the null pointer returns false in the same way. -/
theorem is_sane_iff_root_count_zero (s : State) (R x : Ptr) (l : List Ptr)
    (rR : SharedAllocationRecord) (hL : Linked s.heap R l) (hR : s.heap R = some rR)
    (hc : ∀ y ∈ l, ∃ c : Int, count_of s.heap y = some c ∧ 0 ≤ c) (hx : x ∈ R :: l) :
    (∀ fuel, l.length < fuel → is_sane fuel x s = .returns (decide (rR.m_count = 0)) s) ∧
      (rR.m_count = 0 → ∀ fuel, fuel ≤ l.length → is_sane fuel x s = .timeout) ∧
      (rR.m_count ≠ 0 → ∀ fuel, is_sane fuel x s = .returns false s) ∧
      (∀ fuel, is_sane fuel 0 s = .returns false s) := by
  have hfalse : rR.m_count ≠ 0 → ∀ fuel, is_sane fuel x s = .returns false s := by
    intro hne fuel
    obtain ⟨rx, hrx, hxroot⟩ := hL.alloc hx
    have hR1 : s.heap rx.m_root = some rR := by rw [hxroot]; exact hR
    exact is_sane_root_counted s.heap s.dealloc_calls s.stderr x rx rR fuel (hL.nonnull x hx) hrx
      (hxroot ▸ hL.root_ne_zero) hR1 hne
  refine ⟨fun fuel hf => ?_, fun h0 fuel hf => ?_, hfalse, fun fuel => is_sane_null s fuel⟩
  · by_cases h0 : rR.m_count = 0
    · have hs : Sane s.heap R l := ⟨hL, by simp [count_of, hR, h0], hc⟩
      rw [is_sane_of_sane s R x l fuel hs hx hf]
      simp [h0]
    · rw [hfalse h0 fuel]
      simp [h0]
  · exact is_sane_short s R x l fuel ⟨hL, by simp [count_of, hR, h0], hc⟩ hx hf

/-- Witness of C15: `is_sane` of the record 3 of the chain `1, 2, 3, 4`, with the count of
the root zero and then 5, and `is_sane` of null. -/
theorem is_sane_iff_root_count_zero_witness :
    Linked sample_chain.heap 1 [2, 3, 4] ∧
      is_sane 4 3 sample_chain = .returns true sample_chain ∧
      is_sane 3 3 sample_chain = .timeout ∧
      is_sane 0 0 sample_chain = .returns false sample_chain ∧
      Linked sample_counted.heap 1 [2, 3, 4] ∧
      is_sane 0 3 sample_counted = .returns false sample_counted :=
  have w := is_sane_iff_root_count_zero sample_chain 1 3 [2, 3, 4] ⟨0, 0, 0, 1, 4, 2, 0⟩
    sample_chain_sane.linked rfl sample_chain_sane.counts (by decide)
  have w1 := is_sane_iff_root_count_zero sample_counted 1 3 [2, 3, 4] ⟨0, 0, 0, 1, 4, 2, 5⟩
    (sample_chain_sane.linked.congr (by simp [sample_counted]) (by simp [sample_counted])
      (by simp [sample_counted]))
    rfl (by decide) (by decide)
  ⟨sample_chain_sane.linked, w.1 4 (by decide), w.2.1 rfl 3 (by decide), w.2.2.2 0,
    sample_chain_sane.linked.congr (by simp [sample_counted]) (by simp [sample_counted])
      (by simp [sample_counted]),
    w1.2.2.1 (by decide) 0⟩

/-! ### C16: the release check -/

/-- The constructor does not get through its lock loop without a round. -/
theorem construct_zero_timeout (s : State) (this R : Ptr) (a b : Nat) (d : function_type)
    (h0 : this ≠ 0) : construct 0 this R a b d s = .timeout := by
  simp [construct, construct_lock, emplace, load, store, write_prev, bind, Exec.bind,
    Heap.set, h0, out_of_fuel]

/-- C16: on a well-formed chain with the lock free no call fails its release check.  The
constructor under `R` on fresh storage, `decrement` of a record of the chain with count 1
and `is_sane` of a record of the chain never throw, whatever the bound on the loops; with a
bound that lets the loops end they return, and the `m_next` of the root is then a record of
the chain, not null: the new record after the constructor, the first record left (or the
root itself) after `decrement`, and the successor it had before after `is_sane`. -/
theorem release_check_never_fails (s : State) (R : Ptr) (l : List Ptr)
    (hs : Sane s.heap R l) :
    (∀ (this : Ptr) (a b : Nat) (d : function_type) (fuel : Nat),
        this ≠ 0 → s.heap this = none →
        (construct fuel this R a b d s).thrown = none ∧
          (0 < fuel → ∃ s1, construct fuel this R a b d s = .returns this s1 ∧
            next_of s1.heap R = some this ∧ Sane s1.heap R (this :: l))) ∧
      (∀ (l1 l2 : List Ptr) (X : Ptr) (rX : SharedAllocationRecord) (fuel : Nat),
        l = l1 ++ X :: l2 → s.heap X = some rX → rX.m_count = 1 →
        (decrement fuel X s).thrown = none ∧
          (0 < fuel → ∃ s1, decrement fuel X s = .returns 0 s1 ∧
            next_of s1.heap R = some (head_of (l1 ++ l2) R) ∧ head_of (l1 ++ l2) R ≠ 0 ∧
            Sane s1.heap R (l1 ++ l2))) ∧
      (∀ (x : Ptr) (fuel : Nat), x ∈ R :: l →
        (is_sane fuel x s).thrown = none ∧
          (l.length < fuel → is_sane fuel x s = .returns true s) ∧
          next_of s.heap R = some (head_of l R) ∧ head_of l R ≠ 0) := by
  obtain ⟨h, dl, se⟩ := s
  simp only at hs
  refine ⟨?_, ?_, ?_⟩
  · intro this a b d fuel ht0 ht
    cases fuel with
    | zero =>
      rw [construct_zero_timeout _ this R a b d ht0]
      exact ⟨rfl, fun hf => absurd hf (by decide)⟩
    | succ f =>
      rw [construct_inserts h R l this a b d dl se f hs.linked ht0 ht]
      have hs1 := hs.inserted_sane this a b d ht0 ht
      exact ⟨rfl, fun _ => ⟨_, rfl, hs1.linked.links.head_link.1, hs1⟩⟩
  · intro l1 l2 X rX fuel hl hX hc
    subst hl
    have hX0 : X ≠ 0 := hs.linked.nonnull X (by simp)
    cases fuel with
    | zero =>
      rw [decrement_zero_fuel _ X rX hX0 hX hc]
      exact ⟨rfl, fun hf => absurd hf (by decide)⟩
    | succ f =>
      rw [decrement_unlinks h R X l1 l2 rX dl se f hs.linked hX hc]
      have hs1 := hs.unlinked_sane
      exact ⟨rfl, fun _ => ⟨_, rfl, hs1.linked.links.head_link.1,
        hs1.linked.nonnull _ (Linked.head_mem _), hs1⟩⟩
  · intro x fuel hx
    refine ⟨?_, fun hf => is_sane_of_sane _ R x l fuel hs hx hf, hs.linked.links.head_link.1,
      hs.linked.nonnull _ (Linked.head_mem _)⟩
    by_cases hf : l.length < fuel
    · rw [is_sane_of_sane _ R x l fuel hs hx hf]
      rfl
    · rw [is_sane_short _ R x l fuel hs hx (by omega)]
      rfl

/-- Witness of C16: on the chain `1, 2, 3, 4` a record is constructed at the address 5, the
record 3 is released, and `is_sane` is called on the record 4. -/
theorem release_check_never_fails_witness :
    Sane sample_chain.heap 1 [2, 3, 4] ∧
      (∃ s1, construct 1 5 1 50 8 5 sample_chain = .returns 5 s1 ∧
        next_of s1.heap 1 = some 5 ∧ Sane s1.heap 1 [5, 2, 3, 4]) ∧
      (∃ s1, decrement 1 3 sample_chain = .returns 0 s1 ∧
        next_of s1.heap 1 = some 2 ∧ (2 : Ptr) ≠ 0 ∧ Sane s1.heap 1 [2, 4]) ∧
      is_sane 4 4 sample_chain = .returns true sample_chain :=
  have w := release_check_never_fails sample_chain 1 [2, 3, 4] sample_chain_sane
  ⟨sample_chain_sane, (w.1 5 50 8 5 1 (by decide) rfl).2 (by decide),
    (w.2.1 [2] [4] 3 ⟨30, 8, 5, 1, 2, 4, 1⟩ 1 rfl rfl rfl).2 (by decide),
    (w.2.2 4 4 (by decide)).2.1 (by decide)⟩

/-! ### C17: two roots -/

/-- A well-formed chain only depends on its own records. -/
theorem Sane.frame_sane {h g : Heap} {R : Ptr} {l : List Ptr} (hs : Sane h R l)
    (hfr : ∀ q ∈ R :: l, g q = h q) : Sane g R l := by
  have hn : ∀ q ∈ R :: l, next_of g q = next_of h q := fun q hq => by
    simp [next_of, hfr q hq]
  have hp : ∀ q ∈ R :: l, prev_of g q = prev_of h q := fun q hq => by
    simp [prev_of, hfr q hq]
  have hr : ∀ q ∈ R :: l, root_of g q = root_of h q := fun q hq => by
    simp [root_of, hfr q hq]
  have hc : ∀ q ∈ R :: l, count_of g q = count_of h q := fun q hq => by
    simp [count_of, hfr q hq]
  refine ⟨⟨hs.linked.nodup, hs.linked.nonnull,
    fun x hx => (hr x hx).trans (hs.linked.roots x hx),
    hs.linked.links.frame hn (fun x hx => hp x ?_)⟩, ?_, ?_⟩
  · simp only [List.mem_append, List.mem_singleton, List.mem_cons] at hx ⊢
    tauto
  · rw [hc R (List.mem_cons_self R l)]
    exact hs.root_count
  · intro x hx
    rw [hc x (List.mem_cons_of_mem R hx)]
    exact hs.counts x hx

/-- A record keeps its value when only an `m_count` of another record is set. -/
theorem set_count_frame (h : Heap) (x q : Ptr) (c : Int) (hq : q ≠ x) :
    set_count h x c q = h q := by
  simp [set_count, hq]

/-- The state that a call of `increment` ends in, with or without a throw. -/
theorem increment_state (s : State) (x : Ptr) (rx : SharedAllocationRecord) (hx0 : x ≠ 0)
    (hx : s.heap x = some rx) :
    (increment x s).state = some ⟨set_count s.heap x (wrap_int (rx.m_count + 1)),
      s.dealloc_calls, s.stderr⟩ := by
  rw [increment_run s.heap x rx s.dealloc_calls s.stderr hx0 hx]
  split_ifs <;> rfl

/-- The state that a call of `decrement` ends in when the count it finds is not 1. -/
theorem decrement_state_other (s : State) (x : Ptr) (rx : SharedAllocationRecord)
    (fuel : Nat) (hx0 : x ≠ 0) (hx : s.heap x = some rx) (hc : rx.m_count ≠ 1) :
    (decrement fuel x s).state = some ⟨set_count s.heap x (wrap_int (rx.m_count - 1)),
      s.dealloc_calls, s.stderr⟩ := by
  rw [decrement_run_other s.heap x rx s.dealloc_calls s.stderr fuel hx0 hx hc]
  split_ifs <;> rfl

/-- The records of a chain that is disjoint from the chain of `R1` are as before after a
call on the chain of `R1` that ended in a state. -/
theorem other_chain_frame (s s1 : State) (R1 : Ptr) (l1 : List Ptr) (c2 : List Ptr)
    (h1 : Sane s.heap R1 l1) (ha : ∀ q ∈ c2, s.heap q ≠ none)
    (hd : (R1 :: l1).Disjoint c2)
    (hcall :
      (∃ (this : Ptr) (a b : Nat) (d : function_type) (fuel : Nat), this ≠ 0 ∧
          s.heap this = none ∧ (construct fuel this R1 a b d s).state = some s1) ∨
        (∃ x ∈ R1 :: l1, (increment x s).state = some s1) ∨
        (∃ x ∈ R1 :: l1, ∃ fuel, (decrement fuel x s).state = some s1)) :
    ∀ q ∈ c2, s1.heap q = s.heap q := by
  have hne : ∀ y ∈ R1 :: l1, ∀ q ∈ c2, q ≠ y := fun y hy q hq e => hd hy (e ▸ hq)
  rcases hcall with ⟨this, a, b, d, fuel, ht0, ht, hrun⟩ | ⟨x, hx, hrun⟩ | ⟨x, hx, fuel, hrun⟩
  · cases fuel with
    | zero =>
      rw [construct_zero_timeout s this R1 a b d ht0] at hrun
      cases hrun
    | succ f =>
      rw [construct_inserts s.heap R1 l1 this a b d s.dealloc_calls s.stderr f h1.linked ht0
        ht] at hrun
      obtain rfl := Option.some.inj hrun
      intro q hq
      have hqt : q ≠ this := fun e => ha q hq (e ▸ ht)
      have hqR : q ≠ R1 := hne R1 (List.mem_cons_self _ _) q hq
      have hqS : q ≠ head_of l1 R1 := hne _ (Linked.head_mem l1) q hq
      change inserted s.heap this R1 (head_of l1 R1) a b d q = s.heap q
      rw [inserted_frame _ _ _ _ _ _ _ q hqt]
      cases s.heap q <;> simp [hqR, hqS]
  · obtain ⟨rx, hrx, -⟩ := h1.linked.alloc hx
    rw [increment_state s x rx (h1.linked.nonnull x hx) hrx] at hrun
    obtain rfl := Option.some.inj hrun
    intro q hq
    exact set_count_frame _ _ _ _ (hne x hx q hq)
  · obtain ⟨rx, hrx, -⟩ := h1.linked.alloc hx
    have hx0 := h1.linked.nonnull x hx
    by_cases hc : rx.m_count = 1
    · have hxl : x ∈ l1 := by
        rcases List.mem_cons.mp hx with e | hm
        · exfalso
          have := h1.root_count
          rw [← e] at this
          simp [count_of, hrx, hc] at this
        · exact hm
      obtain ⟨la, lb, rfl⟩ := List.append_of_mem hxl
      cases fuel with
      | zero =>
        rw [decrement_zero_fuel s x rx hx0 hrx hc] at hrun
        cases hrun
      | succ f =>
        rw [decrement_unlinks s.heap R1 x la lb rx s.dealloc_calls s.stderr f h1.linked hrx
          hc] at hrun
        obtain rfl := Option.some.inj hrun
        intro q hq
        have hqa : q ≠ end_of R1 la := by
          refine hne _ ?_ q hq
          have := end_of_mem R1 la
          simp only [List.mem_cons, List.mem_append] at this ⊢
          tauto
        have hqb : q ≠ head_of lb R1 := by
          refine hne _ ?_ q hq
          have := head_of_mem lb R1
          simp only [List.mem_cons, List.mem_append, List.mem_singleton] at this ⊢
          tauto
        change unlinked s.heap x (end_of R1 la) (head_of lb R1) q = s.heap q
        rw [unlinked_frame _ _ _ _ q (hne x hx q hq)]
        cases s.heap q <;> simp [hqa, hqb]
    · rw [decrement_state_other s x rx fuel hx0 hrx hc] at hrun
      obtain rfl := Option.some.inj hrun
      intro q hq
      exact set_count_frame _ _ _ _ (hne x hx q hq)

/-- C17: two roots `R1` and `R2` have well-formed chains with no record in common.  After a
constructor under `R1` on fresh storage, an `increment` or a `decrement` of a record of the
chain of `R1`, in the state `s1` the call ended in (it returned or threw), every record of
the chain of `R2`, the root included, has the value it had before, so every field of it is
unchanged; the chain of `R2` is still well formed, and `is_sane` of `R2` returns true before
and after the call. -/
theorem roots_are_independent (s s1 : State) (R1 R2 : Ptr) (l1 l2 : List Ptr)
    (h1 : Sane s.heap R1 l1) (h2 : Sane s.heap R2 l2)
    (hd : (R1 :: l1).Disjoint (R2 :: l2))
    (hcall :
      (∃ (this : Ptr) (a b : Nat) (d : function_type) (fuel : Nat), this ≠ 0 ∧
          s.heap this = none ∧ (construct fuel this R1 a b d s).state = some s1) ∨
        (∃ x ∈ R1 :: l1, (increment x s).state = some s1) ∨
        (∃ x ∈ R1 :: l1, ∃ fuel, (decrement fuel x s).state = some s1)) :
    (∀ q ∈ R2 :: l2, s1.heap q = s.heap q) ∧ Sane s1.heap R2 l2 ∧
      ∀ fuel, l2.length < fuel →
        is_sane fuel R2 s = .returns true s ∧ is_sane fuel R2 s1 = .returns true s1 := by
  have hfr := other_chain_frame s s1 R1 l1 (R2 :: l2) h1
    (fun q hq e => by
      obtain ⟨r, hr, -⟩ := h2.linked.alloc hq
      simp [hr] at e) hd hcall
  have h2a : Sane s1.heap R2 l2 := h2.frame_sane hfr
  exact ⟨hfr, h2a, fun fuel hf =>
    ⟨is_sane_of_sane s R2 R2 l2 fuel h2 (List.mem_cons_self _ _) hf,
      is_sane_of_sane s1 R2 R2 l2 fuel h2a (List.mem_cons_self _ _) hf⟩⟩

/-- The chain of the root 1 in `sample_two_roots` is well formed. -/
theorem sample_two_roots_first : Sane sample_two_roots.heap 1 [2, 3, 4] :=
  sample_chain_sane.frame_sane (fun q hq => by
    simp only [List.mem_cons, List.mem_singleton, List.not_mem_nil, or_false] at hq
    rcases hq with rfl | rfl | rfl | rfl <;> rfl)

/-- The chain of the root 10 in `sample_two_roots` is well formed. -/
theorem sample_two_roots_second : Sane sample_two_roots.heap 10 [11] := by
  refine ⟨⟨by decide, by decide, ?_, ?_⟩, ?_, ?_⟩
  · intro x hx
    simp only [List.mem_cons, List.mem_singleton, List.not_mem_nil, or_false] at hx
    rcases hx with rfl | rfl <;> simp [root_of, sample_two_roots]
  · simp [Segment, next_of, prev_of, sample_two_roots]
  · simp [count_of, sample_two_roots]
  · intro x hx
    simp only [List.mem_cons, List.mem_singleton, List.not_mem_nil, or_false] at hx
    subst hx
    simp [count_of, sample_two_roots]

/-- Witness of C17: in `sample_two_roots` the record 3 of the chain of the root 1 is
released, which unlinks it, and the chain `10, 11` is as before. -/
theorem roots_are_independent_witness :
    Sane sample_two_roots.heap 1 [2, 3, 4] ∧ Sane sample_two_roots.heap 10 [11] ∧
      ∃ s1, decrement 1 3 sample_two_roots = .returns 0 s1 ∧ Sane s1.heap 1 [2, 4] ∧
        (∀ q ∈ [10, 11], s1.heap q = sample_two_roots.heap q) ∧
        Sane s1.heap 10 [11] ∧
        is_sane 2 10 sample_two_roots = .returns true sample_two_roots ∧
        is_sane 2 10 s1 = .returns true s1 :=
  have hrun := decrement_unlinks sample_two_roots.heap 1 3 [2] [4] ⟨30, 8, 5, 1, 2, 4, 1⟩ [] []
    0 sample_two_roots_first.linked rfl rfl
  have w := roots_are_independent sample_two_roots _ 1 10 [2, 3, 4] [11]
    sample_two_roots_first sample_two_roots_second (List.disjoint_left.mpr (by decide))
    (Or.inr (Or.inr ⟨3, by decide, 1, congrArg Outcome.state hrun⟩))
  ⟨sample_two_roots_first, sample_two_roots_second, _, hrun,
    sample_two_roots_first.unlinked_sane, w.1, w.2.1, w.2.2 2 (by decide)⟩

end SharedAlloc
